import Mathlib

set_option maxRecDepth 40000

/-!
# Shallow embedding of the AES S-box visualizer core

This file embeds the cryptographic core of the repository (GF(2^8)
arithmetic, affine-matrix S-box generation, the AES-128 engine
parameterized by an S-box, and the S-box strength metrics) as executable
Lean definitions, and proves or refutes the specification's claims about
them.

Conventions used throughout the embedding:
* JavaScript `number[]` arrays of bytes become `List Nat`; reads
  `a[i]` become `List.getD a i 0` (the repository's loops only read
  in-bounds indices on the inputs the claims quantify over).
* Bitwise operators `^`, `&`, `|`, `<<`, `>>` on (small, nonnegative)
  JS numbers become `^^^`, `&&&`, `|||`, `<<<`, `>>>` on `Nat`.
* Floating point results (the metrics) are modeled as `ℚ`; every number
  the metrics compute is a dyadic rational with numerator and
  denominator far below 2^53, so IEEE doubles compute them exactly and
  the `ℚ` model is faithful.
* GF(2) matrix entries (the 0/1 numbers of the Gaussian elimination
  code) are modeled as `ZMod 2`; `^=` on 0/1 values is addition there.
* Thrown exceptions become `Except` with an explicit error datatype.
-/

namespace Kripto

/-! ## Galois field layer (src: core/galois.ts, core/consts.ts) -/

/-- `IRREDUCIBLE_POLY` from consts.ts. -/
def IRREDUCIBLE_POLY : Nat := 0x11B

/-- `AES_CONSTANT` from consts.ts. -/
def AES_CONSTANT : Nat := 0x63

/-- The 256-entry multiplicative-inverse table `INVERSE_TABLE` from consts.ts. -/
def INVERSE_TABLE : List Nat :=
  [0,   1,   141, 246, 203, 82,  123, 209, 232, 79,  41,  192, 176, 225, 229, 199,
   116, 180, 170, 75,  153, 43,  96,  95,  88,  63,  253, 204, 255, 64,  238, 178,
   58,  110, 90,  241, 85,  77,  168, 201, 193, 10,  152, 21,  48,  68,  162, 194,
   44,  69,  146, 108, 243, 57,  102, 66,  242, 53,  32,  111, 119, 187, 89,  25,
   29,  254, 55,  103, 45,  49,  245, 105, 167, 100, 171, 19,  84,  37,  233, 9,
   237, 92,  5,   202, 76,  36,  135, 191, 24,  62,  34,  240, 81,  236, 97,  23,
   22,  94,  175, 211, 73,  166, 54,  67,  244, 71,  145, 223, 51,  147, 33,  59,
   121, 183, 151, 133, 16,  181, 186, 60,  182, 112, 208, 6,   161, 250, 129, 130,
   131, 126, 127, 128, 150, 115, 190, 86,  155, 158, 149, 217, 247, 2,   185, 164,
   222, 106, 50,  109, 216, 138, 132, 114, 42,  20,  159, 136, 249, 220, 137, 154,
   251, 124, 46,  195, 143, 184, 101, 72,  38,  200, 18,  74,  206, 231, 210, 98,
   12,  224, 31,  239, 17,  117, 120, 113, 165, 142, 118, 61,  189, 188, 134, 87,
   11,  40,  47,  163, 218, 212, 228, 15,  169, 39,  83,  4,   27,  252, 172, 230,
   122, 7,   174, 99,  197, 219, 226, 234, 148, 139, 196, 213, 157, 248, 144, 107,
   177, 13,  214, 235, 198, 14,  207, 173, 8,   78,  215, 227, 93,  80,  30,  179,
   91,  35,  56,  52,  104, 70,  3,   140, 221, 156, 125, 160, 205, 26,  65,  28]

/-- One iteration of the `gfMultiply` loop body: given `(p, a, b)`,
XOR `p` with `a` when the low bit of `b` is set, shift `a` left inside
8 bits reducing by `0x1B` on overflow, shift `b` right. -/
def gfMulStep : Nat × Nat × Nat → Nat × Nat × Nat :=
  fun (p, tempA, tempB) =>
    let p := if tempB &&& 1 = 1 then p ^^^ tempA else p
    let hiBit := tempA &&& 0x80
    let tempA := (tempA <<< 1) &&& 0xFF
    let tempA := if hiBit ≠ 0 then tempA ^^^ (IRREDUCIBLE_POLY &&& 0xFF) else tempA
    (p, tempA, tempB >>> 1)

/-- `gfMultiply` from galois.ts: 8 iterations of the Russian-peasant loop. -/
def gfMultiply (a b : Nat) : Nat :=
  ((List.range 8).foldl (fun st _ => gfMulStep st) (0, a, b)).1

/-- `gfInverse` from galois.ts: table lookup. -/
def gfInverse (byte : Nat) : Nat :=
  INVERSE_TABLE.getD (byte &&& 0xFF) 0

/-- `gfInverseComputed` from galois.ts: `byte^254` by six
square-and-multiply rounds followed by a final squaring. -/
def gfInverseComputed (byte : Nat) : Nat :=
  if byte = 0 then 0
  else
    let result := (List.range 6).foldl
      (fun result _ => gfMultiply (gfMultiply result result) byte) byte
    gfMultiply result result

/-- `xtime` from galois.ts. -/
def xtime (byte : Nat) : Nat :=
  let result := (byte <<< 1) &&& 0xFF
  if byte &&& 0x80 ≠ 0 then result ^^^ 0x1B else result

/-- `gfMultiplyConstant` from galois.ts. -/
def gfMultiplyConstant (byte multiplier : Nat) : Nat :=
  if multiplier = 0x01 then byte
  else if multiplier = 0x02 then xtime byte
  else if multiplier = 0x03 then xtime byte ^^^ byte
  else if multiplier = 0x09 then xtime (xtime (xtime byte)) ^^^ byte
  else if multiplier = 0x0B then xtime (xtime (xtime byte)) ^^^ xtime byte ^^^ byte
  else if multiplier = 0x0D then xtime (xtime (xtime byte)) ^^^ xtime (xtime byte) ^^^ byte
  else if multiplier = 0x0E then xtime (xtime (xtime byte)) ^^^ xtime (xtime byte) ^^^ xtime byte
  else gfMultiply byte multiplier

/-- `verifyInverseTable` from galois.ts: checks
`gfMultiply i (INVERSE_TABLE i) = 1` for every `i` in 1..255. -/
def verifyInverseTable : Bool :=
  (List.range' 1 255).all fun i => gfMultiply i (INVERSE_TABLE.getD i 0) == 1

/-! ## Affine transformation layer (src: core/affine.ts, core/consts.ts) -/

/-- `K44_MATRIX` from consts.ts. -/
def K44_MATRIX : List Nat := [0x57, 0xAB, 0xD5, 0xEA, 0x75, 0xBA, 0x5D, 0xAE]

/-- `KAES_MATRIX` from consts.ts. -/
def KAES_MATRIX : List Nat := [0x8F, 0xC7, 0xE3, 0xF1, 0xF8, 0x7C, 0x3E, 0x1F]

/-- `AES_SBOX` from consts.ts: the published standard AES S-box. -/
def AES_SBOX : List Nat :=
  [99,  124, 119, 123, 242, 107, 111, 197, 48,  1,   103, 43,  254, 215, 171, 118,
   202, 130, 201, 125, 250, 89,  71,  240, 173, 212, 162, 175, 156, 164, 114, 192,
   183, 253, 147, 38,  54,  63,  247, 204, 52,  165, 229, 241, 113, 216, 49,  21,
   4,   199, 35,  195, 24,  150, 5,   154, 7,   18,  128, 226, 235, 39,  178, 117,
   9,   131, 44,  26,  27,  110, 90,  160, 82,  59,  214, 179, 41,  227, 47,  132,
   83,  209, 0,   237, 32,  252, 177, 91,  106, 203, 190, 57,  74,  76,  88,  207,
   208, 239, 170, 251, 67,  77,  51,  133, 69,  249, 2,   127, 80,  60,  159, 168,
   81,  163, 64,  143, 146, 157, 56,  245, 188, 182, 218, 33,  16,  255, 243, 210,
   205, 12,  19,  236, 95,  151, 68,  23,  196, 167, 126, 61,  100, 93,  25,  115,
   96,  129, 79,  220, 34,  42,  144, 136, 70,  238, 184, 20,  222, 94,  11,  219,
   224, 50,  58,  10,  73,  6,   36,  92,  194, 211, 172, 98,  145, 149, 228, 121,
   231, 200, 55,  109, 141, 213, 78,  169, 108, 86,  244, 234, 101, 122, 174, 8,
   186, 120, 37,  46,  28,  166, 180, 198, 232, 221, 116, 31,  75,  189, 139, 138,
   112, 62,  181, 102, 72,  3,   246, 14,  97,  53,  87,  185, 134, 193, 29,  158,
   225, 248, 152, 17,  105, 217, 142, 148, 155, 30,  135, 233, 206, 85,  40,  223,
   140, 161, 137, 13,  191, 230, 66,  104, 65,  153, 45,  15,  176, 84,  187, 22]

/-- `RCON` from consts.ts. -/
def RCON : List Nat := [0x01, 0x02, 0x04, 0x08, 0x10, 0x20, 0x40, 0x80, 0x1B, 0x36]

/-- `MIX_COLUMNS_MATRIX` from consts.ts. -/
def MIX_COLUMNS_MATRIX : List (List Nat) :=
  [[0x02, 0x03, 0x01, 0x01],
   [0x01, 0x02, 0x03, 0x01],
   [0x01, 0x01, 0x02, 0x03],
   [0x03, 0x01, 0x01, 0x02]]

/-- `INV_MIX_COLUMNS_MATRIX` from consts.ts. -/
def INV_MIX_COLUMNS_MATRIX : List (List Nat) :=
  [[0x0E, 0x0B, 0x0D, 0x09],
   [0x09, 0x0E, 0x0B, 0x0D],
   [0x0D, 0x09, 0x0E, 0x0B],
   [0x0B, 0x0D, 0x09, 0x0E]]

/-- `applyAffine` from affine.ts: for each output bit `i`, XOR together
`matrix[i][j] AND input[j]` over all `j`, assemble the output byte and
XOR it with the constant.  JS truthiness tests on the 0/1 bit values
become equality/disequality tests with the same meaning. -/
def applyAffine (byteVal : Nat) (matrix : List Nat) (constant : Nat) : Nat :=
  let result := (List.range 8).foldl
    (fun result i =>
      let bit := (List.range 8).foldl
        (fun bit j =>
          if ((matrix.getD i 0 >>> j) &&& 1) = 1 ∧ ((byteVal >>> j) &&& 1) = 1 then
            bit ^^^ 1
          else bit)
        0
      if bit ≠ 0 then result ||| (1 <<< i) else result)
    0
  result ^^^ constant

/-! ## GF(2) matrix validity and inversion (src: core/affine.ts)

The elimination code first converts the row-byte matrix into an 8×8
array of 0/1 numbers (`m[row][col] = (matrix[row] >> col) & 1`) and
then works entirely with XOR on those 0/1 entries; that array is
modeled as `Matrix (Fin 8) (Fin 8) (ZMod 2)`, where `^=` is addition. -/

/-- A GF(2) bit matrix as the JS elimination code stores it: an array
of rows, each an array of 0/1 entries. -/
abbrev BitRows := List (List (ZMod 2))

/-- Entry read `m[r][c]` on a 2D bit array. -/
def getE (m : BitRows) (r c : Nat) : ZMod 2 := (m.getD r []).getD c 0

/-- The 8×8 0/1 array `m[row][col] = (matrix[row] >> col) & 1` both
elimination routines build from the row-byte matrix. -/
def toBits (matrix : List Nat) : BitRows :=
  (List.range 8).map fun i =>
    (List.range 8).map fun j => (((matrix.getD i 0) >>> j) &&& 1 : Nat)

/-- The 8×8 identity bit array `invertMatrix` appends as the right half
of the augmented matrix. -/
def idBits : BitRows :=
  (List.range 8).map fun i =>
    (List.range 8).map fun j => if i = j then (1 : ZMod 2) else 0

/-- Pivot search: the first row index `r ≥ start` with `m[r][col] = 1`
(both `isMatrixValid` and `invertMatrix` scan rows upward and stop at
the first hit). -/
def findPivot (m : BitRows) (col start : Nat) : Option Nat :=
  (List.range 8).find? fun r => decide (start ≤ r) && decide (getE m r col = 1)

/-- Row swap `[m[a], m[b]] = [m[b], m[a]]`. -/
def swapRowsL (m : BitRows) (a b : Nat) : BitRows :=
  (m.set a (m.getD b [])).set b (m.getD a [])

/-- The inner loop `m[row][c] ^= m[piv][c]` over a whole row: XOR in
GF(2) is addition in `ZMod 2`. -/
def rowXor (x y : List (ZMod 2)) : List (ZMod 2) := x.zipWith (· + ·) y

/-- The elimination loop of `isMatrixValid`: for each row `r ≠ piv`
whose entry in column `col` is 1, XOR row `piv` into row `r`. -/
def elimRows (m : BitRows) (piv col : Nat) : BitRows :=
  (List.range 8).foldl
    (fun acc r =>
      if r ≠ piv ∧ getE acc r col = 1 then
        acc.set r (rowXor (acc.getD r []) (acc.getD piv []))
      else acc)
    m

/-- The elimination loop of `invertMatrix` on the augmented matrix,
modeled as the pair (left half, right half): the condition is read from
the left half (column `col < 8`) and the XOR of row `piv` into row `r`
is applied to all 16 columns, i.e. to both halves. -/
def elimRowsPair (st : BitRows × BitRows) (piv col : Nat) : BitRows × BitRows :=
  (List.range 8).foldl
    (fun st r =>
      if r ≠ piv ∧ getE st.1 r col = 1 then
        (st.1.set r (rowXor (st.1.getD r []) (st.1.getD piv [])),
         st.2.set r (rowXor (st.2.getD r []) (st.2.getD piv [])))
      else st)
    st

/-- One column of `isMatrixValid`'s Gaussian elimination, carrying the
current matrix and the rank: find a pivot at or below row `rank`; on a
miss leave the state unchanged (the code `continue`s), otherwise swap
the pivot row up to row `rank`, eliminate the column from all other
rows and increment the rank. -/
def validStep (st : BitRows × Nat) (col : Nat) : BitRows × Nat :=
  match findPivot st.1 col st.2 with
  | none => st
  | some piv => (elimRows (swapRowsL st.1 st.2 piv) st.2 col, st.2 + 1)

/-- `isMatrixValid` from affine.ts: Gaussian elimination over GF(2);
the matrix is invertible iff the final rank is 8. -/
def isMatrixValid (matrix : List Nat) : Bool :=
  ((List.range 8).foldl validStep (toBits matrix, 0)).2 == 8

/-- One column of `invertMatrix`'s Gauss-Jordan elimination on the
augmented pair: find a pivot at or below row `col`; a miss means the
matrix is singular (the code returns `null`), otherwise swap the pivot
row up to row `col` in both halves and eliminate. -/
def gjStep (st : BitRows × BitRows) (col : Nat) : Option (BitRows × BitRows) :=
  match findPivot st.1 col col with
  | none => none
  | some piv => some (elimRowsPair (swapRowsL st.1 col piv, swapRowsL st.2 col piv) col col)

/-- The full Gauss-Jordan run of `invertMatrix` over the augmented
`[A | I]` pair, column by column. -/
def invertMatrixAux (a : BitRows) : Option (BitRows × BitRows) :=
  (List.range 8).foldlM gjStep (a, idBits)

/-- Re-pack a GF(2) bit array into row bytes, as `invertMatrix` does
when extracting the right half of the reduced augmented matrix
(`byte |= 1 << j` for each set bit). -/
def matToBytes (m : BitRows) : List Nat :=
  (List.range 8).map fun i =>
    (List.range 8).foldl
      (fun byte j => if getE m i j = 1 then byte ||| (1 <<< j) else byte) 0

/-- `invertMatrix` from affine.ts: Gauss-Jordan on `[A | I]`, `none`
when singular, otherwise the right half as 8 row bytes. -/
def invertMatrix (matrix : List Nat) : Option (List Nat) :=
  (invertMatrixAux (toBits matrix)).map fun st => matToBytes st.2

/-! ## S-box generation layer (src: core/sbox.ts) -/

/-- `generateSBox` from sbox.ts:
`sbox[x] = applyAffine(INVERSE_TABLE[x], matrix, constant)`. -/
def generateSBox (matrix : List Nat) (constant : Nat) : List Nat :=
  (List.range 256).map fun x => applyAffine (INVERSE_TABLE.getD x 0) matrix constant

/-- `generateInverseSBox` from sbox.ts: starting from a fresh
`new Array(256)` (all slots unset, modeled as `none`), execute
`invSbox[sbox[i]] = i` for `i = 0..255`.  A slot that is never written
stays `none` (JS `undefined`). -/
def generateInverseSBox (sbox : List Nat) : List (Option Nat) :=
  (List.range 256).foldl (fun inv i => inv.set (sbox.getD i 0) (some i))
    (List.replicate 256 none)

/-! ## Metrics layer (src: core/metrics.ts)

Only the metrics the claims mention are embedded: `hammingWeight`,
`calculateSAC`, `calculateSACMatrix` and `calculateLAP`. -/

/-- The body of `hammingWeight`'s `while (num)` loop, with an explicit
iteration budget so that the definition is structurally recursive.  The
budget `fuel` is sufficient whenever `fuel ≥ n` (the loop runs at most
`log2 n + 1` times), and `hammingWeight` instantiates it with `n`
itself, so the embedding agrees with the JS loop on every input. -/
def hammingWeightAux : Nat → Nat → Nat
  | 0, _ => 0
  | fuel + 1, n => if n = 0 then 0 else (n &&& 1) + hammingWeightAux fuel (n >>> 1)

/-- `hammingWeight` from metrics.ts: count of 1 bits. -/
def hammingWeight (n : Nat) : Nat := hammingWeightAux n n

/-- The inner loop body of `calculateSAC`/`calculateSACMatrix`: the
number of inputs `x` in 0..255 for which flipping input bit `inputBit`
changes output bit `outputBit` of the S-box output. -/
def flipsCount (sbox : List Nat) (inputBit outputBit : Nat) : Nat :=
  (List.range 256).countP fun x =>
    ((sbox.getD x 0 >>> outputBit) &&& 1) != ((sbox.getD (x ^^^ (1 <<< inputBit)) 0 >>> outputBit) &&& 1)

/-- `calculateSAC` from metrics.ts: `totalFlips / totalTests` where both
accumulate over all 64 (inputBit, outputBit) pairs. -/
def calculateSAC (sbox : List Nat) : ℚ :=
  let totalFlips := (List.range 8).foldl
    (fun acc inputBit => (List.range 8).foldl
      (fun acc outputBit => acc + flipsCount sbox inputBit outputBit) acc) 0
  let totalTests := (List.range 8).foldl
    (fun acc _ => (List.range 8).foldl (fun acc _ => acc + 256) acc) 0
  (totalFlips : ℚ) / (totalTests : ℚ)

/-- `calculateSACMatrix` from metrics.ts: the 8×8 matrix of per-pair
flip probabilities, rows indexed by output bit. -/
def calculateSACMatrix (sbox : List Nat) : List (List ℚ) :=
  (List.range 8).map fun outputBit =>
    (List.range 8).map fun inputBit => (flipsCount sbox inputBit outputBit : ℚ) / 256

/-- The bias `|count/256 - 0.5|` computed in the innermost loop of
`calculateLAP` for one (inputMask, outputMask) pair. -/
def lapBias (sbox : List Nat) (inputMask outputMask : Nat) : ℚ :=
  let count := (List.range 256).countP fun x =>
    (hammingWeight (x &&& inputMask) &&& 1) == (hammingWeight (sbox.getD x 0 &&& outputMask) &&& 1)
  |(count : ℚ) / 256 - 1/2|

/-- `calculateLAP` from metrics.ts.  Note the code's outer loop runs
`inputMask` over 0..255 (the zero input mask included) while the inner
loop runs `outputMask` over 1..255. -/
def calculateLAP (sbox : List Nat) : ℚ :=
  (List.range 256).foldl
    (fun maxBias inputMask =>
      (List.range' 1 255).foldl
        (fun maxBias outputMask =>
          let bias := lapBias sbox inputMask outputMask
          if bias > maxBias then bias else maxBias)
        maxBias)
    0

/-- Spec-side definition for claim C4, following the specification's
words: the maximum of `|count/256 - 0.5|` over every NONZERO 8-bit
input mask and every nonzero 8-bit output mask (`calculateLAP` itself
additionally lets the input mask be 0). -/
def lapNonzeroMasks (sbox : List Nat) : ℚ :=
  (List.range' 1 255).foldl
    (fun maxBias inputMask =>
      (List.range' 1 255).foldl
        (fun maxBias outputMask =>
          let bias := lapBias sbox inputMask outputMask
          if bias > maxBias then bias else maxBias)
        maxBias)
    0

/-- Parity of the bit count, valued in `ZMod 2` (proof infrastructure
for the linear-approximation counting arguments). -/
def par (n : Nat) : ZMod 2 := (hammingWeight n : ZMod 2)

/-- Matrix view of a 2D bit array. -/
def matOf (m : BitRows) : Matrix (Fin 8) (Fin 8) (ZMod 2) :=
  Matrix.of fun i j => getE m (i : Nat) (j : Nat)

/-- Well-formedness of the elimination state: 8 rows of 8 entries. -/
def Dims (m : BitRows) : Prop := m.length = 8 ∧ ∀ row ∈ m, row.length = 8

/-- The Gauss-Jordan loop invariant for `invertMatrix` after the
columns before `c` have been processed: both halves stay 8×8, the right
half times the original matrix is the left half, the left half's
determinant equals the original determinant, and the processed columns
of the left half are the corresponding identity columns. -/
def GJInv (A : Matrix (Fin 8) (Fin 8) (ZMod 2)) (c : Nat) (st : BitRows × BitRows) : Prop :=
  Dims st.1 ∧ Dims st.2 ∧ matOf st.2 * A = matOf st.1 ∧ (matOf st.1).det = A.det ∧
  ∀ j : Fin 8, (j : Nat) < c → ∀ i, matOf st.1 i j = if i = j then 1 else 0

/-- The Gaussian-elimination loop invariant of `isMatrixValid` after the
columns before `c` are processed with current rank `st.2`: dimensions
are kept, the determinant is preserved, processed columns vanish at and
below the rank, and each row index below the rank owns a processed
column equal to the corresponding standard basis column. -/
def VInv (A : Matrix (Fin 8) (Fin 8) (ZMod 2)) (c : Nat) (st : BitRows × Nat) : Prop :=
  Dims st.1 ∧ st.2 ≤ c ∧ (matOf st.1).det = A.det ∧
  (∀ j : Fin 8, (j : Nat) < c → ∀ i : Fin 8, st.2 ≤ (i : Nat) → matOf st.1 i j = 0) ∧
  (∀ k : Fin 8, (k : Nat) < st.2 → ∃ j : Fin 8, (j : Nat) < c ∧
    ∀ i : Fin 8, matOf st.1 i j = (if (i : Nat) = (k : Nat) then 1 else 0))

/-- The inner loop of `applyAffine` for output bit `i`: XOR-accumulate
`1` for every `j` where both the matrix bit and the input bit are 1. -/
def innerBit (matrix : List Nat) (byteVal : Nat) (i : Nat) : Nat :=
  (List.range 8).foldl
    (fun bit j =>
      if ((matrix.getD i 0 >>> j) &&& 1) = 1 ∧ ((byteVal >>> j) &&& 1) = 1 then
        bit ^^^ 1
      else bit)
    0

/-- The GF(2) column vector of the low 8 bits of a byte. -/
def vecOf (b : Nat) : Fin 8 → ZMod 2 := fun j => (((b >>> (j : Nat)) &&& 1 : Nat) : ZMod 2)

/-! ## AES block cipher layer (src: aes.ts)

The JS `State` (a 4×4 `number[][]` in column-major byte order) is
modeled as a list of 4 rows of 4 `Nat` entries; out-of-range JS array
reads (`undefined`) use the same `getD` defaults as the rest of the
development. -/

/-- 4×4 AES state. -/
abbrev AState := List (List Nat)

/-- Entry read `state[r][c]`. -/
def stE (st : AState) (r c : Nat) : Nat := (st.getD r []).getD c 0

/-- `bytesToState` from aes.ts: `state[i % 4][i / 4] = bytes[i]`, so
row `r`, column `c` holds `bytes[r + 4c]`. -/
def bytesToState (bytes : List Nat) : AState :=
  (List.range 4).map fun r => (List.range 4).map fun c => bytes.getD (r + 4 * c) 0

/-- `stateToBytes` from aes.ts: `bytes[i] = state[i % 4][i / 4]`. -/
def stateToBytes (st : AState) : List Nat :=
  (List.range 16).map fun i => stE st (i % 4) (i / 4)

/-- `subBytes` from aes.ts: substitute every entry through the S-box. -/
def subBytes (st : AState) (sbox : List Nat) : AState :=
  st.map fun row => row.map fun v => sbox.getD v 0

/-- `shiftRows` from aes.ts: row `r` is rotated left by `r`. -/
def shiftRows (st : AState) : AState :=
  (List.range 4).map fun r => (List.range 4).map fun c => stE st r ((c + r) % 4)

/-- `invShiftRows` from aes.ts: row `r` is rotated right by `r`
(the JS index `(col - row + 4) % 4` written without subtraction
underflow). -/
def invShiftRows (st : AState) : AState :=
  (List.range 4).map fun r => (List.range 4).map fun c => stE st r ((c + 4 - r) % 4)

/-- `mixColumns` from aes.ts: per column multiply by
`MIX_COLUMNS_MATRIX` in GF(2^8), accumulating with XOR. -/
def mixColumns (st : AState) : AState :=
  (List.range 4).map fun row => (List.range 4).map fun col =>
    (List.range 4).foldl
      (fun sum k => sum ^^^ gfMultiplyConstant (stE st k col)
        ((MIX_COLUMNS_MATRIX.getD row []).getD k 0)) 0

/-- `invMixColumns` from aes.ts: per column multiply by
`INV_MIX_COLUMNS_MATRIX`. -/
def invMixColumns (st : AState) : AState :=
  (List.range 4).map fun row => (List.range 4).map fun col =>
    (List.range 4).foldl
      (fun sum k => sum ^^^ gfMultiplyConstant (stE st k col)
        ((INV_MIX_COLUMNS_MATRIX.getD row []).getD k 0)) 0

/-- `addRoundKey` from aes.ts: entrywise XOR with the round key. -/
def addRoundKey (st roundKey : AState) : AState :=
  (List.range 4).map fun i => (List.range 4).map fun j =>
    stE st i j ^^^ stE roundKey i j

/-- `invSubBytes` from aes.ts, applied to the `Option`-valued table
produced by `generateInverseSBox`: a JS read of an `undefined` slot
poisons the computation, modeled by propagating `none`. -/
def invSubBytes (st : AState) (invSbox : List (Option Nat)) : Option AState :=
  st.mapM fun row => row.mapM fun v => invSbox.getD v none

/-- One word of the `W` schedule of `keyExpansion` for `i ≥ 4`:
`RotWord`/`SubWord`/`Rcon` on multiples of 4, then XOR into `W[i-4]`. -/
def keyExpandWord (sbox : List Nat) (W : List (List Nat)) (i : Nat) : List (List Nat) :=
  let temp := W.getD (i - 1) []
  let temp :=
    if i % 4 = 0 then
      let t := [temp.getD 1 0, temp.getD 2 0, temp.getD 3 0, temp.getD 0 0]
      let t := t.map fun b => sbox.getD b 0
      [t.getD 0 0 ^^^ RCON.getD (i / 4 - 1) 0, t.getD 1 0, t.getD 2 0, t.getD 3 0]
    else temp
  W ++ [(W.getD (i - 4) []).zipWith (fun a b => a ^^^ b) temp]

/-- `keyExpansion` from aes.ts: 44 four-byte words, re-packed into 11
round keys with `roundKey[row][col] = W[4·round + col][row]`. -/
def keyExpansion (key : List Nat) (sbox : List Nat) : List AState :=
  let W0 := (List.range 4).map fun i =>
    [key.getD (4 * i) 0, key.getD (4 * i + 1) 0, key.getD (4 * i + 2) 0,
     key.getD (4 * i + 3) 0]
  let W := (List.range' 4 40).foldl (keyExpandWord sbox) W0
  (List.range 11).map fun round =>
    (List.range 4).map fun row => (List.range 4).map fun col =>
      (W.getD (round * 4 + col) []).getD row 0

/-- One middle round (1–9) of `encryptBlock`. -/
def encRound (roundKeys : List AState) (sbox : List Nat) (st : AState) (round : Nat) :
    AState :=
  addRoundKey (mixColumns (shiftRows (subBytes st sbox))) (roundKeys.getD round [])

/-- `encryptBlock` from aes.ts. -/
def encryptBlock (block key sbox : List Nat) : List Nat :=
  let roundKeys := keyExpansion key sbox
  let st := addRoundKey (bytesToState block) (roundKeys.getD 0 [])
  let st := (List.range' 1 9).foldl (encRound roundKeys sbox) st
  stateToBytes (addRoundKey (shiftRows (subBytes st sbox)) (roundKeys.getD 10 []))

/-- One middle round (9 down to 1) of `decryptBlock`. -/
def decRound (roundKeys : List AState) (invSbox : List (Option Nat)) (st : AState)
    (round : Nat) : Option AState :=
  invSubBytes (invShiftRows (invMixColumns (addRoundKey st (roundKeys.getD round []))))
    invSbox

/-- `decryptBlock` from aes.ts (failing JS `undefined` inverse-table
reads propagate as `none`). -/
def decryptBlock (block key sbox : List Nat) : Option (List Nat) := do
  let invSbox := generateInverseSBox sbox
  let roundKeys := keyExpansion key sbox
  let st ← invSubBytes
    (invShiftRows (addRoundKey (bytesToState block) (roundKeys.getD 10 []))) invSbox
  let st ← ((List.range' 1 9).reverse).foldlM (decRound roundKeys invSbox) st
  pure (stateToBytes (addRoundKey st (roundKeys.getD 0 [])))

/-- `pkcs7Pad` from aes.ts: append `16 - len % 16` copies of that very
value. -/
def pkcs7Pad (data : List Nat) : List Nat :=
  data ++ List.replicate (16 - data.length % 16) (16 - data.length % 16)

/-- The explicit padding failures `pkcs7Unpad` raises. -/
inductive PadError where
  | emptyData : PadError
  | badLength (padLen : Nat) : PadError
  | exceedsData (padLen dataLen : Nat) : PadError
  | badByte (pos expected got : Nat) : PadError
deriving DecidableEq, Repr

/-- `pkcs7Unpad` from aes.ts: the empty/range/length checks in source
order, then the first wrong trailing byte (the JS loop throws at the
first mismatch), else the data with the padding stripped. -/
def pkcs7Unpad (data : List Nat) : Except PadError (List Nat) :=
  if data.length = 0 then .error .emptyData
  else
    let padLen := data.getD (data.length - 1) 0
    if padLen > 16 ∨ padLen = 0 then .error (.badLength padLen)
    else if padLen > data.length then .error (.exceedsData padLen data.length)
    else
      match (List.range' (data.length - padLen) padLen).find?
          (fun i => decide (data.getD i 0 ≠ padLen)) with
      | some i => .error (.badByte i padLen (data.getD i 0))
      | none => .ok (data.take (data.length - padLen))

/-- The 16-byte chunks `slice(i, i+16)` of the ECB loops, with an
explicit budget making the recursion structural (`fuel ≥ data.length`
reproduces the JS loop exactly). -/
def chunks16 : Nat → List Nat → List (List Nat)
  | 0, _ => []
  | fuel + 1, data => if data.length = 0 then [] else data.take 16 :: chunks16 fuel (data.drop 16)

/-- The key canonicalization both `encrypt` and `decrypt` perform on
the key string before UTF-8 encoding: `padEnd(16, '\0').slice(0, 16)`
on the code-point sequence. -/
def canonKey (keyStr : List Nat) : List Nat :=
  (keyStr ++ List.replicate (16 - keyStr.length) 0).take 16

/-- Modelled from the spec of the platform `TextEncoder` (WHATWG
Encoding): UTF-8 bytes of one Unicode scalar value, in arithmetic
form. -/
def utf8EncodeChar (c : Nat) : List Nat :=
  if c < 0x80 then [c]
  else if c < 0x800 then [0xC0 + c / 64, 0x80 + c % 64]
  else if c < 0x10000 then [0xE0 + c / 4096, 0x80 + c / 64 % 64, 0x80 + c % 64]
  else [0xF0 + c / 262144, 0x80 + c / 4096 % 64, 0x80 + c / 64 % 64, 0x80 + c % 64]

/-- Modelled from the spec of the platform `TextEncoder`: a string is
its sequence of Unicode scalar values, encoded to UTF-8. -/
def utf8Encode (s : List Nat) : List Nat := s.flatMap utf8EncodeChar

/-- Modelled from the spec of the platform `TextDecoder` (strict
variant: a malformed sequence gives `none`; the claims below only
decode well-formed encoder output, where the two behaviours agree).
The budget makes the recursion structural; `fuel ≥ bytes.length`
suffices. -/
def utf8Decode : Nat → List Nat → Option (List Nat)
  | _, [] => some []
  | 0, _ :: _ => none
  | fuel + 1, b :: rest =>
    if b < 0x80 then (utf8Decode fuel rest).map (b :: ·)
    else if b < 0xE0 then
      match rest with
      | b2 :: rest2 =>
        if 0xC2 ≤ b ∧ 0x80 ≤ b2 ∧ b2 < 0xC0 then
          (utf8Decode fuel rest2).map (((b - 0xC0) * 64 + (b2 - 0x80)) :: ·)
        else none
      | [] => none
    else if b < 0xF0 then
      match rest with
      | b2 :: b3 :: rest3 =>
        if 0x80 ≤ b2 ∧ b2 < 0xC0 ∧ 0x80 ≤ b3 ∧ b3 < 0xC0 then
          let v := (b - 0xE0) * 4096 + (b2 - 0x80) * 64 + (b3 - 0x80)
          if 0x800 ≤ v ∧ ¬(0xD800 ≤ v ∧ v < 0xE000) then
            (utf8Decode fuel rest3).map (v :: ·)
          else none
        else none
      | _ => none
    else
      match rest with
      | b2 :: b3 :: b4 :: rest4 =>
        if b < 0xF5 ∧ 0x80 ≤ b2 ∧ b2 < 0xC0 ∧ 0x80 ≤ b3 ∧ b3 < 0xC0 ∧ 0x80 ≤ b4 ∧ b4 < 0xC0
        then
          let v := (b - 0xF0) * 262144 + (b2 - 0x80) * 4096 + (b3 - 0x80) * 64 + (b4 - 0x80)
          if 0x10000 ≤ v ∧ v < 0x110000 then (utf8Decode fuel rest4).map (v :: ·)
          else none
        else none
      | _ => none

/-- A Unicode scalar value (what a well-formed string is made of). -/
def isScalar (c : Nat) : Prop := c < 0x110000 ∧ ¬(0xD800 ≤ c ∧ c < 0xE000)

/-- `encrypt` from aes.ts: UTF-8 encode, PKCS7 pad, canonicalize the
key, ECB-encrypt the 16-byte chunks. -/
def encrypt (plaintext keyStr sbox : List Nat) : List Nat :=
  let data := pkcs7Pad (utf8Encode plaintext)
  let key := utf8Encode (canonKey keyStr)
  (chunks16 data.length data).flatMap fun b => encryptBlock b key sbox

/-- The failure modes of `decrypt`: the explicit padding exception of
the source, plus the two JS non-value outcomes (`undefined` S-box
slots poisoning the bytes, malformed UTF-8 in the decoded text)
modeled as errors. -/
inductive DecryptError where
  | invalidPadding (e : PadError) : DecryptError
  | undefinedLookup : DecryptError
  | malformedUtf8 : DecryptError
deriving DecidableEq, Repr

/-- `decrypt` from aes.ts: canonicalize the key, ECB-decrypt the
chunks, strip PKCS7 (propagating its exception), UTF-8 decode. -/
def decrypt (ciphertext keyStr sbox : List Nat) : Except DecryptError (List Nat) :=
  let key := utf8Encode (canonKey keyStr)
  match (chunks16 ciphertext.length ciphertext).mapM
      (fun b => decryptBlock b key sbox) with
  | none => .error .undefinedLookup
  | some blocks =>
    match pkcs7Unpad blocks.flatten with
    | .error e => .error (.invalidPadding e)
    | .ok unpadded =>
      match utf8Decode unpadded.length unpadded with
      | none => .error .malformedUtf8
      | some cps => .ok cps

/-- The step operations recorded by `encryptBlockWithSteps`. -/
inductive Operation where
  | initial : Operation
  | subBytes : Operation
  | shiftRows : Operation
  | mixColumns : Operation
  | addRoundKey : Operation
deriving DecidableEq, Repr

/-- One `EncryptionStep` record of aes.ts. -/
structure EncryptionStep where
  round : Nat
  operation : Operation
  state : AState
  roundKey : Option AState
deriving DecidableEq, Repr

/-- `encryptBlockWithSteps` from aes.ts: the ciphertext, the ordered
step trace, and the round keys. -/
def encryptBlockWithSteps (block key sbox : List Nat) :
    List Nat × List EncryptionStep × List AState :=
  let roundKeys := keyExpansion key sbox
  let st0 := bytesToState block
  let st1 := addRoundKey st0 (roundKeys.getD 0 [])
  let start : AState × List EncryptionStep :=
    (st1, [⟨0, .initial, st0, none⟩, ⟨0, .addRoundKey, st1, some (roundKeys.getD 0 [])⟩])
  let mid := (List.range' 1 9).foldl
    (fun acc round =>
      let s1 := subBytes acc.1 sbox
      let s2 := shiftRows s1
      let s3 := mixColumns s2
      let s4 := addRoundKey s3 (roundKeys.getD round [])
      (s4, acc.2 ++ [⟨round, .subBytes, s1, none⟩, ⟨round, .shiftRows, s2, none⟩,
        ⟨round, .mixColumns, s3, none⟩,
        ⟨round, .addRoundKey, s4, some (roundKeys.getD round [])⟩]))
    start
  let s1 := subBytes mid.1 sbox
  let s2 := shiftRows s1
  let s3 := addRoundKey s2 (roundKeys.getD 10 [])
  (stateToBytes s3,
   mid.2 ++ [⟨10, .subBytes, s1, none⟩, ⟨10, .shiftRows, s2, none⟩,
     ⟨10, .addRoundKey, s3, some (roundKeys.getD 10 [])⟩],
   roundKeys)

/-- Replay of one recorded operation, as the step-trace claim reads
it: apply the operation to a state, with the recorded round key for
`addRoundKey` steps. -/
def applyOp (sbox : List Nat) (roundKey : Option AState) (op : Operation) (st : AState) :
    AState :=
  match op with
  | .initial => st
  | .subBytes => subBytes st sbox
  | .shiftRows => shiftRows st
  | .mixColumns => mixColumns st
  | .addRoundKey => addRoundKey st (roundKey.getD [])

/-- Well-formed 4×4 state. -/
def St4 (st : AState) : Prop := st.length = 4 ∧ ∀ r ∈ st, r.length = 4

/-- Well-formed 4×4 state of bytes. -/
def StB (st : AState) : Prop :=
  St4 st ∧ ∀ r ∈ st, ∀ v ∈ r, v < 256

/-- The (r,m) entry of the `INV_MIX_COLUMNS_MATRIX · MIX_COLUMNS_MATRIX`
composite acting on a byte, exactly as the two nested loops compute
it. -/
def mcComp (r m x : Nat) : Nat :=
  ((gfMultiplyConstant (gfMultiplyConstant x ((MIX_COLUMNS_MATRIX.getD 0 []).getD m 0))
      ((INV_MIX_COLUMNS_MATRIX.getD r []).getD 0 0)
    ^^^ gfMultiplyConstant (gfMultiplyConstant x ((MIX_COLUMNS_MATRIX.getD 1 []).getD m 0))
      ((INV_MIX_COLUMNS_MATRIX.getD r []).getD 1 0))
    ^^^ gfMultiplyConstant (gfMultiplyConstant x ((MIX_COLUMNS_MATRIX.getD 2 []).getD m 0))
      ((INV_MIX_COLUMNS_MATRIX.getD r []).getD 2 0))
    ^^^ gfMultiplyConstant (gfMultiplyConstant x ((MIX_COLUMNS_MATRIX.getD 3 []).getD m 0))
      ((INV_MIX_COLUMNS_MATRIX.getD r []).getD 3 0)

/-- Entrywise byte bound for a (possibly defaulted) round-key read. -/
def KB (k : AState) : Prop := ∀ r c : Nat, stE k r c < 256

/-- All words of the key schedule stay bytes. -/
def WInv (W : List (List Nat)) : Prop := ∀ w ∈ W, ∀ b ∈ w, b < 256

end Kripto

namespace Kripto

/-! ## General-purpose lemmas -/


theorem hammingWeightAux_eq : ∀ n fuel, n ≤ fuel → hammingWeightAux fuel n = hammingWeight n := by
  intro n
  induction n using Nat.strong_induction_on with
  | _ n ih =>
    intro fuel h
    match fuel, n with
    | fuel, 0 => cases fuel <;> simp [hammingWeightAux, hammingWeight]
    | fuel + 1, m + 1 =>
      show hammingWeightAux (fuel + 1) (m + 1) = hammingWeightAux (m + 1) (m + 1)
      rw [hammingWeightAux, hammingWeightAux]
      simp only [Nat.succ_ne_zero, if_false]
      have h2 : (m + 1) >>> 1 < m + 1 := by
        simp [Nat.shiftRight_one]; omega
      rw [ih _ h2 fuel (by simp [Nat.shiftRight_one] at h2 ⊢; omega),
          ih _ h2 m (by simp [Nat.shiftRight_one] at h2 ⊢; omega)]

theorem hammingWeight_rec (n : Nat) (h : n ≠ 0) :
    hammingWeight n = (n &&& 1) + hammingWeight (n / 2) := by
  obtain ⟨m, rfl⟩ : ∃ m, n = m + 1 := ⟨n - 1, by omega⟩
  show hammingWeightAux (m + 1) (m + 1) = _
  rw [hammingWeightAux]
  simp only [Nat.succ_ne_zero, if_false]
  rw [Nat.shiftRight_one, hammingWeightAux_eq _ _ (by omega)]

theorem par_rec (n : Nat) (h : n ≠ 0) : par n = ((n &&& 1 : Nat) : ZMod 2) + par (n / 2) := by
  unfold par
  rw [hammingWeight_rec n h, Nat.cast_add]

theorem par_xor (a b : Nat) : par (a ^^^ b) = par a + par b := by
  induction a using Nat.strong_induction_on generalizing b with
  | _ a ih =>
    rcases eq_or_ne a 0 with rfl | ha
    · simp [par, hammingWeight, hammingWeightAux]
    rcases eq_or_ne b 0 with rfl | hb
    · simp [par, hammingWeight, hammingWeightAux]
    rcases eq_or_ne (a ^^^ b) 0 with hab | hab
    · rw [hab, Nat.xor_eq_zero.mp hab]
      simp [par, hammingWeight, hammingWeightAux, CharTwo.add_self_eq_zero]
    · rw [par_rec _ hab, par_rec _ ha, par_rec _ hb]
      have hx : (a ^^^ b) &&& 1 = (a &&& 1) ^^^ (b &&& 1) := Nat.and_xor_distrib_right ..
      have hd : (a ^^^ b) / 2 = a / 2 ^^^ b / 2 := Nat.xor_div_two
      rw [hx, hd, ih (a / 2) (by omega)]
      have hcast : ∀ u v : Nat, u ≤ 1 → v ≤ 1 → ((u ^^^ v : Nat) : ZMod 2) = (u : ZMod 2) + v := by
        intro u v hu hv
        interval_cases u <;> interval_cases v <;> decide
      rw [hcast _ _ (Nat.and_le_right) (Nat.and_le_right)]
      ring

theorem par_two_pow (b : Nat) : par (2 ^ b) = 1 := by
  induction b with
  | zero => decide
  | succ k ih =>
    rw [par_rec _ (by positivity)]
    have h1 : 2 ^ (k + 1) &&& 1 = 0 := by
      rw [Nat.and_one_is_mod, Nat.pow_succ, Nat.mul_mod_left]
    have h2 : 2 ^ (k + 1) / 2 = 2 ^ k := by
      rw [Nat.pow_succ, Nat.mul_div_cancel _ (by norm_num)]
    rw [h1, h2, ih]
    simp

theorem countP_range_eq_card_filter (n : Nat) (q : Nat → Prop) [DecidablePred q] :
    (List.range n).countP (fun a => decide (q a)) = ((Finset.range n).filter q).card := by
  simp [List.countP_eq_length_filter, Finset.filter, Finset.range, Multiset.range,
    Multiset.filter_coe]

theorem count_parity_balance (m : Nat) (hm : m ≠ 0) (hm8 : m < 256) (c : ZMod 2) :
    ((List.range 256).countP fun x => decide (par (x &&& m) = c)) = 128 := by
  obtain ⟨b, hb, _⟩ := Nat.exists_most_significant_bit hm
  have hb8 : b < 8 := by
    by_contra h
    have : m < 2 ^ b := lt_of_lt_of_le hm8 (by
      calc (256 : Nat) = 2 ^ 8 := by norm_num
      _ ≤ 2 ^ b := Nat.pow_le_pow_right (by norm_num) (by omega))
    rw [Nat.testBit_lt_two_pow this] at hb
    exact Bool.false_ne_true hb
  rw [countP_range_eq_card_filter]
  have key : ∀ x, par ((x ^^^ 2 ^ b) &&& m) = par (x &&& m) + 1 := by
    intro x
    have h1 : (x ^^^ 2 ^ b) &&& m = (x &&& m) ^^^ (2 ^ b &&& m) := Nat.and_xor_distrib_right
    have h2 : 2 ^ b &&& m = 2 ^ b := by
      apply Nat.eq_of_testBit_eq
      intro i
      rcases eq_or_ne i b with rfl | hne
      · simp [Nat.testBit_and, Nat.testBit_two_pow_self, hb]
      · simp [Nat.testBit_and, Nat.testBit_two_pow_of_ne (Ne.symm hne)]
    rw [h1, h2, par_xor, par_two_pow]
  have hmem : ∀ x ∈ Finset.range 256, x ^^^ 2 ^ b ∈ Finset.range 256 := by
    intro x hx
    rw [Finset.mem_range] at hx ⊢
    have h8 : (256 : Nat) = 2 ^ 8 := by norm_num
    rw [h8] at hx ⊢
    exact Nat.xor_lt_two_pow hx (Nat.pow_lt_pow_right (by norm_num) hb8)
  have hflip : ∀ x, (x ^^^ 2 ^ b) ^^^ 2 ^ b = x := by
    intro x
    rw [Nat.xor_assoc, Nat.xor_self, Nat.xor_zero]
  have haux : ∀ z d : ZMod 2, z ≠ d → z + 1 = d := by decide
  have haux2 : ∀ d : ZMod 2, ¬(d + 1 = d) := by decide
  have hcard : ((Finset.range 256).filter fun x => par (x &&& m) = c).card
      = ((Finset.range 256).filter fun x => ¬(par (x &&& m) = c)).card := by
    refine Finset.card_nbij' (fun x => x ^^^ 2 ^ b) (fun x => x ^^^ 2 ^ b) ?_ ?_ ?_ ?_
    · intro x hx
      rw [Finset.mem_filter] at hx ⊢
      refine ⟨hmem x hx.1, ?_⟩
      rw [key, hx.2]
      exact haux2 c
    · intro x hx
      rw [Finset.mem_filter] at hx ⊢
      exact ⟨hmem x hx.1, by rw [key]; exact haux _ _ hx.2⟩
    · intro x _
      exact hflip x
    · intro x _
      exact hflip x
  have htotal := Finset.filter_card_add_filter_neg_card_eq_card
    (s := Finset.range 256) (p := fun x => par (x &&& m) = c)
  rw [Finset.card_range] at htotal
  omega

theorem foldl_ite_gt_eq_max {α : Type} (f : α → ℚ) (l : List α) (a : ℚ) :
    l.foldl (fun acc x => if f x > acc then f x else acc) a
      = l.foldl (fun acc x => max acc (f x)) a := by
  have h : (fun (acc : ℚ) x => if f x > acc then f x else acc)
      = fun acc x => max acc (f x) := by
    funext acc x
    rcases le_or_lt (f x) acc with h | h
    · rw [if_neg (not_lt.mpr h), max_eq_left h]
    · rw [if_pos h, max_eq_right h.le]
  rw [h]

theorem foldl_max_of_le {α : Type} (f : α → ℚ) (l : List α) (a : ℚ)
    (h : ∀ x ∈ l, f x ≤ a) : l.foldl (fun acc x => max acc (f x)) a = a := by
  induction l generalizing a with
  | nil => rfl
  | cons x t ih =>
    simp only [List.foldl_cons]
    rw [max_eq_left (h x (by simp))]
    exact ih a fun y hy => h y (by simp [hy])

theorem foldl_max_of_const {α : Type} (f : α → ℚ) (l : List α) (a c : ℚ)
    (hne : l ≠ []) (h : ∀ x ∈ l, f x = c) :
    l.foldl (fun acc x => max acc (f x)) a = max a c := by
  induction l generalizing a with
  | nil => exact absurd rfl hne
  | cons x t ih =>
    simp only [List.foldl_cons]
    rw [h x (by simp)]
    rcases eq_or_ne t [] with rfl | ht
    · rfl
    · rw [ih (max a c) ht fun y hy => h y (by simp [hy]), max_assoc, max_self]

theorem foldl_fixed {α β : Type} (g : β → α → β) (l : List α) (a : β)
    (h : ∀ x ∈ l, g a x = a) : l.foldl g a = a := by
  induction l with
  | nil => rfl
  | cons x t ih =>
    simp only [List.foldl_cons, h x (by simp)]
    exact ih fun y hy => h y (by simp [hy])

theorem parity_beq (u v : Nat) :
    (hammingWeight u &&& 1 == hammingWeight v &&& 1) = decide (par u = par v) := by
  rw [Nat.and_one_is_mod, Nat.and_one_is_mod]
  have h : ∀ w : Nat, hammingWeight w % 2 = (par w).val := by
    intro w; rw [par, ZMod.val_natCast]
  rw [h, h]
  have haux : ∀ a b : ZMod 2, ((a.val == b.val) : Bool) = decide (a = b) := by decide
  exact haux _ _

theorem getD_replicate_zero (x : Nat) : (List.replicate 256 (0 : Nat)).getD x 0 = 0 := by
  rcases lt_or_ge x 256 with h | h
  · rw [List.getD_eq_getElem _ _ (by rw [List.length_replicate]; exact h),
      List.getElem_replicate]
  · rw [List.getD_eq_default _ _ (by rw [List.length_replicate]; exact h)]

theorem map_getD_range (l : List Nat) (h : l.length = 256) :
    (List.range 256).map (fun x => l.getD x 0) = l := by
  apply List.ext_getElem
  · rw [List.length_map, List.length_range, h]
  · intro i h1 h2
    rw [List.getElem_map, List.getElem_range,
      List.getD_eq_getElem _ _
        (by rw [h]; rw [List.length_map, List.length_range] at h1; exact h1)]

theorem foldl_or_testBit (l : List Nat) (a v : Nat)
    (h : (l.foldl (fun acc x => acc ||| (1 <<< x)) a).testBit v = true) :
    a.testBit v = true ∨ v ∈ l := by
  induction l generalizing a with
  | nil => exact Or.inl h
  | cons x t ih =>
    rcases ih _ h with h1 | h1
    · rw [Nat.testBit_or, Bool.or_eq_true] at h1
      rcases h1 with h1 | h1
      · exact Or.inl h1
      · right
        rw [Nat.shiftLeft_eq, one_mul, Nat.testBit_two_pow] at h1
        simp [of_decide_eq_true h1]
    · exact Or.inr (by simp [h1])

/-- A length-256 list of naturals whose one-hot bitmap fold fills all
of the low 256 bits is a permutation of `0..255`. -/
theorem perm_range_of_bitmap (l : List Nat) (hlen : l.length = 256)
    (hbit : l.foldl (fun acc v => acc ||| (1 <<< v)) 0 = 2 ^ 256 - 1) :
    l.Perm (List.range 256) := by
  have hsub : List.range 256 ⊆ l := by
    intro v hv
    rw [List.mem_range] at hv
    have ht : (l.foldl (fun acc v => acc ||| (1 <<< v)) 0).testBit v = true := by
      rw [hbit, Nat.testBit_two_pow_sub_one]
      exact decide_eq_true hv
    rcases foldl_or_testBit l 0 v ht with h | h
    · rw [Nat.zero_testBit] at h
      exact absurd h (by simp)
    · exact h
  have hsp : (List.range 256).Subperm l :=
    List.subperm_of_subset (List.nodup_range 256) hsub
  exact (hsp.perm_of_length_le (by rw [hlen, List.length_range])).symm

/-! ## Claim C4 -/

theorem lapBias_repl_zero_mask (om : Nat) :
    lapBias (List.replicate 256 0) 0 om = 1/2 := by
  unfold lapBias
  have hp : (fun x => (hammingWeight (x &&& 0) &&& 1
      == hammingWeight ((List.replicate 256 0).getD x 0 &&& om) &&& 1)) = fun _ => true := by
    funext x
    rw [Nat.and_zero, getD_replicate_zero, Nat.zero_and]
    simp
  rw [hp, List.countP_true, List.length_range]
  norm_num

theorem lapBias_repl_nonzero_mask (im om : Nat) (h1 : im ≠ 0) (h2 : im < 256) :
    lapBias (List.replicate 256 0) im om = 0 := by
  unfold lapBias
  have hp : (fun x => (hammingWeight (x &&& im) &&& 1
      == hammingWeight ((List.replicate 256 0).getD x 0 &&& om) &&& 1))
      = fun x => decide (par (x &&& im) = 0) := by
    funext x
    have hz : par 0 = 0 := by decide
    rw [getD_replicate_zero, Nat.zero_and, parity_beq, hz]
  rw [hp, count_parity_balance im h1 h2 0]
  norm_num

/-- C4 counterexample: on the constant-zero 256-entry S-box the code's
`calculateLAP` returns 1/2 — the contribution of the zero input mask —
while the maximum over nonzero input and output masks only is 0, so the
claim's equality fails for this S-box. -/
theorem calculateLAP_counterexample :
    calculateLAP (List.replicate 256 0) = 1/2
      ∧ lapNonzeroMasks (List.replicate 256 0) = 0 := by
  have h256 : List.range 256 = 0 :: List.range' 1 255 := by
    rw [List.range_eq_range']
    rfl
  have hne : (List.range' 1 255 : List Nat) ≠ [] := by
    intro h
    simpa using congrArg List.length h
  constructor
  · unfold calculateLAP
    rw [h256, List.foldl_cons]
    simp only [foldl_ite_gt_eq_max]
    rw [foldl_max_of_const _ _ _ _ hne fun om _ => lapBias_repl_zero_mask om]
    rw [max_eq_right (by norm_num)]
    apply foldl_fixed
    intro im him
    rw [List.mem_range'_1] at him
    apply foldl_max_of_le
    intro om _
    rw [lapBias_repl_nonzero_mask im om (by omega) (by omega)]
    norm_num
  · unfold lapNonzeroMasks
    simp only [foldl_ite_gt_eq_max]
    apply foldl_fixed
    intro im him
    rw [List.mem_range'_1] at him
    apply foldl_max_of_le
    intro om _
    rw [lapBias_repl_nonzero_mask im om (by omega) (by omega)]

theorem lapBias_zero_mask_of_perm (sbox : List Nat) (hperm : sbox.Perm (List.range 256))
    (om : Nat) (h1 : om ≠ 0) (h2 : om < 256) : lapBias sbox 0 om = 0 := by
  unfold lapBias
  have hq : (fun x => (hammingWeight (x &&& 0) &&& 1
      == hammingWeight (sbox.getD x 0 &&& om) &&& 1))
      = (fun y => decide (par (y &&& om) = 0)) ∘ (fun x => sbox.getD x 0) := by
    funext x
    have hz : par 0 = 0 := by decide
    rw [Nat.and_zero, parity_beq, hz, Function.comp_apply]
    exact decide_eq_decide.mpr eq_comm
  rw [hq, ← List.countP_map, map_getD_range sbox (hperm.length_eq.trans (List.length_range 256)),
    hperm.countP_eq, count_parity_balance om h1 h2 0]
  norm_num

/-- C4 amended: on every 256-entry S-box that is a permutation of
0..255, `calculateLAP` returns the maximum, over every nonzero 8-bit
input mask and every nonzero 8-bit output mask, of `|count/256 - 0.5|`
(the zero-input-mask terms the code also examines never contribute). -/
theorem calculateLAP_eq_nonzeroMasks (sbox : List Nat)
    (hperm : sbox.Perm (List.range 256)) :
    calculateLAP sbox = lapNonzeroMasks sbox := by
  have h256 : List.range 256 = 0 :: List.range' 1 255 := by
    rw [List.range_eq_range']
    rfl
  unfold calculateLAP lapNonzeroMasks
  rw [h256, List.foldl_cons]
  simp only [foldl_ite_gt_eq_max]
  have hzero : (List.range' 1 255).foldl
      (fun maxBias outputMask => max maxBias (lapBias sbox 0 outputMask)) 0 = 0 := by
    apply foldl_max_of_le
    intro om hom
    rw [List.mem_range'_1] at hom
    rw [lapBias_zero_mask_of_perm sbox hperm om (by omega) (by omega)]
  rw [hzero]

/-- Witness for the amended C4 at the standard AES S-box. -/
theorem calculateLAP_eq_nonzeroMasks_witness :
    AES_SBOX.Perm (List.range 256) ∧ calculateLAP AES_SBOX = lapNonzeroMasks AES_SBOX := by
  have hperm : AES_SBOX.Perm (List.range 256) :=
    perm_range_of_bitmap AES_SBOX (by rfl) (by rfl)
  exact ⟨hperm, calculateLAP_eq_nonzeroMasks AES_SBOX hperm⟩

theorem foldl_add_eq_sum {α M : Type} [AddCommMonoid M] (f : α → M) (l : List α) (a : M) :
    l.foldl (fun acc x => acc + f x) a = a + (l.map f).sum := by
  induction l generalizing a with
  | nil => simp
  | cons x t ih => simp [ih, add_assoc]

theorem sum_map_range {M : Type} [AddCommMonoid M] (f : Nat → M) (n : Nat) :
    ((List.range n).map f).sum = ∑ i ∈ Finset.range n, f i := by
  induction n with
  | zero => simp
  | succ m ih =>
    rw [List.range_succ, Finset.sum_range_succ, List.map_append, List.sum_append, ih]; simp

/-! ## Claim C10 -/

/-- C10: for every 256-entry S-box, `calculateSAC` equals the
arithmetic mean of the 64 entries of the 8×8 matrix returned by
`calculateSACMatrix`. -/
theorem calculateSAC_eq_mean_calculateSACMatrix (sbox : List Nat) :
    calculateSAC sbox = ((calculateSACMatrix sbox).map List.sum).sum / 64 := by
  unfold calculateSAC calculateSACMatrix
  simp only [foldl_add_eq_sum, List.map_map, sum_map_range, Function.comp_def, zero_add]
  push_cast
  rw [Finset.sum_comm]
  simp only [Finset.sum_const, Finset.card_range, nsmul_eq_mul, ← Finset.sum_div, div_div]
  norm_num

/-! ## Claim C2 -/

/-- C2: `generateSBox` on the stored `KAES_MATRIX` with constant `0x63`
does NOT reproduce the published AES S-box: entry 1 evaluates to `0xEC`
(236) while `AES_SBOX` holds 124 there, because the stored bytes of
`KAES_MATRIX` are bit-reversed with respect to the LSB-first row
convention `applyAffine` reads (the matrix's own doc comment documents
rows that would be the bytes `0xF1, 0xE3, ...`).  The claim's second
half does hold: on `K44_MATRIX` the first three entries are `0x63`,
`0x34`, `0xA5`. -/
theorem generateSBox_KAES_entry1 :
    (generateSBox KAES_MATRIX 0x63).getD 1 0 = 0xEC ∧ AES_SBOX.getD 1 0 = 0x7C ∧
    (generateSBox K44_MATRIX 0x63).getD 0 0 = 0x63 ∧
    (generateSBox K44_MATRIX 0x63).getD 1 0 = 0x34 ∧
    (generateSBox K44_MATRIX 0x63).getD 2 0 = 0xA5 := by
  refine ⟨by rfl, by rfl, by rfl, by rfl, by rfl⟩

theorem dims_toBits (matrix : List Nat) : Dims (toBits matrix) := by
  constructor
  · simp [toBits]
  · intro row hrow
    simp only [toBits, List.mem_map] at hrow
    obtain ⟨i, _, rfl⟩ := hrow
    simp

theorem dims_idBits : Dims idBits := by
  constructor
  · simp [idBits]
  · intro row hrow
    simp only [idBits, List.mem_map] at hrow
    obtain ⟨i, _, rfl⟩ := hrow
    simp

theorem dims_set (m : BitRows) (r : Nat) (v : List (ZMod 2)) (hd : Dims m)
    (hv : v.length = 8) : Dims (m.set r v) := by
  refine ⟨by rw [List.length_set]; exact hd.1, ?_⟩
  intro row hrow
  rcases List.mem_or_eq_of_mem_set hrow with h | h
  · exact hd.2 row h
  · rw [h]; exact hv

theorem getD_set_self (m : BitRows) (r : Nat) (v : List (ZMod 2)) (hr : r < m.length) :
    (m.set r v).getD r [] = v := by
  rw [List.getD_eq_getElem _ _ (by rw [List.length_set]; exact hr), List.getElem_set_self]

theorem getD_set_ne (m : BitRows) (r r' : Nat) (v : List (ZMod 2)) (h : r' ≠ r) :
    (m.set r v).getD r' [] = m.getD r' [] := by
  rcases lt_or_ge r' m.length with hlt | hge
  · rw [List.getD_eq_getElem _ _ (by rw [List.length_set]; exact hlt),
      List.getD_eq_getElem _ _ hlt, List.getElem_set_ne (by omega)]
  · rw [List.getD_eq_default _ _ (by rw [List.length_set]; exact hge),
      List.getD_eq_default _ _ hge]

theorem getE_set_self (m : BitRows) (r : Nat) (v : List (ZMod 2)) (c : Nat)
    (hr : r < m.length) : getE (m.set r v) r c = v.getD c 0 := by
  unfold getE
  rw [getD_set_self m r v hr]

theorem getE_set_ne (m : BitRows) (r r' : Nat) (v : List (ZMod 2)) (c : Nat)
    (h : r' ≠ r) : getE (m.set r v) r' c = getE m r' c := by
  unfold getE
  rw [getD_set_ne m r r' v h]

theorem row_length (m : BitRows) (hd : Dims m) (r : Nat) (hr : r < 8) :
    (m.getD r []).length = 8 := by
  have hlen : r < m.length := by rw [hd.1]; exact hr
  rw [List.getD_eq_getElem _ _ hlen]
  exact hd.2 _ (List.getElem_mem hlen)

theorem getE_eq_getD (m : BitRows) (r c : Nat) :
    getE m r c = (m.getD r []).getD c 0 := rfl

theorem rowXor_getD (x y : List (ZMod 2)) (hx : x.length = 8) (hy : y.length = 8)
    (c : Nat) : (rowXor x y).getD c 0 = x.getD c 0 + y.getD c 0 := by
  unfold rowXor
  rcases lt_or_ge c 8 with h | h
  · rw [List.getD_eq_getElem _ _ (by rw [List.length_zipWith, hx, hy]; omega),
      List.getElem_zipWith, List.getD_eq_getElem _ _ (by omega),
      List.getD_eq_getElem _ _ (by omega)]
  · rw [List.getD_eq_default _ _ (by rw [List.length_zipWith, hx, hy]; omega),
      List.getD_eq_default _ _ (by omega), List.getD_eq_default _ _ (by omega)]
    simp

theorem rowXor_length (x y : List (ZMod 2)) (hx : x.length = 8) (hy : y.length = 8) :
    (rowXor x y).length = 8 := by
  rw [rowXor, List.length_zipWith, hx, hy]
  simp

theorem swapRowsL_getD (m : BitRows) (a b r : Nat) (ha : a < m.length) (hb : b < m.length) :
    (swapRowsL m a b).getD r [] =
      m.getD (if r = b then a else if r = a then b else r) [] := by
  unfold swapRowsL
  rcases eq_or_ne r b with rfl | hrb
  · rw [getD_set_self _ _ _ (by rw [List.length_set]; exact hb), if_pos rfl]
  · rw [getD_set_ne _ _ _ _ hrb, if_neg hrb]
    rcases eq_or_ne r a with rfl | hra
    · rw [getD_set_self _ _ _ ha, if_pos rfl]
    · rw [getD_set_ne _ _ _ _ hra, if_neg hra]

theorem dims_swapRowsL (m : BitRows) (a b : Nat) (hd : Dims m) (ha : a < 8) (hb : b < 8) :
    Dims (swapRowsL m a b) := by
  have ha' : a < m.length := by rw [hd.1]; exact ha
  have hb' : b < m.length := by rw [hd.1]; exact hb
  unfold swapRowsL
  apply dims_set
  · apply dims_set m _ _ hd
    rw [List.getD_eq_getElem _ _ hb']
    exact hd.2 _ (List.getElem_mem hb')
  · rw [List.getD_eq_getElem _ _ ha']
    exact hd.2 _ (List.getElem_mem ha')

/-- The first component of the paired elimination fold is the plain
elimination fold of the left half. -/
theorem elimRowsPair_fst (st : BitRows × BitRows) (piv col : Nat) :
    (elimRowsPair st piv col).1 = elimRows st.1 piv col := by
  unfold elimRowsPair elimRows
  generalize List.range 8 = l
  induction l generalizing st with
  | nil => rfl
  | cons r t ih =>
    simp only [List.foldl_cons]
    rcases Decidable.em (r ≠ piv ∧ getE st.1 r col = 1) with h | h
    · rw [if_pos h, if_pos h]
      exact ih _
    · rw [if_neg h, if_neg h]
      exact ih _

/-- Characterization of the elimination fold: each row in the processed
list is replaced according to its condition in the ORIGINAL matrix, and
rows outside the list are untouched.  The pivot row keeps its original
value throughout (rows are processed at most once and the pivot row is
skipped). -/
theorem elim_fold_chars (piv col : Nat) (hpiv8 : piv < 8) :
    ∀ (l : List Nat) (st m : BitRows), l.Nodup → Dims st → Dims m →
    st.getD piv [] = m.getD piv [] → (∀ r ∈ l, st.getD r [] = m.getD r []) →
    (∀ r ∈ l, r < 8) →
    Dims (l.foldl (fun acc r =>
        if r ≠ piv ∧ getE acc r col = 1 then
          acc.set r (rowXor (acc.getD r []) (acc.getD piv []))
        else acc) st)
    ∧ (∀ r ∈ l, (l.foldl (fun acc r =>
        if r ≠ piv ∧ getE acc r col = 1 then
          acc.set r (rowXor (acc.getD r []) (acc.getD piv []))
        else acc) st).getD r []
        = if r ≠ piv ∧ getE m r col = 1 then
            rowXor (m.getD r []) (m.getD piv []) else m.getD r [])
    ∧ (∀ r, r ∉ l → (l.foldl (fun acc r =>
        if r ≠ piv ∧ getE acc r col = 1 then
          acc.set r (rowXor (acc.getD r []) (acc.getD piv []))
        else acc) st).getD r [] = st.getD r []) := by
  intro l
  induction l with
  | nil =>
    intro st m _ hdst _ _ _ _
    exact ⟨hdst, by simp, fun r _ => rfl⟩
  | cons r0 t ih =>
    intro st m hnd hdst hdm hpiv hrows hbound
    have hr08 : r0 < 8 := hbound r0 (by simp)
    have hr0len : r0 < st.length := by rw [hdst.1]; exact hr08
    have hcond : getE st r0 col = getE m r0 col := by
      rw [getE_eq_getD, getE_eq_getD, hrows r0 (by simp)]
    rw [List.nodup_cons] at hnd
    simp only [List.foldl_cons]
    rcases Decidable.em (r0 ≠ piv ∧ getE st r0 col = 1) with hc | hc
    · rw [if_pos hc]
      set st' := st.set r0 (rowXor (st.getD r0 []) (st.getD piv [])) with hst'
      have hd' : Dims st' := by
        apply dims_set _ _ _ hdst
        exact rowXor_length _ _ (row_length st hdst r0 hr08) (row_length st hdst piv hpiv8)
      have hpiv' : st'.getD piv [] = m.getD piv [] := by
        rw [hst', getD_set_ne _ _ _ _ (Ne.symm hc.1), hpiv]
      have hrows' : ∀ r ∈ t, st'.getD r [] = m.getD r [] := by
        intro r hr
        rw [hst', getD_set_ne _ _ _ _ (by rintro rfl; exact hnd.1 hr), hrows r (by simp [hr])]
      obtain ⟨hd2, hin, hout⟩ := ih st' m hnd.2 hd' hdm hpiv' hrows' (fun r hr => hbound r (by simp [hr]))
      refine ⟨hd2, ?_, ?_⟩
      · intro r hr
        rcases List.mem_cons.mp hr with rfl | hrt
        · rw [hout r hnd.1, hst', getD_set_self _ _ _ hr0len, hrows r (by simp), hpiv]
          rw [if_pos ⟨hc.1, by rw [← hcond]; exact hc.2⟩]
        · exact hin r hrt
      · intro r hr
        rw [List.mem_cons, not_or] at hr
        rw [hout r hr.2, hst', getD_set_ne _ _ _ _ hr.1]
    · rw [if_neg hc]
      obtain ⟨hd2, hin, hout⟩ := ih st m hnd.2 hdst hdm hpiv
        (fun r hr => hrows r (by simp [hr])) (fun r hr => hbound r (by simp [hr]))
      refine ⟨hd2, ?_, ?_⟩
      · intro r hr
        rcases List.mem_cons.mp hr with rfl | hrt
        · rw [hout r hnd.1, hrows r (by simp)]
          rw [if_neg (by rw [← hcond]; exact hc)]
        · exact hin r hrt
      · intro r hr
        rw [List.mem_cons, not_or] at hr
        exact hout r hr.2

/-- Characterization of the paired elimination fold: conditions are
read from the left half's original rows; processed rows of both halves
are replaced accordingly; rows outside the processed list are
untouched. -/
theorem elim_fold_pair_chars (piv col : Nat) (hpiv8 : piv < 8) :
    ∀ (l : List Nat) (st : BitRows × BitRows) (lm rm : BitRows), l.Nodup →
    Dims st.1 → Dims st.2 → Dims lm → Dims rm →
    st.1.getD piv [] = lm.getD piv [] → st.2.getD piv [] = rm.getD piv [] →
    (∀ r ∈ l, st.1.getD r [] = lm.getD r []) →
    (∀ r ∈ l, st.2.getD r [] = rm.getD r []) →
    (∀ r ∈ l, r < 8) →
    let res := l.foldl (fun st r =>
        if r ≠ piv ∧ getE st.1 r col = 1 then
          (st.1.set r (rowXor (st.1.getD r []) (st.1.getD piv [])),
           st.2.set r (rowXor (st.2.getD r []) (st.2.getD piv [])))
        else st) st
    Dims res.1 ∧ Dims res.2
    ∧ (∀ r ∈ l, res.1.getD r []
        = if r ≠ piv ∧ getE lm r col = 1 then
            rowXor (lm.getD r []) (lm.getD piv []) else lm.getD r [])
    ∧ (∀ r ∈ l, res.2.getD r []
        = if r ≠ piv ∧ getE lm r col = 1 then
            rowXor (rm.getD r []) (rm.getD piv []) else rm.getD r [])
    ∧ (∀ r, r ∉ l → res.1.getD r [] = st.1.getD r [] ∧ res.2.getD r [] = st.2.getD r []) := by
  intro l
  induction l with
  | nil =>
    intro st lm rm _ hd1 hd2 _ _ _ _ _ _ _
    exact ⟨hd1, hd2, by simp, by simp, fun r _ => ⟨rfl, rfl⟩⟩
  | cons r0 t ih =>
    intro st lm rm hnd hd1 hd2 hdlm hdrm hpiv1 hpiv2 hrows1 hrows2 hbound
    have hr08 : r0 < 8 := hbound r0 (by simp)
    have hr0len1 : r0 < st.1.length := by rw [hd1.1]; exact hr08
    have hr0len2 : r0 < st.2.length := by rw [hd2.1]; exact hr08
    have hcond : getE st.1 r0 col = getE lm r0 col := by
      rw [getE_eq_getD, getE_eq_getD, hrows1 r0 (by simp)]
    rw [List.nodup_cons] at hnd
    simp only [List.foldl_cons]
    rcases Decidable.em (r0 ≠ piv ∧ getE st.1 r0 col = 1) with hc | hc
    · rw [if_pos hc]
      set stL := st.1.set r0 (rowXor (st.1.getD r0 []) (st.1.getD piv [])) with hstL
      set stR := st.2.set r0 (rowXor (st.2.getD r0 []) (st.2.getD piv [])) with hstR
      have hd1' : Dims stL := dims_set _ _ _ hd1
        (rowXor_length _ _ (row_length _ hd1 r0 hr08) (row_length _ hd1 piv hpiv8))
      have hd2' : Dims stR := dims_set _ _ _ hd2
        (rowXor_length _ _ (row_length _ hd2 r0 hr08) (row_length _ hd2 piv hpiv8))
      have hpiv1' : stL.getD piv [] = lm.getD piv [] := by
        rw [hstL, getD_set_ne _ _ _ _ (Ne.symm hc.1), hpiv1]
      have hpiv2' : stR.getD piv [] = rm.getD piv [] := by
        rw [hstR, getD_set_ne _ _ _ _ (Ne.symm hc.1), hpiv2]
      have hrows1' : ∀ r ∈ t, stL.getD r [] = lm.getD r [] := by
        intro r hr
        rw [hstL, getD_set_ne _ _ _ _ (by rintro rfl; exact hnd.1 hr), hrows1 r (by simp [hr])]
      have hrows2' : ∀ r ∈ t, stR.getD r [] = rm.getD r [] := by
        intro r hr
        rw [hstR, getD_set_ne _ _ _ _ (by rintro rfl; exact hnd.1 hr), hrows2 r (by simp [hr])]
      obtain ⟨hda, hdb, hin1, hin2, hout⟩ := ih (stL, stR) lm rm hnd.2 hd1' hd2' hdlm hdrm
        hpiv1' hpiv2' hrows1' hrows2' (fun r hr => hbound r (by simp [hr]))
      refine ⟨hda, hdb, ?_, ?_, ?_⟩
      · intro r hr
        rcases List.mem_cons.mp hr with rfl | hrt
        · rw [(hout r hnd.1).1, hstL, getD_set_self _ _ _ hr0len1, hrows1 r (by simp), hpiv1,
            if_pos ⟨hc.1, by rw [← hcond]; exact hc.2⟩]
        · exact hin1 r hrt
      · intro r hr
        rcases List.mem_cons.mp hr with rfl | hrt
        · rw [(hout r hnd.1).2, hstR, getD_set_self _ _ _ hr0len2, hrows2 r (by simp), hpiv2,
            if_pos ⟨hc.1, by rw [← hcond]; exact hc.2⟩]
        · exact hin2 r hrt
      · intro r hr
        rw [List.mem_cons, not_or] at hr
        obtain ⟨h1, h2⟩ := hout r hr.2
        rw [h1, h2, hstL, hstR, getD_set_ne _ _ _ _ hr.1, getD_set_ne _ _ _ _ hr.1]
        exact ⟨rfl, rfl⟩
    · rw [if_neg hc]
      obtain ⟨hda, hdb, hin1, hin2, hout⟩ := ih st lm rm hnd.2 hd1 hd2 hdlm hdrm hpiv1 hpiv2
        (fun r hr => hrows1 r (by simp [hr])) (fun r hr => hrows2 r (by simp [hr]))
        (fun r hr => hbound r (by simp [hr]))
      refine ⟨hda, hdb, ?_, ?_, fun r hr => hout r (by rw [List.mem_cons, not_or] at hr; exact hr.2)⟩
      · intro r hr
        rcases List.mem_cons.mp hr with rfl | hrt
        · rw [(hout r hnd.1).1, hrows1 r (by simp), if_neg (by rw [← hcond]; exact hc)]
        · exact hin1 r hrt
      · intro r hr
        rcases List.mem_cons.mp hr with rfl | hrt
        · rw [(hout r hnd.1).2, hrows2 r (by simp), if_neg (by rw [← hcond]; exact hc)]
        · exact hin2 r hrt

theorem matOf_apply (m : BitRows) (i j : Fin 8) : matOf m i j = getE m (i : Nat) (j : Nat) := rfl

theorem getE_elimRowsPair (st : BitRows × BitRows) (piv col : Nat) (hpiv8 : piv < 8)
    (hd1 : Dims st.1) (hd2 : Dims st.2) (r c : Nat) (hr : r < 8) :
    (getE (elimRowsPair st piv col).1 r c
      = if r ≠ piv ∧ getE st.1 r col = 1 then getE st.1 r c + getE st.1 piv c
        else getE st.1 r c)
    ∧ (getE (elimRowsPair st piv col).2 r c
      = if r ≠ piv ∧ getE st.1 r col = 1 then getE st.2 r c + getE st.2 piv c
        else getE st.2 r c) := by
  unfold elimRowsPair
  obtain ⟨hda, hdb, hin1, hin2, _⟩ := elim_fold_pair_chars piv col hpiv8 (List.range 8) st st.1 st.2
    (List.nodup_range 8) hd1 hd2 hd1 hd2 rfl rfl (fun _ _ => rfl) (fun _ _ => rfl)
    (fun r hr => List.mem_range.mp hr)
  have hmem : r ∈ List.range 8 := List.mem_range.mpr hr
  constructor
  · show getE _ r c = _
    rw [getE_eq_getD, hin1 r hmem]
    rcases Decidable.em (r ≠ piv ∧ getE st.1 r col = 1) with h | h
    · rw [if_pos h, if_pos h,
        rowXor_getD _ _ (row_length _ hd1 r hr) (row_length _ hd1 piv hpiv8)]
      rfl
    · rw [if_neg h, if_neg h]
      rfl
  · show getE _ r c = _
    rw [getE_eq_getD, hin2 r hmem]
    rcases Decidable.em (r ≠ piv ∧ getE st.1 r col = 1) with h | h
    · rw [if_pos h, if_pos h,
        rowXor_getD _ _ (row_length _ hd2 r hr) (row_length _ hd2 piv hpiv8)]
      rfl
    · rw [if_neg h, if_neg h]
      rfl

theorem dims_elimRowsPair (st : BitRows × BitRows) (piv col : Nat) (hpiv8 : piv < 8)
    (hd1 : Dims st.1) (hd2 : Dims st.2) :
    Dims (elimRowsPair st piv col).1 ∧ Dims (elimRowsPair st piv col).2 := by
  unfold elimRowsPair
  obtain ⟨hda, hdb, _, _, _⟩ := elim_fold_pair_chars piv col hpiv8 (List.range 8) st st.1 st.2
    (List.nodup_range 8) hd1 hd2 hd1 hd2 rfl rfl (fun _ _ => rfl) (fun _ _ => rfl)
    (fun r hr => List.mem_range.mp hr)
  exact ⟨hda, hdb⟩

theorem getE_swapRowsL (m : BitRows) (a b : Nat) (hd : Dims m) (ha : a < 8) (hb : b < 8)
    (r c : Nat) :
    getE (swapRowsL m a b) r c = getE m (if r = b then a else if r = a then b else r) c := by
  have ha' : a < m.length := by rw [hd.1]; exact ha
  have hb' : b < m.length := by rw [hd.1]; exact hb
  rw [getE_eq_getD, swapRowsL_getD m a b r ha' hb', getE_eq_getD]

/-- `Equiv.swap` on `Fin 8` matches the list-level row swap. -/
theorem swap_fin_nat (a b : Nat) (ha : a < 8) (hb : b < 8) (i : Fin 8) :
    ((Equiv.swap (⟨a, ha⟩ : Fin 8) ⟨b, hb⟩ i : Fin 8) : Nat)
      = if (i : Nat) = b then a else if (i : Nat) = a then b else (i : Nat) := by
  rw [Equiv.swap_apply_def]
  rcases eq_or_ne i ⟨a, ha⟩ with rfl | hia
  · rcases eq_or_ne (a : Nat) b with h | h
    · simp [h]
    · simp [Fin.ext_iff, h]
  · rcases eq_or_ne i ⟨b, hb⟩ with rfl | hib
    · have h1 : (b : Nat) ≠ a := fun h => hia (Fin.ext h)
      simp [Fin.ext_iff, h1]
    · have h1 : (i : Nat) ≠ a := fun h => hia (Fin.ext h)
      have h2 : (i : Nat) ≠ b := fun h => hib (Fin.ext h)
      simp [hia, hib, h1, h2]

theorem matOf_set_rowXor (m : BitRows) (r piv : Nat) (hr : r < 8) (hpiv : piv < 8)
    (hd : Dims m) :
    matOf (m.set r (rowXor (m.getD r []) (m.getD piv [])))
      = Matrix.updateRow (matOf m) ⟨r, hr⟩ (matOf m ⟨r, hr⟩ + matOf m ⟨piv, hpiv⟩) := by
  ext i j
  rw [Matrix.updateRow_apply]
  rcases eq_or_ne i ⟨r, hr⟩ with rfl | hir
  · rw [if_pos rfl, matOf_apply,
      getE_set_self _ _ _ _ (by rw [hd.1]; exact hr),
      rowXor_getD _ _ (row_length _ hd r hr) (row_length _ hd piv hpiv)]
    rw [Pi.add_apply, matOf_apply, matOf_apply, getE_eq_getD, getE_eq_getD]
  · rw [if_neg hir, matOf_apply, getE_set_ne _ _ _ _ _ (fun h => hir (Fin.ext h)),
      matOf_apply]

/-- Determinant preservation of the paired elimination fold (each step
adds the pivot row to another row, which leaves the determinant of the
left half fixed; the condition never alters this). -/
theorem elim_fold_det (piv col : Nat) (hpiv8 : piv < 8) :
    ∀ (l : List Nat) (st : BitRows × BitRows), (∀ r ∈ l, r < 8) → Dims st.1 →
    (matOf ((l.foldl (fun st r =>
        if r ≠ piv ∧ getE st.1 r col = 1 then
          (st.1.set r (rowXor (st.1.getD r []) (st.1.getD piv [])),
           st.2.set r (rowXor (st.2.getD r []) (st.2.getD piv [])))
        else st) st).1)).det = (matOf st.1).det := by
  intro l
  induction l with
  | nil => intro st _ _; rw [List.foldl_nil]
  | cons r0 t ih =>
    intro st hb hd1
    have hr08 : r0 < 8 := hb r0 (by simp)
    rw [List.foldl_cons]
    rcases Decidable.em (r0 ≠ piv ∧ getE st.1 r0 col = 1) with hc | hc
    · rw [if_pos hc]
      set newst : BitRows × BitRows :=
        (st.1.set r0 (rowXor (st.1.getD r0 []) (st.1.getD piv [])),
         st.2.set r0 (rowXor (st.2.getD r0 []) (st.2.getD piv []))) with hnewst
      have hd1' : Dims newst.1 :=
        dims_set _ _ _ hd1
          (rowXor_length _ _ (row_length _ hd1 r0 hr08) (row_length _ hd1 piv hpiv8))
      have hstep : (matOf newst.1).det = (matOf st.1).det := by
        have hfst : newst.1 = st.1.set r0 (rowXor (st.1.getD r0 []) (st.1.getD piv [])) := rfl
        rw [hfst, matOf_set_rowXor _ _ _ hr08 hpiv8 hd1]
        have hne : (⟨r0, hr08⟩ : Fin 8) ≠ ⟨piv, hpiv8⟩ := fun h => hc.1 (congrArg Fin.val h)
        exact Matrix.det_updateRow_add_self (matOf st.1) hne
      exact (ih newst (fun r hr => hb r (by simp [hr])) hd1').trans hstep
    · rw [if_neg hc]
      exact ih _ (fun r hr => hb r (by simp [hr])) hd1

theorem matOf_swapRowsL (m : BitRows) (a b : Nat) (hd : Dims m) (ha : a < 8) (hb : b < 8) :
    matOf (swapRowsL m a b)
      = (matOf m).submatrix (Equiv.swap (⟨a, ha⟩ : Fin 8) ⟨b, hb⟩) id := by
  ext i j
  rw [Matrix.submatrix_apply, id_eq, matOf_apply, getE_swapRowsL m a b hd ha hb, matOf_apply,
    swap_fin_nat a b ha hb i]

theorem updateRow_rowAdd_mul (B A L : Matrix (Fin 8) (Fin 8) (ZMod 2)) (r piv : Fin 8)
    (h : B * A = L) :
    (Matrix.updateRow B r (B r + B piv)) * A = Matrix.updateRow L r (L r + L piv) := by
  ext i j
  rw [Matrix.mul_apply, Matrix.updateRow_apply]
  rcases eq_or_ne i r with rfl | hir
  · rw [if_pos rfl]
    have hexp : ∀ k, Matrix.updateRow B i (B i + B piv) i k = B i k + B piv k := by
      intro k
      rw [Matrix.updateRow_self, Pi.add_apply]
    calc ∑ k, Matrix.updateRow B i (B i + B piv) i k * A k j
        = ∑ k, (B i k * A k j + B piv k * A k j) := by
          refine Finset.sum_congr rfl fun k _ => ?_
          rw [hexp k, add_mul]
      _ = (∑ k, B i k * A k j) + ∑ k, B piv k * A k j := Finset.sum_add_distrib
      _ = (B * A) i j + (B * A) piv j := by rw [Matrix.mul_apply, Matrix.mul_apply]
      _ = L i j + L piv j := by rw [h]
      _ = (L i + L piv) j := rfl
  · rw [if_neg hir]
    calc ∑ k, Matrix.updateRow B r (B r + B piv) i k * A k j
        = ∑ k, B i k * A k j := by
          refine Finset.sum_congr rfl fun k _ => ?_
          rw [Matrix.updateRow_ne hir]
      _ = (B * A) i j := (Matrix.mul_apply).symm
      _ = L i j := by rw [h]

/-- The paired elimination fold preserves the relation
`(right half) * A = (left half)`. -/
theorem elim_fold_mul (A : Matrix (Fin 8) (Fin 8) (ZMod 2)) (piv col : Nat) (hpiv8 : piv < 8) :
    ∀ (l : List Nat) (st : BitRows × BitRows), (∀ r ∈ l, r < 8) → Dims st.1 → Dims st.2 →
    matOf st.2 * A = matOf st.1 →
    matOf ((l.foldl (fun st r =>
        if r ≠ piv ∧ getE st.1 r col = 1 then
          (st.1.set r (rowXor (st.1.getD r []) (st.1.getD piv [])),
           st.2.set r (rowXor (st.2.getD r []) (st.2.getD piv [])))
        else st) st).2) * A
      = matOf ((l.foldl (fun st r =>
        if r ≠ piv ∧ getE st.1 r col = 1 then
          (st.1.set r (rowXor (st.1.getD r []) (st.1.getD piv [])),
           st.2.set r (rowXor (st.2.getD r []) (st.2.getD piv [])))
        else st) st).1) := by
  intro l
  induction l with
  | nil => intro st _ _ _ h; exact h
  | cons r0 t ih =>
    intro st hb hd1 hd2 hmul
    have hr08 : r0 < 8 := hb r0 (by simp)
    show matOf ((List.foldl _ (if r0 ≠ piv ∧ getE st.1 r0 col = 1 then
          (st.1.set r0 (rowXor (st.1.getD r0 []) (st.1.getD piv [])),
           st.2.set r0 (rowXor (st.2.getD r0 []) (st.2.getD piv [])))
        else st) t).2) * A
      = matOf ((List.foldl _ (if r0 ≠ piv ∧ getE st.1 r0 col = 1 then
          (st.1.set r0 (rowXor (st.1.getD r0 []) (st.1.getD piv [])),
           st.2.set r0 (rowXor (st.2.getD r0 []) (st.2.getD piv [])))
        else st) t).1)
    rcases Decidable.em (r0 ≠ piv ∧ getE st.1 r0 col = 1) with hc | hc
    · rw [if_pos hc]
      set newst : BitRows × BitRows :=
        (st.1.set r0 (rowXor (st.1.getD r0 []) (st.1.getD piv [])),
         st.2.set r0 (rowXor (st.2.getD r0 []) (st.2.getD piv []))) with hnewst
      have hd1' : Dims newst.1 := dims_set _ _ _ hd1
        (rowXor_length _ _ (row_length _ hd1 r0 hr08) (row_length _ hd1 piv hpiv8))
      have hd2' : Dims newst.2 := dims_set _ _ _ hd2
        (rowXor_length _ _ (row_length _ hd2 r0 hr08) (row_length _ hd2 piv hpiv8))
      have hmul' : matOf newst.2 * A = matOf newst.1 := by
        have hf1 : newst.1 = st.1.set r0 (rowXor (st.1.getD r0 []) (st.1.getD piv [])) := rfl
        have hf2 : newst.2 = st.2.set r0 (rowXor (st.2.getD r0 []) (st.2.getD piv [])) := rfl
        rw [hf1, hf2, matOf_set_rowXor _ _ _ hr08 hpiv8 hd1,
          matOf_set_rowXor _ _ _ hr08 hpiv8 hd2]
        exact updateRow_rowAdd_mul _ _ _ _ _ hmul
      exact ih newst (fun r hr => hb r (by simp [hr])) hd1' hd2' hmul'
    · rw [if_neg hc]
      exact ih st (fun r hr => hb r (by simp [hr])) hd1 hd2 hmul

theorem det_elimRowsPair (lm rm : BitRows) (piv col : Nat) (hpiv8 : piv < 8)
    (hd1 : Dims lm) :
    (matOf (elimRowsPair (lm, rm) piv col).1).det = (matOf lm).det := by
  have hfold : (elimRowsPair (lm, rm) piv col).1
      = ((List.range 8).foldl (fun st r =>
          if r ≠ piv ∧ getE st.1 r col = 1 then
            (st.1.set r (rowXor (st.1.getD r []) (st.1.getD piv [])),
             st.2.set r (rowXor (st.2.getD r []) (st.2.getD piv [])))
          else st) (lm, rm)).1 := rfl
  have hbase : (matOf ((lm, rm) : BitRows × BitRows).1).det = (matOf lm).det :=
    congrArg (fun m : BitRows => (matOf m).det)
      (show ((lm, rm) : BitRows × BitRows).1 = lm from rfl)
  exact (congrArg (fun m : BitRows => (matOf m).det) hfold).trans
    ((elim_fold_det piv col hpiv8 (List.range 8) (lm, rm)
      (fun r hr => List.mem_range.mp hr) hd1).trans hbase)

theorem mul_elimRowsPair (A : Matrix (Fin 8) (Fin 8) (ZMod 2)) (lm rm : BitRows)
    (piv col : Nat) (hpiv8 : piv < 8) (hd1 : Dims lm) (hd2 : Dims rm)
    (hmul : matOf rm * A = matOf lm) :
    matOf (elimRowsPair (lm, rm) piv col).2 * A = matOf (elimRowsPair (lm, rm) piv col).1 := by
  have h1 : (elimRowsPair (lm, rm) piv col).1
      = ((List.range 8).foldl (fun st r =>
          if r ≠ piv ∧ getE st.1 r col = 1 then
            (st.1.set r (rowXor (st.1.getD r []) (st.1.getD piv [])),
             st.2.set r (rowXor (st.2.getD r []) (st.2.getD piv [])))
          else st) (lm, rm)).1 := rfl
  have h2 : (elimRowsPair (lm, rm) piv col).2
      = ((List.range 8).foldl (fun st r =>
          if r ≠ piv ∧ getE st.1 r col = 1 then
            (st.1.set r (rowXor (st.1.getD r []) (st.1.getD piv [])),
             st.2.set r (rowXor (st.2.getD r []) (st.2.getD piv [])))
          else st) (lm, rm)).2 := rfl
  rw [h1, h2]
  exact elim_fold_mul A piv col hpiv8 (List.range 8) (lm, rm)
    (fun r hr => List.mem_range.mp hr) hd1 hd2 hmul

theorem findPivot_some (m : BitRows) (col start piv : Nat)
    (h : findPivot m col start = some piv) :
    start ≤ piv ∧ piv < 8 ∧ getE m piv col = 1 := by
  unfold findPivot at h
  have hmem := List.mem_of_find?_eq_some h
  have hpred := List.find?_some h
  rw [Bool.and_eq_true, decide_eq_true_eq, decide_eq_true_eq] at hpred
  exact ⟨hpred.1, List.mem_range.mp hmem, hpred.2⟩

theorem findPivot_none (m : BitRows) (col start : Nat)
    (h : findPivot m col start = none) :
    ∀ r, start ≤ r → r < 8 → getE m r col = 0 := by
  intro r hsr hr8
  have := List.find?_eq_none.mp h r (List.mem_range.mpr hr8)
  rw [Bool.and_eq_true, decide_eq_true_eq, decide_eq_true_eq] at this
  have hne : ¬getE m r col = 1 := fun h1 => this ⟨hsr, h1⟩
  have : ∀ z : ZMod 2, z ≠ 1 → z = 0 := by decide
  exact this _ hne

theorem swap_mul (a b : Nat) (ha : a < 8) (hb : b < 8)
    (lm rm : BitRows) (hdl : Dims lm) (hdr : Dims rm)
    (A : Matrix (Fin 8) (Fin 8) (ZMod 2)) (h : matOf rm * A = matOf lm) :
    matOf (swapRowsL rm a b) * A = matOf (swapRowsL lm a b) := by
  rw [matOf_swapRowsL rm a b hdr ha hb, matOf_swapRowsL lm a b hdl ha hb]
  ext i j
  rw [Matrix.mul_apply, Matrix.submatrix_apply, id_eq, matOf_apply]
  calc ∑ k, (matOf rm).submatrix (Equiv.swap (⟨a, ha⟩ : Fin 8) ⟨b, hb⟩) id i k * A k j
      = ∑ k, matOf rm (Equiv.swap (⟨a, ha⟩ : Fin 8) ⟨b, hb⟩ i) k * A k j := by
        refine Finset.sum_congr rfl fun k _ => ?_
        rw [Matrix.submatrix_apply, id_eq]
    _ = (matOf rm * A) (Equiv.swap (⟨a, ha⟩ : Fin 8) ⟨b, hb⟩ i) j := (Matrix.mul_apply).symm
    _ = matOf lm (Equiv.swap (⟨a, ha⟩ : Fin 8) ⟨b, hb⟩ i) j := by rw [h]
    _ = getE lm ((Equiv.swap (⟨a, ha⟩ : Fin 8) ⟨b, hb⟩ i : Fin 8) : Nat) (j : Nat) := rfl

theorem swap_det (a b : Nat) (ha : a < 8) (hb : b < 8) (m : BitRows) (hd : Dims m) :
    (matOf (swapRowsL m a b)).det = (matOf m).det := by
  rw [matOf_swapRowsL m a b hd ha hb, Matrix.det_permute]
  have hsign : ((Equiv.Perm.sign (Equiv.swap (⟨a, ha⟩ : Fin 8) ⟨b, hb⟩) : ℤ) : ZMod 2) = 1 := by
    rcases Int.units_eq_one_or (Equiv.Perm.sign (Equiv.swap (⟨a, ha⟩ : Fin 8) ⟨b, hb⟩)) with h | h
    · rw [h]; decide
    · rw [h]; decide
  rw [hsign, one_mul]

theorem zmod2_not_one_eq_zero : ∀ z : ZMod 2, z ≠ 1 → z = 0 := by decide

theorem gjStep_some_inv (A : Matrix (Fin 8) (Fin 8) (ZMod 2)) (st st' : BitRows × BitRows)
    (col : Nat) (hcol : col < 8) (hinv : GJInv A col st)
    (h : gjStep st col = some st') : GJInv A (col + 1) st' := by
  obtain ⟨hd1, hd2, hmul, hdet, hid⟩ := hinv
  rcases hp : findPivot st.1 col col with _ | piv
  · rw [gjStep, hp] at h
    exact absurd h (by simp)
  rw [gjStep, hp] at h
  obtain ⟨hcp, hpiv8, hpivot⟩ := findPivot_some _ _ _ _ hp
  have hst' : st' = elimRowsPair (swapRowsL st.1 col piv, swapRowsL st.2 col piv) col col :=
    (Option.some_inj.mp h).symm
  set L1 := swapRowsL st.1 col piv with hL1
  set R1 := swapRowsL st.2 col piv with hR1
  have hdL1 : Dims L1 := dims_swapRowsL _ _ _ hd1 hcol hpiv8
  have hdR1 : Dims R1 := dims_swapRowsL _ _ _ hd2 hcol hpiv8
  -- entries of the swapped left half
  have hgetL1 : ∀ r c : Nat, getE L1 r c
      = getE st.1 (if r = piv then col else if r = col then piv else r) c := by
    intro r c
    rw [hL1, getE_swapRowsL st.1 col piv hd1 hcol hpiv8]
  -- pivot entry after the swap
  have hL1pivot : getE L1 col col = 1 := by
    rw [hgetL1]
    rcases eq_or_ne col piv with hcp2 | hcp2
    · subst hcp2
      simpa using hpivot
    · rw [if_neg hcp2, if_pos rfl]
      exact hpivot
  -- identity columns of the swapped left half
  have hidL1 : ∀ j : Fin 8, (j : Nat) < col → ∀ i : Fin 8,
      getE L1 (i : Nat) (j : Nat) = if i = j then 1 else 0 := by
    intro j hj i
    rw [hgetL1]
    rcases eq_or_ne (i : Nat) piv with hip | hip
    · rw [if_pos hip]
      have h1 := hid j hj ⟨col, hcol⟩
      rw [matOf_apply] at h1
      rw [h1]
      have : ¬((⟨col, hcol⟩ : Fin 8) = j) := by
        intro hh
        rw [← hh] at hj
        simp at hj
      rw [if_neg this, if_neg (by intro hh; subst hh; omega)]
    · rw [if_neg hip]
      rcases eq_or_ne (i : Nat) col with hic | hic
      · rw [if_pos hic]
        have h1 := hid j hj ⟨piv, hpiv8⟩
        rw [matOf_apply] at h1
        rw [h1]
        have hc1 : ¬((⟨piv, hpiv8⟩ : Fin 8) = j) := by
          intro hh
          rw [← hh] at hj
          simp at hj
          omega
        rw [if_neg hc1, if_neg (by intro hh; subst hh; omega)]
      · rw [if_neg hic]
        have h1 := hid j hj i
        rw [matOf_apply] at h1
        exact h1
  -- elimination characterization
  have hchar : ∀ r c : Nat, r < 8 → getE st'.1 r c
      = if r ≠ col ∧ getE L1 r col = 1 then getE L1 r c + getE L1 col c else getE L1 r c := by
    intro r c hr
    rw [hst']
    exact (getE_elimRowsPair (L1, R1) col col hcol hdL1 hdR1 r c hr).1
  have hdims' : Dims st'.1 ∧ Dims st'.2 := by
    rw [hst']
    exact dims_elimRowsPair (L1, R1) col col hcol hdL1 hdR1
  refine ⟨hdims'.1, hdims'.2, ?_, ?_, ?_⟩
  · -- multiplication invariant
    rw [hst']
    have hsw : matOf R1 * A = matOf L1 := swap_mul col piv hcol hpiv8 st.1 st.2 hd1 hd2 A hmul
    exact mul_elimRowsPair A L1 R1 col col hcol hdL1 hdR1 hsw
  · -- determinant invariant
    have hs : (matOf L1).det = A.det := by
      rw [hL1, swap_det col piv hcol hpiv8 st.1 hd1]
      exact hdet
    have he : (matOf (elimRowsPair (L1, R1) col col).1).det = (matOf L1).det :=
      det_elimRowsPair L1 R1 col col hcol hdL1
    exact (congrArg (fun q : BitRows × BitRows => (matOf q.1).det) hst').trans (he.trans hs)
  · -- identity columns up to col + 1
    intro j hj i
    rw [matOf_apply, hchar (i : Nat) (j : Nat) i.isLt]
    rcases lt_or_ge (j : Nat) col with hjc | hjc
    · -- previously processed columns
      have hcolj : getE L1 col (j : Nat) = 0 := by
        have hx := hidL1 j hjc ⟨col, hcol⟩
        rw [show ((⟨col, hcol⟩ : Fin 8) : Nat) = col from rfl] at hx
        rw [hx, if_neg (by intro hh; rw [← hh] at hjc; simp at hjc)]
      rcases Decidable.em ((i : Nat) ≠ col ∧ getE L1 (i : Nat) col = 1) with hc | hc
      · rw [if_pos hc, hcolj, add_zero, hidL1 j hjc i]
      · rw [if_neg hc, hidL1 j hjc i]
    · -- the newly produced column col
      have hjcol : (j : Nat) = col := by omega
      rcases eq_or_ne (i : Nat) col with hic | hic
      · have hij : i = j := Fin.ext (by omega)
        rw [if_neg (by intro hh; exact hh.1 hic), if_pos hij]
        rw [hic, hjcol]
        exact hL1pivot
      · have hij : ¬(i = j) := by
          intro hh
          rw [hh] at hic
          omega
        rw [if_neg hij]
        rcases Decidable.em (getE L1 (i : Nat) col = 1) with h1 | h1
        · rw [if_pos ⟨hic, h1⟩, hjcol, h1]
          have : getE L1 col col = 1 := hL1pivot
          rw [this]
          decide
        · rw [if_neg (fun hh => h1 hh.2), hjcol]
          exact zmod2_not_one_eq_zero _ h1

theorem zmod2_add_self : ∀ a : ZMod 2, a + a = 0 := by decide

theorem gjStep_none_det (A : Matrix (Fin 8) (Fin 8) (ZMod 2)) (st : BitRows × BitRows)
    (col : Nat) (hcol : col < 8) (hinv : GJInv A col st)
    (h : findPivot st.1 col col = none) : A.det = 0 := by
  obtain ⟨hd1, hd2, hmul, hdet, hid⟩ := hinv
  have hmiss : ∀ r, col ≤ r → r < 8 → getE st.1 r col = 0 := findPivot_none st.1 col col h
  set ccol : Fin 8 := ⟨col, hcol⟩ with hccol
  set v : Fin 8 → ZMod 2 := fun j =>
    if (j : Nat) = col then 1 else if (j : Nat) < col then matOf st.1 j ccol else 0 with hv
  have hvccol : v ccol = 1 := if_pos rfl
  have hv_lt : ∀ j : Fin 8, (j : Nat) ≠ col → (j : Nat) < col →
      v j = matOf st.1 j ccol := fun j h1 h2 => (if_neg h1).trans (if_pos h2)
  have hv_ge : ∀ j : Fin 8, (j : Nat) ≠ col → ¬((j : Nat) < col) →
      v j = 0 := fun j h1 h2 => (if_neg h1).trans (if_neg h2)
  have hvne : v ≠ 0 := by
    intro hh
    have h0 := congrFun hh ccol
    rw [hvccol] at h0
    exact one_ne_zero h0
  have hMv : (matOf st.1).mulVec v = 0 := by
    funext i
    show ∑ j, matOf st.1 i j * v j = 0
    have hterm : ∀ j : Fin 8, matOf st.1 i j * v j
        = (if j = ccol then matOf st.1 i ccol else 0)
          + (if j = i then (if (i : Nat) < col then matOf st.1 i ccol else 0) else 0) := by
      intro j
      rcases eq_or_ne j ccol with hjc | hjc
      · subst hjc
        rw [if_pos rfl, hvccol, mul_one]
        rcases eq_or_ne ccol i with hci | hci
        · rw [if_pos hci, ← hci]
          rw [if_neg (show ¬((ccol : Fin 8) : Nat) < col from lt_irrefl col), add_zero]
        · rw [if_neg hci, add_zero]
      · rw [if_neg hjc, zero_add]
        have hjcn : (j : Nat) ≠ col := fun hh => hjc (Fin.ext hh)
        rcases lt_or_ge (j : Nat) col with hjlt | hjge
        · rw [hv_lt j hjcn hjlt]
          have hcolj : matOf st.1 i j = if i = j then 1 else 0 := hid j hjlt i
          rw [hcolj]
          rcases eq_or_ne j i with hji | hji
          · rw [if_pos hji, if_pos hji.symm, one_mul, hji]
            rw [if_pos (hji ▸ hjlt)]
          · rw [if_neg hji, if_neg (fun hh => hji hh.symm), zero_mul]
        · rw [hv_ge j hjcn (by omega), mul_zero]
          rcases eq_or_ne j i with hji | hji
          · rw [if_pos hji, if_neg (show ¬((i : Nat) < col) by rw [← hji]; omega)]
          · rw [if_neg hji]
    calc ∑ j, matOf st.1 i j * v j
        = ∑ j : Fin 8, ((if j = ccol then matOf st.1 i ccol else 0)
            + (if j = i then (if (i : Nat) < col then matOf st.1 i ccol else 0) else 0)) :=
          Finset.sum_congr rfl fun j _ => hterm j
      _ = (∑ j : Fin 8, if j = ccol then matOf st.1 i ccol else 0)
            + ∑ j : Fin 8, (if j = i then (if (i : Nat) < col then matOf st.1 i ccol else 0) else 0) :=
          Finset.sum_add_distrib
      _ = matOf st.1 i ccol + (if (i : Nat) < col then matOf st.1 i ccol else 0) := by
          rw [Finset.sum_ite_eq' Finset.univ ccol (fun _ => matOf st.1 i ccol),
            Finset.sum_ite_eq' Finset.univ i
              (fun _ => if (i : Nat) < col then matOf st.1 i ccol else 0)]
          rw [if_pos (Finset.mem_univ ccol), if_pos (Finset.mem_univ i)]
      _ = 0 := by
          rcases lt_or_ge (i : Nat) col with h1 | h1
          · rw [if_pos h1, zmod2_add_self]
          · rw [if_neg (by omega), add_zero]
            have := hmiss (i : Nat) h1 i.isLt
            rw [matOf_apply]
            exact this
  have hdet0 : (matOf st.1).det = 0 :=
    Matrix.exists_mulVec_eq_zero_iff.mp ⟨v, hvne, hMv⟩
  rw [← hdet]
  exact hdet0

theorem range8_drop_cons (c : Nat) (hc : c < 8) :
    (List.range 8).drop c = c :: (List.range 8).drop (c + 1) := by
  interval_cases c <;> rfl

/-- Invariant propagation along the Gauss-Jordan column fold: from a
valid state at column `c`, a successful run of the remaining columns
ends in a state satisfying the invariant at column 8, and a failing run
certifies a zero determinant. -/
theorem gjAux_fold_inv (A : Matrix (Fin 8) (Fin 8) (ZMod 2)) :
    ∀ (l : List Nat) (c : Nat) (st : BitRows × BitRows),
    c + l.length = 8 → l = (List.range 8).drop c → GJInv A c st →
    (∀ st', l.foldlM gjStep st = some st' → GJInv A 8 st') ∧
    (l.foldlM gjStep st = none → A.det = 0) := by
  intro l
  induction l with
  | nil =>
    intro c st hlen _ hinv
    have hc8 : c = 8 := by simpa using hlen
    subst hc8
    constructor
    · intro st' h
      have hss : st = st' := by simpa using h
      rw [← hss]
      exact hinv
    · intro h
      exact absurd h (by simp)
  | cons a t ih =>
    intro c st hlen hl hinv
    have hc8 : c < 8 := by
      simp only [List.length_cons] at hlen
      omega
    rw [range8_drop_cons c hc8] at hl
    injection hl with h1 h2
    subst h1
    subst h2
    have hlen' : (a + 1) + ((List.range 8).drop (a + 1)).length = 8 := by
      simp only [List.length_cons] at hlen
      omega
    rcases hg : gjStep st a with _ | st1
    · have hfp : findPivot st.1 a a = none := by
        rcases hp : findPivot st.1 a a with _ | piv
        · rfl
        · rw [gjStep, hp] at hg
          exact absurd hg (by simp)
      have hdet0 : A.det = 0 := gjStep_none_det A st a hc8 hinv hfp
      constructor
      · intro st' h
        rw [List.foldlM_cons, hg] at h
        exact absurd h (by simp)
      · intro _
        exact hdet0
    · have hinv1 : GJInv A (a + 1) st1 := gjStep_some_inv A st st1 a hc8 hinv hg
      have hrec := ih (a + 1) st1 hlen' rfl hinv1
      constructor
      · intro st' h
        rw [List.foldlM_cons, hg] at h
        exact hrec.1 st' h
      · intro h
        rw [List.foldlM_cons, hg] at h
        exact hrec.2 h

theorem matOf_idBits : matOf idBits = 1 := by
  ext i j
  rw [matOf_apply, Matrix.one_apply]
  fin_cases i <;> fin_cases j <;> rfl

theorem GJInv_init (a : BitRows) (hd : Dims a) : GJInv (matOf a) 0 (a, idBits) := by
  refine ⟨hd, dims_idBits, ?_, ?_, ?_⟩
  · show matOf idBits * matOf a = matOf a
    rw [matOf_idBits, one_mul]
  · exact congrArg (fun m : BitRows => (matOf m).det)
      (show ((a, idBits) : BitRows × BitRows).1 = a from rfl)
  · intro j hj
    exact absurd hj (by omega)

theorem invertMatrixAux_some (a : BitRows) (hd : Dims a) (st' : BitRows × BitRows)
    (h : invertMatrixAux a = some st') : GJInv (matOf a) 8 st' :=
  (gjAux_fold_inv (matOf a) (List.range 8) 0 (a, idBits) rfl rfl (GJInv_init a hd)).1 st' h

theorem invertMatrixAux_none (a : BitRows) (hd : Dims a)
    (h : invertMatrixAux a = none) : (matOf a).det = 0 :=
  (gjAux_fold_inv (matOf a) (List.range 8) 0 (a, idBits) rfl rfl (GJInv_init a hd)).2 h

theorem gjinv8_left_eq_one (A : Matrix (Fin 8) (Fin 8) (ZMod 2)) (st' : BitRows × BitRows)
    (h : GJInv A 8 st') : matOf st'.1 = 1 := by
  ext i j
  rw [h.2.2.2.2 j j.isLt i, Matrix.one_apply]

/-- A successful Gauss-Jordan run yields a two-sided inverse in the
right half. -/
theorem invertMatrixAux_inverse (a : BitRows) (hd : Dims a) (st' : BitRows × BitRows)
    (h : invertMatrixAux a = some st') :
    matOf st'.2 * matOf a = 1 ∧ matOf a * matOf st'.2 = 1 := by
  have hinv := invertMatrixAux_some a hd st' h
  have h1 : matOf st'.2 * matOf a = 1 := by
    rw [hinv.2.2.1]
    exact gjinv8_left_eq_one _ _ hinv
  exact ⟨h1, Matrix.mul_eq_one_comm.mp h1⟩

/-- Bit `k` of the byte-packing fold: set exactly when some processed
index `j = k` satisfies the predicate. -/
theorem byteFold_testBit (p : Nat → Prop) [DecidablePred p] :
    ∀ (l : List Nat) (acc k : Nat),
    (l.foldl (fun byte j => if p j then byte ||| (1 <<< j) else byte) acc).testBit k
      = (acc.testBit k || (decide (k ∈ l) && decide (p k))) := by
  intro l
  induction l with
  | nil =>
    intro acc k
    simp
  | cons a t ih =>
    intro acc k
    rw [List.foldl_cons]
    rcases Decidable.em (p a) with hp | hp
    · rw [if_pos hp, ih]
      rcases eq_or_ne k a with rfl | hka
      · simp [Nat.testBit_or, Nat.one_shiftLeft, Nat.testBit_two_pow, hp]
      · simp [Nat.testBit_or, Nat.one_shiftLeft, Nat.testBit_two_pow, List.mem_cons,
          hka, Ne.symm hka]
    · rw [if_neg hp, ih]
      rcases eq_or_ne k a with rfl | hka
      · simp [hp]
      · simp [List.mem_cons, hka]

theorem matToBytes_getD (m : BitRows) (i : Nat) (hi : i < 8) :
    (matToBytes m).getD i 0
      = (List.range 8).foldl
          (fun byte j => if getE m i j = 1 then byte ||| (1 <<< j) else byte) 0 := by
  unfold matToBytes
  rw [List.getD_eq_getElem _ _ (by simpa using hi), List.getElem_map, List.getElem_range]

theorem matToBytes_testBit (m : BitRows) (i k : Nat) (hi : i < 8) :
    ((matToBytes m).getD i 0).testBit k
      = (decide (k < 8) && decide (getE m i k = 1)) := by
  rw [matToBytes_getD m i hi, byteFold_testBit (fun j => getE m i j = 1) (List.range 8) 0 k]
  simp [List.mem_range]

theorem matToBytes_lt (m : BitRows) (i : Nat) (hi : i < 8) :
    (matToBytes m).getD i 0 < 256 := by
  have h := Nat.lt_pow_two_of_testBit (n := 8) ((matToBytes m).getD i 0) ?_
  · exact h
  · intro j hj
    rw [matToBytes_testBit m i j hi]
    simp
    omega

theorem matToBytes_length (m : BitRows) : (matToBytes m).length = 8 := by
  unfold matToBytes
  simp

theorem getE_getElem (m : BitRows) (i j : Nat) (hi : i < m.length)
    (hj : j < (m.get ⟨i, hi⟩).length) :
    getE m i j = (m.get ⟨i, hi⟩).get ⟨j, hj⟩ := by
  unfold getE
  rw [List.getD_eq_getElem _ _ hi]
  rw [List.getD_eq_getElem _ _ (by simpa using hj)]
  rfl

theorem bitrows_ext (m m' : BitRows) (hd : Dims m) (hd' : Dims m')
    (h : ∀ i j, i < 8 → j < 8 → getE m i j = getE m' i j) : m = m' := by
  apply List.ext_getElem (by rw [hd.1, hd'.1])
  intro i h1 h2
  apply List.ext_getElem
  · rw [hd.2 _ (m.getElem_mem h1), hd'.2 _ (m'.getElem_mem h2)]
  intro j hj1 hj2
  have hi8 : i < 8 := by rw [hd.1] at h1; exact h1
  have hj8 : j < 8 := by
    rw [hd.2 _ (m.getElem_mem h1)] at hj1
    exact hj1
  have heq := h i j hi8 hj8
  rw [getE_getElem m i j h1 hj1, getE_getElem m' i j h2 hj2] at heq
  exact heq

theorem shiftRight_and_one (x j : Nat) :
    (x >>> j) &&& 1 = (if x.testBit j then 1 else 0) := by
  rw [Nat.and_one_is_mod, Nat.shiftRight_eq_div_pow]
  cases h : x.testBit j with
  | true =>
    rw [Nat.testBit_to_div_mod] at h
    rw [of_decide_eq_true h, if_pos rfl]
  | false =>
    rw [Nat.testBit_to_div_mod] at h
    have h2 := of_decide_eq_false h
    have h3 : x / 2 ^ j % 2 < 2 := Nat.mod_lt _ (by omega)
    rw [if_neg (by simp)]
    omega

theorem getE_toBits (M : List Nat) (i j : Nat) (hi : i < 8) (hj : j < 8) :
    getE (toBits M) i j = ((((M.getD i 0) >>> j) &&& 1 : Nat) : ZMod 2) := by
  have hrow : (toBits M).getD i []
      = (List.range 8).map (fun j => ((((M.getD i 0) >>> j) &&& 1 : Nat) : ZMod 2)) := by
    unfold toBits
    rw [List.getD_eq_getElem _ _ (by simpa using hi), List.getElem_map, List.getElem_range]
  unfold getE
  rw [hrow, List.getD_eq_getElem _ _ (by simpa using hj), List.getElem_map, List.getElem_range]

theorem dims_matToBytes_toBits (m : BitRows) : Dims (toBits (matToBytes m)) := dims_toBits _

/-- Packing the right half to bytes and unpacking it again is the
identity on 8×8 bit arrays. -/
theorem toBits_matToBytes (m : BitRows) (hd : Dims m) : toBits (matToBytes m) = m := by
  apply bitrows_ext _ _ (dims_toBits _) hd
  intro i j hi hj
  rw [getE_toBits _ i j hi hj, shiftRight_and_one, matToBytes_testBit m i j hi]
  rcases Decidable.em (getE m i j = 1) with h1 | h1
  · rw [h1]
    simp [hj]
  · rw [zmod2_not_one_eq_zero _ h1]
    simp [hj, h1]

/-- Unpacking a byte matrix to bits and re-packing gives back the bytes
for 8-byte matrices. -/
theorem matToBytes_toBits (M : List Nat) (hlen : M.length = 8) (hb : ∀ b ∈ M, b < 256) :
    matToBytes (toBits M) = M := by
  apply List.ext_getElem (by rw [matToBytes_length, hlen])
  intro i h1 h2
  have hi8 : i < 8 := by rw [matToBytes_length] at h1; exact h1
  have hMi : M.getD i 0 = M[i] := List.getD_eq_getElem _ _ h2
  have hbyte : (matToBytes (toBits M)).getD i 0 = (matToBytes (toBits M))[i] :=
    List.getD_eq_getElem _ _ h1
  rw [← hbyte, ← hMi]
  apply Nat.eq_of_testBit_eq
  intro k
  rw [matToBytes_testBit _ i k hi8]
  rcases Decidable.em (k < 8) with hk | hk
  · rw [getE_toBits M i k hi8 hk, shiftRight_and_one]
    cases h : (M.getD i 0).testBit k with
    | true => simp [hk, h]
    | false => simp [hk, h]
  · have hblt : M.getD i 0 < 256 := by
      rw [hMi]
      exact hb _ (M.getElem_mem h2)
    have : (M.getD i 0).testBit k = false := by
      apply Nat.testBit_lt_two_pow
      calc M.getD i 0 < 256 := hblt
        _ = 2 ^ 8 := rfl
        _ ≤ 2 ^ k := Nat.pow_le_pow_right (by omega) (by omega)
    rw [this]
    simp [hk]

theorem getE_elimRows (m : BitRows) (piv col : Nat) (hpiv8 : piv < 8) (hd : Dims m)
    (r c : Nat) (hr : r < 8) :
    getE (elimRows m piv col) r c
      = if r ≠ piv ∧ getE m r col = 1 then getE m r c + getE m piv c else getE m r c := by
  have h1 : (elimRowsPair (m, m) piv col).1 = elimRows m piv col :=
    elimRowsPair_fst (m, m) piv col
  rw [← h1]
  exact (getE_elimRowsPair (m, m) piv col hpiv8 hd hd r c hr).1

theorem dims_elimRows (m : BitRows) (piv col : Nat) (hpiv8 : piv < 8) (hd : Dims m) :
    Dims (elimRows m piv col) := by
  have h1 : (elimRowsPair (m, m) piv col).1 = elimRows m piv col :=
    elimRowsPair_fst (m, m) piv col
  rw [← h1]
  exact (dims_elimRowsPair (m, m) piv col hpiv8 hd hd).1

theorem det_elimRows (m : BitRows) (piv col : Nat) (hpiv8 : piv < 8) (hd : Dims m) :
    (matOf (elimRows m piv col)).det = (matOf m).det := by
  have h1 : (elimRowsPair (m, m) piv col).1 = elimRows m piv col :=
    elimRowsPair_fst (m, m) piv col
  exact ((congrArg (fun x : BitRows => (matOf x).det) h1).symm).trans
    (det_elimRowsPair m m piv col hpiv8 hd)

theorem validStep_inv (A : Matrix (Fin 8) (Fin 8) (ZMod 2)) (st : BitRows × Nat) (col : Nat)
    (hcol : col < 8) (hinv : VInv A col st) : VInv A (col + 1) (validStep st col) := by
  obtain ⟨hd, hrk, hdet, hzero, hpivcols⟩ := hinv
  rcases hp : findPivot st.1 col st.2 with _ | piv
  · have hv : validStep st col = st := by
      unfold validStep
      rw [hp]
    rw [hv]
    have hmiss := findPivot_none st.1 col st.2 hp
    refine ⟨hd, by omega, hdet, ?_, ?_⟩
    · intro j hj i hi
      rcases lt_or_ge (j : Nat) col with hjc | hjc
      · exact hzero j hjc i hi
      · have hjcol : (j : Nat) = col := by omega
        rw [matOf_apply, hjcol]
        exact hmiss (i : Nat) hi i.isLt
    · intro k hk
      obtain ⟨j, hj, hcolk⟩ := hpivcols k hk
      exact ⟨j, by omega, hcolk⟩
  · obtain ⟨hrp, hpiv8, hpivot⟩ := findPivot_some _ _ _ _ hp
    have hrk8 : st.2 < 8 := Nat.lt_of_le_of_lt hrp hpiv8
    have hv : validStep st col = (elimRows (swapRowsL st.1 st.2 piv) st.2 col, st.2 + 1) := by
      unfold validStep
      rw [hp]
    rw [hv]
    set L1 := swapRowsL st.1 st.2 piv with hL1
    have hdL1 : Dims L1 := dims_swapRowsL _ _ _ hd hrk8 hpiv8
    have hgetL1 : ∀ x c : Nat, getE L1 x c
        = getE st.1 (if x = piv then st.2 else if x = st.2 then piv else x) c := by
      intro x c
      rw [hL1]
      exact getE_swapRowsL st.1 st.2 piv hd hrk8 hpiv8 x c
    have hL1pivot : getE L1 st.2 col = 1 := by
      rw [hgetL1]
      rcases eq_or_ne st.2 piv with he | he
      · rw [if_pos he, he]
        exact hpivot
      · rw [if_neg he, if_pos rfl]
        exact hpivot
    have hzeroN : ∀ j : Fin 8, (j : Nat) < col → ∀ x : Nat, st.2 ≤ x → x < 8 →
        getE st.1 x (j : Nat) = 0 := by
      intro j hj x hx hx8
      have h1 := hzero j hj ⟨x, hx8⟩ hx
      rw [matOf_apply] at h1
      exact h1
    have hzeroL1 : ∀ j : Fin 8, (j : Nat) < col → ∀ x : Nat, st.2 ≤ x → x < 8 →
        getE L1 x (j : Nat) = 0 := by
      intro j hj x hx hx8
      rw [hgetL1]
      rcases eq_or_ne x piv with h1 | h1
      · rw [if_pos h1]
        exact hzeroN j hj st.2 le_rfl hrk8
      · rw [if_neg h1]
        rcases eq_or_ne x st.2 with h2 | h2
        · rw [if_pos h2]
          exact hzeroN j hj piv hrp hpiv8
        · rw [if_neg h2]
          exact hzeroN j hj x hx hx8
    have hpivN : ∀ k : Fin 8, (k : Nat) < st.2 → ∃ j : Fin 8, (j : Nat) < col ∧
        ∀ x : Nat, x < 8 → getE st.1 x (j : Nat) = (if x = (k : Nat) then 1 else 0) := by
      intro k hk
      obtain ⟨j, hj, hcolk⟩ := hpivcols k hk
      refine ⟨j, hj, ?_⟩
      intro x hx8
      have h1 := hcolk ⟨x, hx8⟩
      rw [matOf_apply] at h1
      exact h1
    have hpivL1 : ∀ k : Fin 8, (k : Nat) < st.2 → ∃ j : Fin 8, (j : Nat) < col ∧
        ∀ x : Nat, x < 8 → getE L1 x (j : Nat) = (if x = (k : Nat) then 1 else 0) := by
      intro k hk
      obtain ⟨j, hj, hcolk⟩ := hpivN k hk
      refine ⟨j, hj, ?_⟩
      intro x hx8
      rw [hgetL1]
      rcases eq_or_ne x piv with h1 | h1
      · rw [if_pos h1, hcolk st.2 hrk8]
        have e1 : ¬(st.2 = (k : Nat)) := by omega
        have e2 : ¬(x = (k : Nat)) := by omega
        rw [if_neg e1, if_neg e2]
      · rw [if_neg h1]
        rcases eq_or_ne x st.2 with h2 | h2
        · rw [if_pos h2, hcolk piv hpiv8]
          have e1 : ¬(piv = (k : Nat)) := by omega
          have e2 : ¬(x = (k : Nat)) := by omega
          rw [if_neg e1, if_neg e2]
        · rw [if_neg h2]
          exact hcolk x hx8
    have hdims2 : Dims (elimRows L1 st.2 col) := dims_elimRows L1 st.2 col hrk8 hdL1
    have hchar : ∀ x c : Nat, x < 8 → getE (elimRows L1 st.2 col) x c
        = if x ≠ st.2 ∧ getE L1 x col = 1 then getE L1 x c + getE L1 st.2 c
          else getE L1 x c :=
      fun x c hx => getE_elimRows L1 st.2 col hrk8 hdL1 x c hx
    refine ⟨hdims2, ?_, ?_, ?_, ?_⟩
    · show st.2 + 1 ≤ col + 1
      omega
    · have hdet2 : (matOf (elimRows L1 st.2 col)).det = A.det := by
        rw [det_elimRows L1 st.2 col hrk8 hdL1, hL1,
          swap_det st.2 piv hrk8 hpiv8 st.1 hd]
        exact hdet
      exact (congrArg (fun m : BitRows => (matOf m).det)
        (show ((elimRows L1 st.2 col, st.2 + 1) : BitRows × Nat).1 = elimRows L1 st.2 col
          from rfl)).trans hdet2
    · intro j hj i hi
      have hi' : st.2 + 1 ≤ (i : Nat) := hi
      show matOf (elimRows L1 st.2 col) i j = 0
      rw [matOf_apply, hchar (i : Nat) (j : Nat) i.isLt]
      rcases lt_or_ge (j : Nat) col with hjc | hjc
      · rcases Decidable.em ((i : Nat) ≠ st.2 ∧ getE L1 (i : Nat) col = 1) with hc | hc
        · rw [if_pos hc, hzeroL1 j hjc (i : Nat) (by omega) i.isLt,
            hzeroL1 j hjc st.2 le_rfl hrk8, add_zero]
        · rw [if_neg hc]
          exact hzeroL1 j hjc (i : Nat) (by omega) i.isLt
      · have hjcol : (j : Nat) = col := by omega
        have hne : (i : Nat) ≠ st.2 := by omega
        rcases Decidable.em (getE L1 (i : Nat) col = 1) with h1 | h1
        · rw [if_pos ⟨hne, h1⟩, hjcol, h1, hL1pivot]
          decide
        · rw [if_neg (fun hh => h1 hh.2), hjcol]
          exact zmod2_not_one_eq_zero _ h1
    · intro k hk
      have hk' : (k : Nat) < st.2 + 1 := hk
      rcases lt_or_ge (k : Nat) st.2 with hklt | hkge
      · obtain ⟨j, hj, hcolk⟩ := hpivL1 k hklt
        refine ⟨j, by omega, ?_⟩
        intro i
        show matOf (elimRows L1 st.2 col) i j = _
        rw [matOf_apply, hchar (i : Nat) (j : Nat) i.isLt]
        rcases Decidable.em ((i : Nat) ≠ st.2 ∧ getE L1 (i : Nat) col = 1) with hc | hc
        · rw [if_pos hc, hcolk (i : Nat) i.isLt, hcolk st.2 hrk8,
            if_neg (show ¬(st.2 = (k : Nat)) by omega), add_zero]
        · rw [if_neg hc]
          exact hcolk (i : Nat) i.isLt
      · have hkeq : (k : Nat) = st.2 := by omega
        refine ⟨⟨col, hcol⟩, Nat.lt_succ_self col, ?_⟩
        intro i
        show matOf (elimRows L1 st.2 col) i ⟨col, hcol⟩ = _
        rw [matOf_apply, show ((⟨col, hcol⟩ : Fin 8) : Nat) = col from rfl,
          hchar (i : Nat) col i.isLt]
        rcases eq_or_ne (i : Nat) st.2 with h2 | h2
        · rw [if_neg (fun hh => hh.1 h2), h2, hL1pivot, if_pos (by omega)]
        · rcases Decidable.em (getE L1 (i : Nat) col = 1) with h1 | h1
          · rw [if_pos ⟨h2, h1⟩, h1, hL1pivot, if_neg (by omega)]
            decide
          · rw [if_neg (fun hh => h1 hh.2), if_neg (by omega)]
            exact zmod2_not_one_eq_zero _ h1

theorem validFold_inv (A : Matrix (Fin 8) (Fin 8) (ZMod 2)) :
    ∀ (l : List Nat) (c : Nat) (st : BitRows × Nat),
    c + l.length = 8 → l = (List.range 8).drop c → VInv A c st →
    VInv A 8 (l.foldl validStep st) := by
  intro l
  induction l with
  | nil =>
    intro c st hlen _ hinv
    have hc8 : c = 8 := by simpa using hlen
    subst hc8
    exact hinv
  | cons a t ih =>
    intro c st hlen hl hinv
    have hc8 : c < 8 := by
      simp only [List.length_cons] at hlen
      omega
    rw [range8_drop_cons c hc8] at hl
    injection hl with h1 h2
    subst h1
    subst h2
    rw [List.foldl_cons]
    exact ih (a + 1) (validStep st a)
      (by simp only [List.length_cons] at hlen; omega) rfl
      (validStep_inv A st a hc8 hinv)

theorem VInv_init (a : BitRows) (hd : Dims a) : VInv (matOf a) 0 (a, 0) := by
  refine ⟨hd, le_rfl, ?_, ?_, ?_⟩
  · exact congrArg (fun m : BitRows => (matOf m).det)
      (show ((a, 0) : BitRows × Nat).1 = a from rfl)
  · intro j hj
    exact absurd hj (by omega)
  · intro k hk
    exact absurd hk (by omega)

theorem validFold_final (M : List Nat) :
    VInv (matOf (toBits M)) 8 ((List.range 8).foldl validStep (toBits M, 0)) := by
  apply validFold_inv (matOf (toBits M)) (List.range 8) 0 (toBits M, 0)
  · rfl
  · rfl
  · exact VInv_init (toBits M) (dims_toBits M)

theorem rank8_det_ne (A : Matrix (Fin 8) (Fin 8) (ZMod 2)) (st : BitRows × Nat)
    (h : VInv A 8 st) (hr : st.2 = 8) : A.det ≠ 0 := by
  have hall : ∀ k : Fin 8, ∃ j : Fin 8, (j : Nat) < 8 ∧
      ∀ i : Fin 8, matOf st.1 i j = (if (i : Nat) = (k : Nat) then 1 else 0) := by
    intro k
    apply h.2.2.2.2 k
    rw [hr]
    exact k.isLt
  choose g hg using hall
  have hMR : matOf st.1 * Matrix.of (fun j k : Fin 8 => if j = g k then (1 : ZMod 2) else 0)
      = 1 := by
    ext i k
    rw [Matrix.mul_apply]
    calc ∑ j, matOf st.1 i j
            * Matrix.of (fun j k : Fin 8 => if j = g k then (1 : ZMod 2) else 0) j k
        = ∑ j, (if j = g k then matOf st.1 i j else 0) := by
          refine Finset.sum_congr rfl fun j _ => ?_
          show matOf st.1 i j * (if j = g k then (1 : ZMod 2) else 0) = _
          rcases eq_or_ne j (g k) with hj | hj
          · rw [if_pos hj, mul_one, if_pos hj]
          · rw [if_neg hj, mul_zero, if_neg hj]
      _ = matOf st.1 i (g k) := by
          rw [Finset.sum_ite_eq' Finset.univ (g k) (fun j => matOf st.1 i j)]
          rw [if_pos (Finset.mem_univ (g k))]
      _ = (if (i : Nat) = (k : Nat) then 1 else 0) := (hg k).2 i
      _ = (1 : Matrix (Fin 8) (Fin 8) (ZMod 2)) i k := by
          rw [Matrix.one_apply]
          rcases eq_or_ne i k with rfl | hne
          · rw [if_pos rfl, if_pos rfl]
          · rw [if_neg (fun hh => hne (Fin.ext hh)), if_neg hne]
  intro h0
  exact (Matrix.isUnit_det_of_right_inverse hMR).ne_zero (h.2.2.1.trans h0)

theorem ranklt_det_zero (A : Matrix (Fin 8) (Fin 8) (ZMod 2)) (st : BitRows × Nat)
    (h : VInv A 8 st) (hr : st.2 ≠ 8) : A.det = 0 := by
  have hlt : st.2 < 8 := lt_of_le_of_ne h.2.1 hr
  have hrow : ∀ j : Fin 8, matOf st.1 ⟨st.2, hlt⟩ j = 0 := fun j =>
    h.2.2.2.1 j j.isLt ⟨st.2, hlt⟩ le_rfl
  rw [← h.2.2.1]
  exact Matrix.det_eq_zero_of_row_eq_zero ⟨st.2, hlt⟩ hrow

theorem isMatrixValid_iff_det (M : List Nat) :
    isMatrixValid M = true ↔ (matOf (toBits M)).det ≠ 0 := by
  have hfin := validFold_final M
  unfold isMatrixValid
  rw [beq_iff_eq]
  constructor
  · intro h8
    exact rank8_det_ne _ _ hfin h8
  · intro hne
    by_contra h8
    exact hne (ranklt_det_zero _ _ hfin h8)

theorem invertMatrix_isSome_iff (M : List Nat) :
    (invertMatrix M).isSome = true ↔ (matOf (toBits M)).det ≠ 0 := by
  unfold invertMatrix
  constructor
  · intro hs h0
    rcases ha : invertMatrixAux (toBits M) with _ | st'
    · rw [ha] at hs
      exact absurd hs (by simp)
    · obtain ⟨_, h2⟩ := invertMatrixAux_inverse (toBits M) (dims_toBits M) st' ha
      exact (Matrix.isUnit_det_of_right_inverse h2).ne_zero h0
  · intro hne
    rcases ha : invertMatrixAux (toBits M) with _ | st'
    · exact absurd (invertMatrixAux_none (toBits M) (dims_toBits M) ha) hne
    · rfl

theorem invertMatrix_involution (M : List Nat) (hlen : M.length = 8)
    (hb : ∀ b ∈ M, b < 256) (B : List Nat) (h : invertMatrix M = some B) :
    invertMatrix B = some M := by
  unfold invertMatrix at h
  rcases ha : invertMatrixAux (toBits M) with _ | st'
  · rw [ha] at h
    exact absurd h (by simp)
  · rw [ha] at h
    have hB : B = matToBytes st'.2 := by
      rw [show Option.map (fun st : BitRows × BitRows => matToBytes st.2) (some st')
          = some (matToBytes st'.2) from rfl] at h
      exact (Option.some_inj.mp h).symm
    obtain ⟨hinv1, hinv2⟩ := invertMatrixAux_inverse (toBits M) (dims_toBits M) st' ha
    have hdimsR : Dims st'.2 := (invertMatrixAux_some (toBits M) (dims_toBits M) st' ha).2.1
    have hTB : toBits B = st'.2 := by
      rw [hB]
      exact toBits_matToBytes st'.2 hdimsR
    unfold invertMatrix
    rcases hb2 : invertMatrixAux (toBits B) with _ | st2
    · exfalso
      have hd0 : (matOf (toBits B)).det = 0 := invertMatrixAux_none _ (dims_toBits B) hb2
      rw [hTB] at hd0
      exact (Matrix.isUnit_det_of_right_inverse hinv1).ne_zero hd0
    · obtain ⟨hj1, _⟩ := invertMatrixAux_inverse (toBits B) (dims_toBits B) st2 hb2
      rw [hTB] at hj1
      have huniq : matOf st2.2 = matOf (toBits M) := by
        have h3 : matOf st2.2 * (matOf st'.2 * matOf (toBits M)) = matOf st2.2 := by
          rw [hinv1, mul_one]
        rw [← mul_assoc, hj1, one_mul] at h3
        exact h3.symm
      have hdims2 : Dims st2.2 := (invertMatrixAux_some (toBits B) (dims_toBits B) st2 hb2).2.1
      have hbits : st2.2 = toBits M := by
        apply bitrows_ext _ _ hdims2 (dims_toBits M)
        intro i j hi hj
        have he := congrFun (congrFun huniq ⟨i, hi⟩) ⟨j, hj⟩
        rw [matOf_apply, matOf_apply] at he
        exact he
      show Option.map (fun st : BitRows × BitRows => matToBytes st.2) (some st2) = some M
      rw [show Option.map (fun st : BitRows × BitRows => matToBytes st.2) (some st2)
          = some (matToBytes st2.2) from rfl]
      rw [hbits, matToBytes_toBits M hlen hb]

/-- C6: for every 8-byte matrix, `isMatrixValid` is true exactly when
`invertMatrix` succeeds, and a successful inversion inverted again
gives back the original matrix. -/
theorem isMatrixValid_iff_invertMatrix (M : List Nat) (hlen : M.length = 8)
    (hb : ∀ b ∈ M, b < 256) :
    (isMatrixValid M = true ↔ (invertMatrix M).isSome = true) ∧
    ∀ B, invertMatrix M = some B → invertMatrix B = some M := by
  constructor
  · rw [isMatrixValid_iff_det, invertMatrix_isSome_iff]
  · intro B h
    exact invertMatrix_involution M hlen hb B h

theorem isMatrixValid_iff_invertMatrix_witness :
    K44_MATRIX.length = 8 ∧ (∀ b ∈ K44_MATRIX, b < 256) ∧
    ((isMatrixValid K44_MATRIX = true ↔ (invertMatrix K44_MATRIX).isSome = true) ∧
     ∀ B, invertMatrix K44_MATRIX = some B → invertMatrix B = some K44_MATRIX) :=
  ⟨by decide, by decide,
    isMatrixValid_iff_invertMatrix K44_MATRIX (by decide) (by decide)⟩

theorem applyAffine_eq_innerBit (byteVal : Nat) (matrix : List Nat) (constant : Nat) :
    applyAffine byteVal matrix constant
      = ((List.range 8).foldl
          (fun result i => if innerBit matrix byteVal i ≠ 0 then result ||| (1 <<< i)
            else result) 0) ^^^ constant := rfl

theorem and_one_le_one (x : Nat) : x &&& 1 ≤ 1 := by
  rw [Nat.and_one_is_mod]
  omega

theorem and_one_cases (x : Nat) : x &&& 1 = 0 ∨ x &&& 1 = 1 := by
  rw [Nat.and_one_is_mod]
  omega

theorem xorFold (p : Nat → Prop) [DecidablePred p] :
    ∀ (l : List Nat) (acc : Nat), acc ≤ 1 →
    (l.foldl (fun bit j => if p j then bit ^^^ 1 else bit) acc) ≤ 1 ∧
    (((l.foldl (fun bit j => if p j then bit ^^^ 1 else bit) acc : Nat)) : ZMod 2)
      = (acc : ZMod 2) + ((l.countP fun j => decide (p j) : Nat) : ZMod 2) := by
  intro l
  induction l with
  | nil =>
    intro acc hacc
    exact ⟨hacc, by simp⟩
  | cons a t ih =>
    intro acc hacc
    rw [List.foldl_cons]
    rcases Decidable.em (p a) with hp | hp
    · rw [if_pos hp]
      have hx : acc ^^^ 1 ≤ 1 := by interval_cases acc <;> decide
      obtain ⟨h1, h2⟩ := ih (acc ^^^ 1) hx
      refine ⟨h1, ?_⟩
      rw [h2, List.countP_cons_of_pos _ _ (by simpa using hp)]
      have hcast : ((acc ^^^ 1 : Nat) : ZMod 2) = (acc : ZMod 2) + 1 := by
        interval_cases acc <;> decide
      rw [hcast]
      push_cast
      ring
    · rw [if_neg hp]
      obtain ⟨h1, h2⟩ := ih acc hacc
      refine ⟨h1, h2.trans ?_⟩
      rw [List.countP_cons_of_neg _ _ (by simpa using hp)]

theorem innerBit_le_one (matrix : List Nat) (byteVal i : Nat) :
    innerBit matrix byteVal i ≤ 1 :=
  (xorFold _ (List.range 8) 0 (by omega)).1

theorem innerBit_cast (matrix : List Nat) (byteVal : Nat) (i : Nat) (hi : i < 8) :
    ((innerBit matrix byteVal i : Nat) : ZMod 2)
      = (matOf (toBits matrix)).mulVec (vecOf byteVal) ⟨i, hi⟩ := by
  have h := (xorFold
    (fun j => ((matrix.getD i 0 >>> j) &&& 1) = 1 ∧ ((byteVal >>> j) &&& 1) = 1)
    (List.range 8) 0 (by omega)).2
  unfold innerBit
  rw [h, Nat.cast_zero, zero_add, countP_range_eq_card_filter, Finset.card_filter,
    Nat.cast_sum]
  show _ = ∑ j : Fin 8, matOf (toBits matrix) ⟨i, hi⟩ j * vecOf byteVal j
  rw [← Fin.sum_univ_eq_sum_range (fun x =>
    ((if (matrix.getD i 0 >>> x &&& 1) = 1 ∧ (byteVal >>> x &&& 1) = 1
      then 1 else 0 : Nat) : ZMod 2))]
  refine Finset.sum_congr rfl fun j _ => ?_
  have h1 : matOf (toBits matrix) ⟨i, hi⟩ j = getE (toBits matrix) i (j : Nat) := rfl
  rw [h1, getE_toBits matrix i (j : Nat) hi j.isLt]
  show _ = _ * ((((byteVal >>> (j : Nat)) &&& 1 : Nat)) : ZMod 2)
  rcases and_one_cases (matrix.getD i 0 >>> (j : Nat)) with h2 | h2 <;>
    rcases and_one_cases (byteVal >>> (j : Nat)) with h3 | h3 <;>
    rw [h2, h3] <;> decide

theorem applyAffine_bits (matrix : List Nat) (b constant : Nat) :
    applyAffine b matrix constant
        = ((List.range 8).foldl
            (fun result i => if innerBit matrix b i ≠ 0 then result ||| (1 <<< i)
              else result) 0) ^^^ constant ∧
    ((List.range 8).foldl
        (fun result i => if innerBit matrix b i ≠ 0 then result ||| (1 <<< i)
          else result) 0) < 256 ∧
    ∀ i : Fin 8,
      ((List.range 8).foldl
          (fun result i => if innerBit matrix b i ≠ 0 then result ||| (1 <<< i)
            else result) 0).testBit (i : Nat)
        = decide ((matOf (toBits matrix)).mulVec (vecOf b) i = 1) := by
  refine ⟨applyAffine_eq_innerBit b matrix constant, ?_, ?_⟩
  · have h256 : (256 : Nat) = 2 ^ 8 := rfl
    rw [h256]
    apply Nat.lt_pow_two_of_testBit
    intro k hk
    rw [byteFold_testBit (fun i => innerBit matrix b i ≠ 0) (List.range 8) 0 k]
    simp [List.mem_range]
    omega
  · intro i
    rw [byteFold_testBit (fun i => innerBit matrix b i ≠ 0) (List.range 8) 0 (i : Nat)]
    have hmem : (i : Nat) ∈ List.range 8 := List.mem_range.mpr i.isLt
    have hne : (innerBit matrix b (i : Nat) ≠ 0)
        ↔ (matOf (toBits matrix)).mulVec (vecOf b) i = 1 := by
      have hle := innerBit_le_one matrix b (i : Nat)
      have hc := innerBit_cast matrix b (i : Nat) i.isLt
      have hfin : (⟨(i : Nat), i.isLt⟩ : Fin 8) = i := Fin.ext rfl
      rw [hfin] at hc
      constructor
      · intro hne0
        have h1 : innerBit matrix b (i : Nat) = 1 := by omega
        rw [h1] at hc
        rw [← hc]
        decide
      · intro h1
        intro h0
        rw [h0] at hc
        rw [← hc] at h1
        exact absurd h1 (by decide)
    rw [Nat.zero_testBit, Bool.false_or, decide_eq_true hmem, Bool.true_and]
    exact decide_eq_decide.mpr hne

theorem applyAffine_inj (matrix : List Nat) (constant : Nat)
    (hdet : (matOf (toBits matrix)).det ≠ 0) (b1 b2 : Nat) (hb1 : b1 < 256) (hb2 : b2 < 256)
    (heq : applyAffine b1 matrix constant = applyAffine b2 matrix constant) : b1 = b2 := by
  obtain ⟨hA1, hR1lt, hR1bit⟩ := applyAffine_bits matrix b1 constant
  obtain ⟨hA2, hR2lt, hR2bit⟩ := applyAffine_bits matrix b2 constant
  set R1 := (List.range 8).foldl
    (fun result i => if innerBit matrix b1 i ≠ 0 then result ||| (1 <<< i) else result) 0
    with hR1def
  set R2 := (List.range 8).foldl
    (fun result i => if innerBit matrix b2 i ≠ 0 then result ||| (1 <<< i) else result) 0
    with hR2def
  have hxor : R1 ^^^ constant = R2 ^^^ constant := by
    rw [← hA1, ← hA2, heq]
  have hR : R1 = R2 := by
    have h1 := congrArg (fun z => z ^^^ constant) hxor
    simpa [Nat.xor_assoc] using h1
  have hvec : (matOf (toBits matrix)).mulVec (vecOf b1)
      = (matOf (toBits matrix)).mulVec (vecOf b2) := by
    funext i
    have hb := hR1bit i
    rw [hR, hR2bit i] at hb
    have hiff := decide_eq_decide.mp hb
    revert hiff
    generalize (matOf (toBits matrix)).mulVec (vecOf b1) i = z1
    generalize (matOf (toBits matrix)).mulVec (vecOf b2) i = z2
    revert z1 z2
    decide
  have hIA : IsUnit (matOf (toBits matrix)).det := isUnit_iff_ne_zero.mpr hdet
  have hv : vecOf b1 = vecOf b2 := by
    have h1 := congrArg ((matOf (toBits matrix))⁻¹.mulVec) hvec
    rwa [Matrix.mulVec_mulVec, Matrix.mulVec_mulVec, Matrix.nonsing_inv_mul _ hIA,
      Matrix.one_mulVec, Matrix.one_mulVec] at h1
  apply Nat.eq_of_testBit_eq
  intro k
  rcases lt_or_ge k 8 with hk | hk
  · have hvk := congrFun hv ⟨k, hk⟩
    show b1.testBit k = b2.testBit k
    have he1 : vecOf b1 ⟨k, hk⟩ = (((b1 >>> k) &&& 1 : Nat) : ZMod 2) := rfl
    have he2 : vecOf b2 ⟨k, hk⟩ = (((b2 >>> k) &&& 1 : Nat) : ZMod 2) := rfl
    rw [he1, he2, shiftRight_and_one, shiftRight_and_one] at hvk
    cases h1 : b1.testBit k <;> cases h2 : b2.testBit k <;> rw [h1, h2] at hvk <;>
      first
      | rfl
      | exact absurd hvk (by decide)
  · have h2k : (256 : Nat) ≤ 2 ^ k := by
      calc (256 : Nat) = 2 ^ 8 := rfl
        _ ≤ 2 ^ k := Nat.pow_le_pow_right (by omega) hk
    have hb1k : b1.testBit k = false :=
      Nat.testBit_lt_two_pow (Nat.lt_of_lt_of_le hb1 h2k)
    have hb2k : b2.testBit k = false :=
      Nat.testBit_lt_two_pow (Nat.lt_of_lt_of_le hb2 h2k)
    rw [hb1k, hb2k]

theorem applyAffine_lt (matrix : List Nat) (b constant : Nat) (hc : constant < 256) :
    applyAffine b matrix constant < 256 := by
  obtain ⟨hA, hRlt, _⟩ := applyAffine_bits matrix b constant
  rw [hA]
  exact Nat.xor_lt_two_pow (n := 8) hRlt hc

theorem inverseTable_perm : INVERSE_TABLE.Perm (List.range 256) :=
  perm_range_of_bitmap INVERSE_TABLE (by rfl) (by rfl)

theorem inverseTable_nodup : INVERSE_TABLE.Nodup :=
  inverseTable_perm.nodup_iff.mpr (List.nodup_range 256)

theorem inverseTable_length : INVERSE_TABLE.length = 256 := rfl

theorem inverseTable_lt (x : Nat) (hx : x < 256) : INVERSE_TABLE.getD x 0 < 256 := by
  have hx' : x < INVERSE_TABLE.length := by rw [inverseTable_length]; exact hx
  rw [List.getD_eq_getElem _ _ hx']
  have hmem : INVERSE_TABLE[x] ∈ INVERSE_TABLE := INVERSE_TABLE.getElem_mem hx'
  have := inverseTable_perm.mem_iff.mp hmem
  exact List.mem_range.mp this

theorem inverseTable_inj (x1 x2 : Nat) (h1 : x1 < 256) (h2 : x2 < 256)
    (heq : INVERSE_TABLE.getD x1 0 = INVERSE_TABLE.getD x2 0) : x1 = x2 := by
  have h1' : x1 < INVERSE_TABLE.length := by rw [inverseTable_length]; exact h1
  have h2' : x2 < INVERSE_TABLE.length := by rw [inverseTable_length]; exact h2
  rw [List.getD_eq_getElem _ _ h1', List.getD_eq_getElem _ _ h2'] at heq
  exact (inverseTable_nodup.getElem_inj_iff).mp heq

theorem generateSBox_getD (matrix : List Nat) (constant x : Nat) (hx : x < 256) :
    (generateSBox matrix constant).getD x 0
      = applyAffine (INVERSE_TABLE.getD x 0) matrix constant := by
  unfold generateSBox
  rw [List.getD_eq_getElem _ _ (by simpa using hx), List.getElem_map, List.getElem_range]

theorem generateSBox_lt (matrix : List Nat) (constant x : Nat) (hx : x < 256)
    (hc : constant < 256) : (generateSBox matrix constant).getD x 0 < 256 := by
  rw [generateSBox_getD matrix constant x hx]
  exact applyAffine_lt matrix _ constant hc

theorem generateSBox_inj (matrix : List Nat) (constant : Nat)
    (hdet : (matOf (toBits matrix)).det ≠ 0) (x1 x2 : Nat) (h1 : x1 < 256) (h2 : x2 < 256)
    (heq : (generateSBox matrix constant).getD x1 0 = (generateSBox matrix constant).getD x2 0) :
    x1 = x2 := by
  rw [generateSBox_getD matrix constant x1 h1, generateSBox_getD matrix constant x2 h2] at heq
  exact inverseTable_inj x1 x2 h1 h2
    (applyAffine_inj matrix constant hdet _ _ (inverseTable_lt x1 h1) (inverseTable_lt x2 h2) heq)

theorem list_getD_set_self {α : Type} (l : List (Option α)) (r : Nat) (v : Option α)
    (hr : r < l.length) : (l.set r v).getD r none = v := by
  rw [List.getD_eq_getElem _ _ (by rw [List.length_set]; exact hr), List.getElem_set_self]

theorem list_getD_set_ne {α : Type} (l : List (Option α)) (r r' : Nat) (v : Option α)
    (h : r' ≠ r) : (l.set r v).getD r' none = l.getD r' none := by
  rcases lt_or_ge r' l.length with hlt | hge
  · rw [List.getD_eq_getElem _ _ (by rw [List.length_set]; exact hlt),
      List.getD_eq_getElem _ _ hlt, List.getElem_set_ne (Ne.symm h)]
  · rw [List.getD_eq_default _ _ (by rw [List.length_set]; exact hge),
      List.getD_eq_default _ _ hge]

theorem setFold_length {α : Type} (s : Nat → Nat) (w : Nat → Option α) :
    ∀ (l : List Nat) (inv : List (Option α)),
    (l.foldl (fun inv i => inv.set (s i) (w i)) inv).length = inv.length := by
  intro l
  induction l with
  | nil => intro inv; rfl
  | cons a t ih =>
    intro inv
    rw [List.foldl_cons, ih, List.length_set]

theorem setFold_untouched {α : Type} (s : Nat → Nat) (w : Nat → Option α) :
    ∀ (l : List Nat) (inv : List (Option α)) (y : Nat), (∀ i ∈ l, s i ≠ y) →
    (l.foldl (fun inv i => inv.set (s i) (w i)) inv).getD y none = inv.getD y none := by
  intro l
  induction l with
  | nil => intro inv y _; rfl
  | cons a t ih =>
    intro inv y hne
    rw [List.foldl_cons, ih _ y (fun i hi => hne i (by simp [hi])),
      list_getD_set_ne _ _ _ _ (Ne.symm (hne a (by simp)))]

theorem setFold_getD {α : Type} (s : Nat → Nat) (w : Nat → Option α) :
    ∀ (l : List Nat) (inv : List (Option α)) (y x : Nat),
    y < inv.length → x ∈ l → s x = y → (∀ i ∈ l, s i = y → i = x) →
    (l.foldl (fun inv i => inv.set (s i) (w i)) inv).getD y none = w x := by
  intro l
  induction l with
  | nil =>
    intro inv y x _ hx
    exact absurd hx (by simp)
  | cons a t ih =>
    intro inv y x hy hx hsx huniq
    rw [List.foldl_cons]
    rcases Decidable.em (x ∈ t) with hxt | hxt
    · exact ih _ y x (by rw [List.length_set]; exact hy) hxt hsx
        (fun i hi => huniq i (by simp [hi]))
    · have hxa : x = a := by
        rcases List.mem_cons.mp hx with h | h
        · exact h
        · exact absurd h hxt
      subst hxa
      have hnone : ∀ i ∈ t, s i ≠ y := by
        intro i hi hcon
        exact hxt (huniq i (by simp [hi]) hcon ▸ hi)
      rw [setFold_untouched s w t _ y hnone, hsx]
      exact list_getD_set_self inv y (w x) hy

theorem inverseSBox_lookup (M : List Nat) (C x : Nat)
    (hM : isMatrixValid M = true) (hC : C < 256) (hx : x < 256) :
    (generateInverseSBox (generateSBox M C)).getD
      ((generateSBox M C).getD x 0) none = some x := by
  have hdet : (matOf (toBits M)).det ≠ 0 := (isMatrixValid_iff_det M).mp hM
  unfold generateInverseSBox
  apply setFold_getD (fun i => (generateSBox M C).getD i 0) (fun i => some i)
    (List.range 256) (List.replicate 256 none) ((generateSBox M C).getD x 0) x
  · rw [List.length_replicate]
    exact generateSBox_lt M C x hx hC
  · exact List.mem_range.mpr hx
  · rfl
  · intro i hi heq
    exact generateSBox_inj M C hdet i x (List.mem_range.mp hi) hx heq

/-- C7: for an invertible matrix (as the program's own validity check
defines it), a constant byte and any input byte, the generated inverse
S-box maps the S-box image of the byte back to the byte. -/
theorem generateInverseSBox_generateSBox (M : List Nat) (C x : Nat)
    (hM : isMatrixValid M = true) (hC : C < 256) (hx : x < 256) :
    (generateInverseSBox (generateSBox M C)).getD
      ((generateSBox M C).getD x 0) none = some x :=
  inverseSBox_lookup M C x hM hC hx

theorem generateInverseSBox_generateSBox_witness :
    isMatrixValid K44_MATRIX = true ∧ 0x63 < 256 ∧ 0 < 256 ∧
    (generateInverseSBox (generateSBox K44_MATRIX 0x63)).getD
      ((generateSBox K44_MATRIX 0x63).getD 0 0) none = some 0 :=
  ⟨by decide, by decide, by decide,
    generateInverseSBox_generateSBox K44_MATRIX 0x63 0 (by decide) (by decide) (by decide)⟩

set_option maxHeartbeats 3200000 in
/-- C5: on every block, key and S-box, `encryptBlockWithSteps` emits
exactly 41 steps — one initial snapshot, the round-0 `addRoundKey`,
four steps (`subBytes`, `shiftRows`, `mixColumns`, `addRoundKey`) for
each round 1–9 and three steps (`subBytes`, `shiftRows`,
`addRoundKey`) for round 10 — every `addRoundKey` step records that
round's key (and the others none), and replaying each step's recorded
operation on the previous step's state reproduces the step's state. -/
theorem encryptBlockWithSteps_spec (block key sbox : List Nat) :
    ((encryptBlockWithSteps block key sbox).2.1).map (fun s => (s.round, s.operation))
        = [(0, .initial), (0, .addRoundKey),
           (1, .subBytes), (1, .shiftRows), (1, .mixColumns), (1, .addRoundKey),
           (2, .subBytes), (2, .shiftRows), (2, .mixColumns), (2, .addRoundKey),
           (3, .subBytes), (3, .shiftRows), (3, .mixColumns), (3, .addRoundKey),
           (4, .subBytes), (4, .shiftRows), (4, .mixColumns), (4, .addRoundKey),
           (5, .subBytes), (5, .shiftRows), (5, .mixColumns), (5, .addRoundKey),
           (6, .subBytes), (6, .shiftRows), (6, .mixColumns), (6, .addRoundKey),
           (7, .subBytes), (7, .shiftRows), (7, .mixColumns), (7, .addRoundKey),
           (8, .subBytes), (8, .shiftRows), (8, .mixColumns), (8, .addRoundKey),
           (9, .subBytes), (9, .shiftRows), (9, .mixColumns), (9, .addRoundKey),
           (10, .subBytes), (10, .shiftRows), (10, .addRoundKey)] ∧
    ((encryptBlockWithSteps block key sbox).2.1).length = 41 ∧
    (((encryptBlockWithSteps block key sbox).2.1).getD 0 ⟨0, .initial, [], none⟩).state
        = bytesToState block ∧
    (∀ n, n < 41 →
      (((encryptBlockWithSteps block key sbox).2.1).getD n ⟨0, .initial, [], none⟩).roundKey
        = (if (((encryptBlockWithSteps block key sbox).2.1).getD n
              ⟨0, .initial, [], none⟩).operation = .addRoundKey then
            some ((encryptBlockWithSteps block key sbox).2.2.getD
              (((encryptBlockWithSteps block key sbox).2.1).getD n
                ⟨0, .initial, [], none⟩).round [])
          else none)) ∧
    ∀ n, n + 1 < 41 →
      (((encryptBlockWithSteps block key sbox).2.1).getD (n + 1)
          ⟨0, .initial, [], none⟩).state
        = applyOp sbox
            (((encryptBlockWithSteps block key sbox).2.1).getD (n + 1)
              ⟨0, .initial, [], none⟩).roundKey
            (((encryptBlockWithSteps block key sbox).2.1).getD (n + 1)
              ⟨0, .initial, [], none⟩).operation
            ((((encryptBlockWithSteps block key sbox).2.1).getD n
              ⟨0, .initial, [], none⟩).state) := by
  set rks := keyExpansion key sbox with hrks0
  set t0 := bytesToState block with ht0
  set t1 := addRoundKey t0 (rks.getD 0 []) with ht1
  set a1 := subBytes t1 sbox with ha1
  set b1 := shiftRows a1 with hb1
  set c1 := mixColumns b1 with hc1
  set d1 := addRoundKey c1 (rks.getD 1 []) with hd1
  set a2 := subBytes d1 sbox with ha2
  set b2 := shiftRows a2 with hb2
  set c2 := mixColumns b2 with hc2
  set d2 := addRoundKey c2 (rks.getD 2 []) with hd2
  set a3 := subBytes d2 sbox with ha3
  set b3 := shiftRows a3 with hb3
  set c3 := mixColumns b3 with hc3
  set d3 := addRoundKey c3 (rks.getD 3 []) with hd3
  set a4 := subBytes d3 sbox with ha4
  set b4 := shiftRows a4 with hb4
  set c4 := mixColumns b4 with hc4
  set d4 := addRoundKey c4 (rks.getD 4 []) with hd4
  set a5 := subBytes d4 sbox with ha5
  set b5 := shiftRows a5 with hb5
  set c5 := mixColumns b5 with hc5
  set d5 := addRoundKey c5 (rks.getD 5 []) with hd5
  set a6 := subBytes d5 sbox with ha6
  set b6 := shiftRows a6 with hb6
  set c6 := mixColumns b6 with hc6
  set d6 := addRoundKey c6 (rks.getD 6 []) with hd6
  set a7 := subBytes d6 sbox with ha7
  set b7 := shiftRows a7 with hb7
  set c7 := mixColumns b7 with hc7
  set d7 := addRoundKey c7 (rks.getD 7 []) with hd7
  set a8 := subBytes d7 sbox with ha8
  set b8 := shiftRows a8 with hb8
  set c8 := mixColumns b8 with hc8
  set d8 := addRoundKey c8 (rks.getD 8 []) with hd8
  set a9 := subBytes d8 sbox with ha9
  set b9 := shiftRows a9 with hb9
  set c9 := mixColumns b9 with hc9
  set d9 := addRoundKey c9 (rks.getD 9 []) with hd9
  set a10 := subBytes d9 sbox with ha10
  set b10 := shiftRows a10 with hb10
  set c10 := addRoundKey b10 (rks.getD 10 []) with hc10
  have hsteps : (encryptBlockWithSteps block key sbox).2.1
      = [⟨0, .initial, t0, none⟩,
      ⟨0, .addRoundKey, t1, some (rks.getD 0 [])⟩,
      ⟨1, .subBytes, a1, none⟩,
      ⟨1, .shiftRows, b1, none⟩,
      ⟨1, .mixColumns, c1, none⟩,
      ⟨1, .addRoundKey, d1, some (rks.getD 1 [])⟩,
      ⟨2, .subBytes, a2, none⟩,
      ⟨2, .shiftRows, b2, none⟩,
      ⟨2, .mixColumns, c2, none⟩,
      ⟨2, .addRoundKey, d2, some (rks.getD 2 [])⟩,
      ⟨3, .subBytes, a3, none⟩,
      ⟨3, .shiftRows, b3, none⟩,
      ⟨3, .mixColumns, c3, none⟩,
      ⟨3, .addRoundKey, d3, some (rks.getD 3 [])⟩,
      ⟨4, .subBytes, a4, none⟩,
      ⟨4, .shiftRows, b4, none⟩,
      ⟨4, .mixColumns, c4, none⟩,
      ⟨4, .addRoundKey, d4, some (rks.getD 4 [])⟩,
      ⟨5, .subBytes, a5, none⟩,
      ⟨5, .shiftRows, b5, none⟩,
      ⟨5, .mixColumns, c5, none⟩,
      ⟨5, .addRoundKey, d5, some (rks.getD 5 [])⟩,
      ⟨6, .subBytes, a6, none⟩,
      ⟨6, .shiftRows, b6, none⟩,
      ⟨6, .mixColumns, c6, none⟩,
      ⟨6, .addRoundKey, d6, some (rks.getD 6 [])⟩,
      ⟨7, .subBytes, a7, none⟩,
      ⟨7, .shiftRows, b7, none⟩,
      ⟨7, .mixColumns, c7, none⟩,
      ⟨7, .addRoundKey, d7, some (rks.getD 7 [])⟩,
      ⟨8, .subBytes, a8, none⟩,
      ⟨8, .shiftRows, b8, none⟩,
      ⟨8, .mixColumns, c8, none⟩,
      ⟨8, .addRoundKey, d8, some (rks.getD 8 [])⟩,
      ⟨9, .subBytes, a9, none⟩,
      ⟨9, .shiftRows, b9, none⟩,
      ⟨9, .mixColumns, c9, none⟩,
      ⟨9, .addRoundKey, d9, some (rks.getD 9 [])⟩,
      ⟨10, .subBytes, a10, none⟩,
      ⟨10, .shiftRows, b10, none⟩,
      ⟨10, .addRoundKey, c10, some (rks.getD 10 [])⟩] := rfl
  have hrkeys : (encryptBlockWithSteps block key sbox).2.2 = rks := rfl
  rw [hsteps, hrkeys]
  refine ⟨rfl, rfl, rfl, ?_, ?_⟩
  · intro n hn
    interval_cases n <;> rfl
  · intro n hn
    have hn2 : n < 40 := by omega
    interval_cases n <;> rfl

/-- C3: `pkcs7Unpad` fails exactly when the data is empty, the last
byte is outside 1..16, the last byte exceeds the data length, or some
trailing byte among the last `padLen` differs from `padLen`; on
success it returns the data with the last `padLen` bytes removed; and
a decryption whose recombined plaintext has invalid padding surfaces
that very padding error from `decrypt` (never a silently truncated
result). -/
theorem pkcs7Unpad_spec (data : List Nat) (ct keyStr sbox : List Nat)
    (blocks : List (List Nat)) (e : PadError)
    (hm : (chunks16 ct.length ct).mapM
      (fun b => decryptBlock b (utf8Encode (canonKey keyStr)) sbox) = some blocks)
    (he : pkcs7Unpad blocks.flatten = .error e) :
    ((∃ e2, pkcs7Unpad data = .error e2)
      ↔ (data.length = 0 ∨ data.getD (data.length - 1) 0 > 16
          ∨ data.getD (data.length - 1) 0 = 0
          ∨ data.getD (data.length - 1) 0 > data.length
          ∨ ∃ i, data.length - data.getD (data.length - 1) 0 ≤ i ∧ i < data.length
              ∧ data.getD i 0 ≠ data.getD (data.length - 1) 0)) ∧
    (∀ out, pkcs7Unpad data = .ok out
      → out = data.take (data.length - data.getD (data.length - 1) 0)) ∧
    decrypt ct keyStr sbox = .error (.invalidPadding e) := by
  refine ⟨?_, ?_, ?_⟩
  · unfold pkcs7Unpad
    rcases Decidable.em (data.length = 0) with h0 | h0
    · rw [if_pos h0]
      constructor
      · intro _
        exact Or.inl h0
      · intro _
        exact ⟨.emptyData, rfl⟩
    · rw [if_neg h0]
      set padLen := data.getD (data.length - 1) 0 with hpad
      rcases Decidable.em (padLen > 16 ∨ padLen = 0) with h1 | h1
      · rw [if_pos h1]
        constructor
        · intro _
          rcases h1 with h1 | h1
          · exact Or.inr (Or.inl h1)
          · exact Or.inr (Or.inr (Or.inl h1))
        · intro _
          exact ⟨.badLength padLen, rfl⟩
      · rw [if_neg h1]
        rcases Decidable.em (padLen > data.length) with h2 | h2
        · rw [if_pos h2]
          constructor
          · intro _
            exact Or.inr (Or.inr (Or.inr (Or.inl h2)))
          · intro _
            exact ⟨.exceedsData padLen data.length, rfl⟩
        · rw [if_neg h2]
          rcases hf : (List.range' (data.length - padLen) padLen).find?
              (fun i => decide (data.getD i 0 ≠ padLen)) with _ | i
          · constructor
            · intro ⟨e2, he2⟩
              exact absurd he2 (by simp)
            · intro hor
              exfalso
              rcases hor with h | h | h | h | ⟨i, hi1, hi2, hi3⟩
              · exact h0 h
              · exact h1 (Or.inl h)
              · exact h1 (Or.inr h)
              · exact h2 h
              · have hmem : i ∈ List.range' (data.length - padLen) padLen := by
                  rw [List.mem_range'_1]
                  constructor
                  · exact hi1
                  · omega
                have := List.find?_eq_none.mp hf i hmem
                rw [decide_eq_true_eq] at this
                · exact this hi3
          · constructor
            · intro _
              have hmem := List.mem_of_find?_eq_some hf
              have hpred := List.find?_some hf
              rw [List.mem_range'_1] at hmem
              rw [decide_eq_true_eq] at hpred
              exact Or.inr (Or.inr (Or.inr (Or.inr ⟨i, hmem.1, by omega, hpred⟩)))
            · intro _
              exact ⟨.badByte i padLen (data.getD i 0), rfl⟩
  · intro out hout
    unfold pkcs7Unpad at hout
    rcases Decidable.em (data.length = 0) with h0 | h0
    · rw [if_pos h0] at hout
      exact absurd hout (by simp)
    · rw [if_neg h0] at hout
      set padLen := data.getD (data.length - 1) 0 with hpad
      rcases Decidable.em (padLen > 16 ∨ padLen = 0) with h1 | h1
      · rw [if_pos h1] at hout
        exact absurd hout (by simp)
      · rw [if_neg h1] at hout
        rcases Decidable.em (padLen > data.length) with h2 | h2
        · rw [if_pos h2] at hout
          exact absurd hout (by simp)
        · rw [if_neg h2] at hout
          rcases hf : (List.range' (data.length - padLen) padLen).find?
              (fun i => decide (data.getD i 0 ≠ padLen)) with _ | i
          · rw [hf] at hout
            have : data.take (data.length - padLen) = out := by
              have h3 : Except.ok (ε := PadError) (data.take (data.length - padLen))
                  = .ok out := hout
              exact Except.ok.inj h3
            exact this.symm
          · rw [hf] at hout
            exact absurd hout (by simp)
  · unfold decrypt
    simp only [hm, he]

theorem pkcs7Unpad_spec_witness :
    ((chunks16 (List.length ([] : List Nat)) []).mapM
        (fun b => decryptBlock b (utf8Encode (canonKey [])) []) = some [] ∧
      pkcs7Unpad (List.flatten ([] : List (List Nat))) = .error .emptyData) ∧
    (((∃ e2, pkcs7Unpad [5, 0] = .error e2)
      ↔ (List.length [5, 0] = 0 ∨ [5, 0].getD (List.length [5, 0] - 1) 0 > 16
          ∨ [5, 0].getD (List.length [5, 0] - 1) 0 = 0
          ∨ [5, 0].getD (List.length [5, 0] - 1) 0 > List.length [5, 0]
          ∨ ∃ i, List.length [5, 0] - [5, 0].getD (List.length [5, 0] - 1) 0 ≤ i
              ∧ i < List.length [5, 0]
              ∧ [5, 0].getD i 0 ≠ [5, 0].getD (List.length [5, 0] - 1) 0)) ∧
    (∀ out, pkcs7Unpad [5, 0] = .ok out
      → out = [5, 0].take (List.length [5, 0] - [5, 0].getD (List.length [5, 0] - 1) 0)) ∧
    decrypt [] [] [] = .error (.invalidPadding .emptyData)) :=
  ⟨⟨rfl, rfl⟩, pkcs7Unpad_spec [5, 0] [] [] [] [] .emptyData rfl rfl⟩

/-- C9: `encrypt` and `decrypt` only see the key string through the
canonicalization `padEnd(16, '\0').slice(0, 16)`: keys with equal
canonical forms encrypt and decrypt identically; appending past
position 16 and appending trailing NULs within the first 16 positions
do not change the canonical form. -/
theorem encrypt_decrypt_canonKey (pt ct k1 k2 sbox : List Nat)
    (h : canonKey k1 = canonKey k2) :
    encrypt pt k1 sbox = encrypt pt k2 sbox ∧
    decrypt ct k1 sbox = decrypt ct k2 sbox ∧
    (∀ extra, 16 ≤ k1.length → canonKey (k1 ++ extra) = canonKey k1) ∧
    (∀ m, canonKey (k1 ++ List.replicate m 0) = canonKey k1) := by
  refine ⟨?_, ?_, ?_, ?_⟩
  · unfold encrypt
    rw [h]
  · unfold decrypt
    rw [h]
  · intro extra hlen
    unfold canonKey
    rw [Nat.sub_eq_zero_of_le hlen,
      Nat.sub_eq_zero_of_le (le_trans hlen (by simp))]
    simp only [List.replicate_zero, List.append_nil]
    rw [List.take_append_of_le_length hlen]
  · intro m
    unfold canonKey
    rcases le_or_lt (k1.length + m) 16 with hle | hlt
    · rw [List.append_assoc, ← List.replicate_add]
      have harith : m + (16 - (k1 ++ List.replicate m 0).length) = 16 - k1.length := by
        simp only [List.length_append, List.length_replicate]
        omega
      rw [harith]
    · -- the appended NULs already reach past position 16
      rcases le_or_lt 16 k1.length with h16 | h16
      · rw [Nat.sub_eq_zero_of_le h16,
          Nat.sub_eq_zero_of_le (le_trans h16 (by simp))]
        simp only [List.replicate_zero, List.append_nil]
        rw [List.take_append_of_le_length h16]
      · have hz : 16 - (k1 ++ List.replicate m 0).length = 0 := by
          simp only [List.length_append, List.length_replicate]
          omega
        rw [hz]
        simp only [List.replicate_zero, List.append_nil]
        apply List.ext_getElem
        · simp only [List.length_take, List.length_append, List.length_replicate]
          omega
        intro n h1 h2
        simp only [List.length_take, List.length_append, List.length_replicate] at h1
        rw [List.getElem_take, List.getElem_take]
        rcases lt_or_ge n k1.length with hn | hn
        · rw [List.getElem_append_left hn, List.getElem_append_left hn]
        · rw [List.getElem_append_right hn, List.getElem_append_right hn,
            List.getElem_replicate, List.getElem_replicate]

theorem encrypt_decrypt_canonKey_witness :
    canonKey [107] = canonKey [107, 0] ∧
    (encrypt [] [107] [] = encrypt [] [107, 0] [] ∧
     decrypt [] [107] [] = decrypt [] [107, 0] [] ∧
     (∀ extra, 16 ≤ List.length [107] → canonKey ([107] ++ extra) = canonKey [107]) ∧
     (∀ m, canonKey ([107] ++ List.replicate m 0) = canonKey [107])) :=
  ⟨by decide, encrypt_decrypt_canonKey [] [] [107] [107, 0] [] (by decide)⟩

theorem stE_mk (f : Nat → Nat → Nat) (r c : Nat) (hr : r < 4) (hc : c < 4) :
    stE ((List.range 4).map fun i => (List.range 4).map fun j => f i j) r c = f r c := by
  have hrow : ((List.range 4).map fun i => (List.range 4).map fun j => f i j).getD r []
      = (List.range 4).map fun j => f r j := by
    rw [List.getD_eq_getElem _ _ (by simpa using hr), List.getElem_map, List.getElem_range]
  unfold stE
  rw [hrow, List.getD_eq_getElem _ _ (by simpa using hc), List.getElem_map,
    List.getElem_range]

theorem St4_mk (f : Nat → Nat → Nat) :
    St4 ((List.range 4).map fun i => (List.range 4).map fun j => f i j) := by
  constructor
  · simp
  · intro r hr
    simp only [List.mem_map, List.mem_range] at hr
    obtain ⟨i, _, hi⟩ := hr
    rw [← hi]
    simp

theorem StB_mk (f : Nat → Nat → Nat) (hf : ∀ i j, i < 4 → j < 4 → f i j < 256) :
    StB ((List.range 4).map fun i => (List.range 4).map fun j => f i j) := by
  refine ⟨St4_mk f, ?_⟩
  intro r hr v hv
  simp only [List.mem_map, List.mem_range] at hr
  obtain ⟨i, hi4, hi⟩ := hr
  rw [← hi] at hv
  simp only [List.mem_map, List.mem_range] at hv
  obtain ⟨j, hj4, hj⟩ := hv
  rw [← hj]
  exact hf i j hi4 hj4

theorem stE_lt (st : AState) (hb : StB st) (r c : Nat) : stE st r c < 256 := by
  unfold stE
  rcases lt_or_ge r st.length with hr | hr
  · rcases lt_or_ge c (st.getD r []).length with hc | hc
    · rw [List.getD_eq_getElem _ _ hc]
      apply hb.2 (st.getD r []) _ _ (List.getElem_mem hc)
      rw [List.getD_eq_getElem _ _ hr]
      exact List.getElem_mem hr
    · rw [List.getD_eq_default _ _ hc]
      omega
  · rw [List.getD_eq_default _ _ hr]
    unfold List.getD
    simp

theorem astate_ext (m m' : AState) (hd : St4 m) (hd' : St4 m')
    (h : ∀ i j, i < 4 → j < 4 → stE m i j = stE m' i j) : m = m' := by
  apply List.ext_getElem (by rw [hd.1, hd'.1])
  intro i h1 h2
  apply List.ext_getElem
  · rw [hd.2 _ (m.getElem_mem h1), hd'.2 _ (m'.getElem_mem h2)]
  intro j hj1 hj2
  have hi4 : i < 4 := by rw [hd.1] at h1; exact h1
  have hj4 : j < 4 := by
    rw [hd.2 _ (m.getElem_mem h1)] at hj1
    exact hj1
  have heq := h i j hi4 hj4
  unfold stE at heq
  rw [List.getD_eq_getElem _ _ h1, List.getD_eq_getElem _ _ h2] at heq
  rw [List.getD_eq_getElem _ _ (by exact hj1), List.getD_eq_getElem _ _ (by exact hj2)] at heq
  exact heq

theorem stateToBytes_length (st : AState) : (stateToBytes st).length = 16 := by
  unfold stateToBytes
  simp

theorem stateToBytes_getD (st : AState) (i : Nat) (hi : i < 16) :
    (stateToBytes st).getD i 0 = stE st (i % 4) (i / 4) := by
  unfold stateToBytes
  rw [List.getD_eq_getElem _ _ (by simpa using hi), List.getElem_map, List.getElem_range]

theorem St4_bytesToState (bytes : List Nat) : St4 (bytesToState bytes) := St4_mk _

theorem stE_bytesToState (bytes : List Nat) (r c : Nat) (hr : r < 4) (hc : c < 4) :
    stE (bytesToState bytes) r c = bytes.getD (r + 4 * c) 0 := stE_mk _ r c hr hc

theorem bytesToState_stateToBytes (st : AState) (hd : St4 st) :
    bytesToState (stateToBytes st) = st := by
  apply astate_ext _ _ (St4_bytesToState _) hd
  intro r c hr hc
  rw [stE_bytesToState _ r c hr hc, stateToBytes_getD st (r + 4 * c) (by omega)]
  have h1 : (r + 4 * c) % 4 = r := by omega
  have h2 : (r + 4 * c) / 4 = c := by omega
  rw [h1, h2]

theorem stateToBytes_bytesToState (bytes : List Nat) (hlen : bytes.length = 16) :
    stateToBytes (bytesToState bytes) = bytes := by
  apply List.ext_getElem (by rw [stateToBytes_length, hlen])
  intro i h1 h2
  have hi16 : i < 16 := by rw [hlen] at h2; exact h2
  have hL : (stateToBytes (bytesToState bytes)).getD i 0
      = (stateToBytes (bytesToState bytes))[i] := List.getD_eq_getElem _ _ h1
  have hR : bytes.getD i 0 = bytes[i] := List.getD_eq_getElem _ _ h2
  rw [← hL, ← hR, stateToBytes_getD _ i hi16,
    stE_bytesToState _ _ _ (by omega) (by omega)]
  have : i % 4 + 4 * (i / 4) = i := by omega
  rw [this]

theorem St4_addRoundKey (st k : AState) : St4 (addRoundKey st k) := St4_mk _

theorem stE_addRoundKey (st k : AState) (r c : Nat) (hr : r < 4) (hc : c < 4) :
    stE (addRoundKey st k) r c = stE st r c ^^^ stE k r c := stE_mk _ r c hr hc

theorem St4_shiftRows (st : AState) : St4 (shiftRows st) := St4_mk _

theorem stE_shiftRows (st : AState) (r c : Nat) (hr : r < 4) (hc : c < 4) :
    stE (shiftRows st) r c = stE st r ((c + r) % 4) := stE_mk _ r c hr hc

theorem St4_invShiftRows (st : AState) : St4 (invShiftRows st) := St4_mk _

theorem stE_invShiftRows (st : AState) (r c : Nat) (hr : r < 4) (hc : c < 4) :
    stE (invShiftRows st) r c = stE st r ((c + 4 - r) % 4) := stE_mk _ r c hr hc

theorem St4_mixColumns (st : AState) : St4 (mixColumns st) := St4_mk _

theorem St4_invMixColumns (st : AState) : St4 (invMixColumns st) := St4_mk _

theorem addRoundKey_addRoundKey (st k : AState) (hd : St4 st) :
    addRoundKey (addRoundKey st k) k = st := by
  apply astate_ext _ _ (St4_addRoundKey _ _) hd
  intro r c hr hc
  rw [stE_addRoundKey _ _ r c hr hc, stE_addRoundKey _ _ r c hr hc,
    Nat.xor_assoc, Nat.xor_self, Nat.xor_zero]

theorem invShiftRows_shiftRows (st : AState) (hd : St4 st) :
    invShiftRows (shiftRows st) = st := by
  apply astate_ext _ _ (St4_invShiftRows _) hd
  intro r c hr hc
  rw [stE_invShiftRows _ r c hr hc, stE_shiftRows _ r ((c + 4 - r) % 4) hr (by omega)]
  have : ((c + 4 - r) % 4 + r) % 4 = c := by omega
  rw [this]

theorem St4_subBytes (st : AState) (sbox : List Nat) (hd : St4 st) :
    St4 (subBytes st sbox) := by
  constructor
  · unfold subBytes
    rw [List.length_map, hd.1]
  · intro r hr
    unfold subBytes at hr
    simp only [List.mem_map] at hr
    obtain ⟨row, hrow, hmap⟩ := hr
    rw [← hmap, List.length_map]
    exact hd.2 row hrow

theorem stE_subBytes (st : AState) (sbox : List Nat) (hd : St4 st) (r c : Nat)
    (hr : r < 4) (hc : c < 4) :
    stE (subBytes st sbox) r c = sbox.getD (stE st r c) 0 := by
  have hr' : r < st.length := by rw [hd.1]; exact hr
  have hc' : c < (st[r]).length := by rw [hd.2 _ (st.getElem_mem hr')]; exact hc
  have hrow : (st.map fun row => row.map fun v => sbox.getD v 0).getD r []
      = st[r].map fun v => sbox.getD v 0 := by
    rw [List.getD_eq_getElem _ _ (by rw [List.length_map]; exact hr'), List.getElem_map]
  unfold subBytes stE
  rw [hrow, List.getD_eq_getElem _ _ (by rw [List.length_map]; exact hc'), List.getElem_map,
    List.getD_eq_getElem _ _ hr', List.getD_eq_getElem _ _ hc']

theorem mapM_map_roundtrip {α β : Type} (f : α → β) (g : β → Option α) :
    ∀ (l : List α), (∀ v ∈ l, g (f v) = some v) → (l.map f).mapM g = some l := by
  intro l
  induction l with
  | nil => intro _; rfl
  | cons a t ih =>
    intro h
    rw [List.map_cons, List.mapM_cons, h a (by simp), ih (fun v hv => h v (by simp [hv]))]
    rfl

theorem invSubBytes_subBytes (st : AState) (sbox : List Nat) (invSbox : List (Option Nat))
    (hd : St4 st) (hbnd : ∀ r ∈ st, ∀ v ∈ r, v < 256)
    (hinv : ∀ v, v < 256 → invSbox.getD (sbox.getD v 0) none = some v) :
    invSubBytes (subBytes st sbox) invSbox = some st := by
  unfold invSubBytes subBytes
  apply mapM_map_roundtrip
  intro row hrow
  apply mapM_map_roundtrip
  intro v hv
  exact hinv v (hbnd row hrow v hv)

theorem xor_left_comm (a b c : Nat) : a ^^^ (b ^^^ c) = b ^^^ (a ^^^ c) := by
  rw [← Nat.xor_assoc, Nat.xor_comm a b, Nat.xor_assoc]

theorem xor_xor_cancel (x y c : Nat) : (x ^^^ c) ^^^ (y ^^^ c) = x ^^^ y := by
  apply Nat.eq_of_testBit_eq
  intro i
  simp only [Nat.testBit_xor]
  generalize x.testBit i = p
  generalize y.testBit i = q
  generalize c.testBit i = s
  revert p q s
  decide

theorem shiftLeft_xor_distrib (a b n : Nat) :
    (a ^^^ b) <<< n = (a <<< n) ^^^ (b <<< n) := by
  apply Nat.eq_of_testBit_eq
  intro i
  simp only [Nat.testBit_shiftLeft, Nat.testBit_xor]
  rcases Bool.eq_false_or_eq_true (decide (i ≥ n)) with h | h <;> rw [h] <;> simp

theorem and_0x80_cases (x : Nat) : x &&& 0x80 = if x.testBit 7 then 0x80 else 0 := by
  rw [show (0x80 : Nat) = 2 ^ 7 from rfl, Nat.and_two_pow]
  cases x.testBit 7 <;> simp

theorem xtime_xor (a b : Nat) : xtime (a ^^^ b) = xtime a ^^^ xtime b := by
  simp only [xtime]
  rw [and_0x80_cases (a ^^^ b), and_0x80_cases a, and_0x80_cases b, Nat.testBit_xor]
  rw [shiftLeft_xor_distrib, Nat.and_xor_distrib_right]
  cases h1 : a.testBit 7 <;> cases h2 : b.testBit 7
  · simp
  · simp [Nat.xor_assoc]
  · simp [Nat.xor_assoc, Nat.xor_comm, xor_left_comm]
  · simp [xor_xor_cancel]

theorem gfMC_xor_1 (a b : Nat) :
    gfMultiplyConstant (a ^^^ b) 1 = gfMultiplyConstant a 1 ^^^ gfMultiplyConstant b 1 := by
  simp [gfMultiplyConstant]

theorem gfMC_xor_2 (a b : Nat) :
    gfMultiplyConstant (a ^^^ b) 2 = gfMultiplyConstant a 2 ^^^ gfMultiplyConstant b 2 := by
  simp [gfMultiplyConstant, xtime_xor]

theorem gfMC_xor_3 (a b : Nat) :
    gfMultiplyConstant (a ^^^ b) 3 = gfMultiplyConstant a 3 ^^^ gfMultiplyConstant b 3 := by
  simp only [gfMultiplyConstant]
  norm_num
  simp only [xtime_xor]
  simp [Nat.xor_assoc, Nat.xor_comm, xor_left_comm]

theorem gfMC_xor_9 (a b : Nat) :
    gfMultiplyConstant (a ^^^ b) 9 = gfMultiplyConstant a 9 ^^^ gfMultiplyConstant b 9 := by
  simp only [gfMultiplyConstant]
  norm_num
  simp only [xtime_xor]
  simp [Nat.xor_assoc, Nat.xor_comm, xor_left_comm]

theorem gfMC_xor_11 (a b : Nat) :
    gfMultiplyConstant (a ^^^ b) 11 = gfMultiplyConstant a 11 ^^^ gfMultiplyConstant b 11 := by
  simp only [gfMultiplyConstant]
  norm_num
  simp only [xtime_xor]
  simp [Nat.xor_assoc, Nat.xor_comm, xor_left_comm]

theorem gfMC_xor_13 (a b : Nat) :
    gfMultiplyConstant (a ^^^ b) 13 = gfMultiplyConstant a 13 ^^^ gfMultiplyConstant b 13 := by
  simp only [gfMultiplyConstant]
  norm_num
  simp only [xtime_xor]
  simp [Nat.xor_assoc, Nat.xor_comm, xor_left_comm]

theorem gfMC_xor_14 (a b : Nat) :
    gfMultiplyConstant (a ^^^ b) 14 = gfMultiplyConstant a 14 ^^^ gfMultiplyConstant b 14 := by
  simp only [gfMultiplyConstant]
  norm_num
  simp only [xtime_xor]
  simp [Nat.xor_assoc, Nat.xor_comm, xor_left_comm]

theorem gfMC_xor_of_mem (e : Nat) (he : e ∈ ([1, 2, 3, 9, 11, 13, 14] : List Nat))
    (a b : Nat) :
    gfMultiplyConstant (a ^^^ b) e
      = gfMultiplyConstant a e ^^^ gfMultiplyConstant b e := by
  fin_cases he
  · exact gfMC_xor_1 a b
  · exact gfMC_xor_2 a b
  · exact gfMC_xor_3 a b
  · exact gfMC_xor_9 a b
  · exact gfMC_xor_11 a b
  · exact gfMC_xor_13 a b
  · exact gfMC_xor_14 a b

theorem MCM_mem (k m : Nat) (hk : k < 4) (hm : m < 4) :
    (MIX_COLUMNS_MATRIX.getD k []).getD m 0 ∈ ([1, 2, 3, 9, 11, 13, 14] : List Nat) := by
  interval_cases k <;> interval_cases m <;> decide

theorem INVM_mem (r k : Nat) (hr : r < 4) (hk : k < 4) :
    (INV_MIX_COLUMNS_MATRIX.getD r []).getD k 0 ∈ ([1, 2, 3, 9, 11, 13, 14] : List Nat) := by
  interval_cases r <;> interval_cases k <;> decide

theorem xor_interleave (a0 b0 a1 b1 a2 b2 a3 b3 : Nat) :
    (((a0 ^^^ b0) ^^^ (a1 ^^^ b1)) ^^^ (a2 ^^^ b2)) ^^^ (a3 ^^^ b3)
      = (((a0 ^^^ a1) ^^^ a2) ^^^ a3) ^^^ (((b0 ^^^ b1) ^^^ b2) ^^^ b3) := by
  apply Nat.eq_of_testBit_eq
  intro i
  simp only [Nat.testBit_xor]
  generalize a0.testBit i = p0
  generalize b0.testBit i = q0
  generalize a1.testBit i = p1
  generalize b1.testBit i = q1
  generalize a2.testBit i = p2
  generalize b2.testBit i = q2
  generalize a3.testBit i = p3
  generalize b3.testBit i = q3
  revert p0 q0 p1 q1 p2 q2 p3 q3
  decide

theorem mcComp_xor (r m a b : Nat) (hr : r < 4) (hm : m < 4) :
    mcComp r m (a ^^^ b) = mcComp r m a ^^^ mcComp r m b := by
  unfold mcComp
  rw [gfMC_xor_of_mem _ (MCM_mem 0 m (by omega) hm),
    gfMC_xor_of_mem _ (INVM_mem r 0 hr (by omega)),
    gfMC_xor_of_mem _ (MCM_mem 1 m (by omega) hm),
    gfMC_xor_of_mem _ (INVM_mem r 1 hr (by omega)),
    gfMC_xor_of_mem _ (MCM_mem 2 m (by omega) hm),
    gfMC_xor_of_mem _ (INVM_mem r 2 hr (by omega)),
    gfMC_xor_of_mem _ (MCM_mem 3 m (by omega) hm),
    gfMC_xor_of_mem _ (INVM_mem r 3 hr (by omega))]
  exact xor_interleave _ _ _ _ _ _ _ _

theorem mcComp_zero (r m : Nat) (hr : r < 4) (hm : m < 4) : mcComp r m 0 = 0 := by
  interval_cases r <;> interval_cases m <;> decide

theorem mcComp_basis : ∀ r, r < 4 → ∀ m, m < 4 → ∀ j, j < 8 →
    mcComp r m (1 <<< j) = if r = m then 1 <<< j else 0 := by decide

theorem byte_decomp : ∀ x, x < 256 →
    x = (((((((x >>> 0 &&& 1) <<< 0 ^^^ (x >>> 1 &&& 1) <<< 1) ^^^ (x >>> 2 &&& 1) <<< 2)
      ^^^ (x >>> 3 &&& 1) <<< 3) ^^^ (x >>> 4 &&& 1) <<< 4) ^^^ (x >>> 5 &&& 1) <<< 5)
      ^^^ (x >>> 6 &&& 1) <<< 6) ^^^ (x >>> 7 &&& 1) <<< 7 := by decide

theorem mcComp_bit (r m x j : Nat) (hr : r < 4) (hm : m < 4) (hj : j < 8) :
    mcComp r m ((x >>> j &&& 1) <<< j)
      = if r = m then (x >>> j &&& 1) <<< j else 0 := by
  rcases and_one_cases (x >>> j) with h | h
  · rw [h, Nat.zero_shiftLeft, mcComp_zero r m hr hm]
    rcases eq_or_ne r m with rfl | hne
    · rw [if_pos rfl]
    · rw [if_neg hne]
  · rw [h]
    exact mcComp_basis r hr m hm j hj

theorem mcComp_eq (r m x : Nat) (hr : r < 4) (hm : m < 4) (hx : x < 256) :
    mcComp r m x = if r = m then x else 0 := by
  have hmx : ∀ a b, mcComp r m (a ^^^ b) = mcComp r m a ^^^ mcComp r m b :=
    fun a b => mcComp_xor r m a b hr hm
  rw [byte_decomp x hx]
  simp only [hmx]
  rw [mcComp_bit r m x 0 hr hm (by omega), mcComp_bit r m x 1 hr hm (by omega),
    mcComp_bit r m x 2 hr hm (by omega), mcComp_bit r m x 3 hr hm (by omega),
    mcComp_bit r m x 4 hr hm (by omega), mcComp_bit r m x 5 hr hm (by omega),
    mcComp_bit r m x 6 hr hm (by omega), mcComp_bit r m x 7 hr hm (by omega)]
  rcases eq_or_ne r m with rfl | hne
  · simp
  · simp [hne]

theorem foldl_xor4 (g : Nat → Nat) :
    (List.range 4).foldl (fun sum k => sum ^^^ g k) 0 = ((g 0 ^^^ g 1) ^^^ g 2) ^^^ g 3 := by
  show (((0 ^^^ g 0) ^^^ g 1) ^^^ g 2) ^^^ g 3 = _
  rw [Nat.zero_xor]

theorem stE_mixColumns (st : AState) (r c : Nat) (hr : r < 4) (hc : c < 4) :
    stE (mixColumns st) r c
      = (List.range 4).foldl
          (fun sum k => sum ^^^ gfMultiplyConstant (stE st k c)
            ((MIX_COLUMNS_MATRIX.getD r []).getD k 0)) 0 := by
  unfold mixColumns
  exact stE_mk _ r c hr hc

theorem stE_invMixColumns (st : AState) (r c : Nat) (hr : r < 4) (hc : c < 4) :
    stE (invMixColumns st) r c
      = (List.range 4).foldl
          (fun sum k => sum ^^^ gfMultiplyConstant (stE st k c)
            ((INV_MIX_COLUMNS_MATRIX.getD r []).getD k 0)) 0 := by
  unfold invMixColumns
  exact stE_mk _ r c hr hc

set_option maxHeartbeats 1600000 in
theorem invMixColumns_mixColumns (st : AState) (hb : StB st) :
    invMixColumns (mixColumns st) = st := by
  apply astate_ext _ _ (St4_invMixColumns _) hb.1
  intro r c hr hc
  rw [stE_invMixColumns _ r c hr hc,
    foldl_xor4 (fun k => gfMultiplyConstant (stE (mixColumns st) k c)
      ((INV_MIX_COLUMNS_MATRIX.getD r []).getD k 0)),
    stE_mixColumns st 0 c (by omega) hc, stE_mixColumns st 1 c (by omega) hc,
    stE_mixColumns st 2 c (by omega) hc, stE_mixColumns st 3 c (by omega) hc,
    foldl_xor4 (fun k => gfMultiplyConstant (stE st k c)
      ((MIX_COLUMNS_MATRIX.getD 0 []).getD k 0)),
    foldl_xor4 (fun k => gfMultiplyConstant (stE st k c)
      ((MIX_COLUMNS_MATRIX.getD 1 []).getD k 0)),
    foldl_xor4 (fun k => gfMultiplyConstant (stE st k c)
      ((MIX_COLUMNS_MATRIX.getD 2 []).getD k 0)),
    foldl_xor4 (fun k => gfMultiplyConstant (stE st k c)
      ((MIX_COLUMNS_MATRIX.getD 3 []).getD k 0))]
  rw [gfMC_xor_of_mem _ (INVM_mem r 0 hr (by omega)),
    gfMC_xor_of_mem _ (INVM_mem r 0 hr (by omega)),
    gfMC_xor_of_mem _ (INVM_mem r 0 hr (by omega)),
    gfMC_xor_of_mem _ (INVM_mem r 1 hr (by omega)),
    gfMC_xor_of_mem _ (INVM_mem r 1 hr (by omega)),
    gfMC_xor_of_mem _ (INVM_mem r 1 hr (by omega)),
    gfMC_xor_of_mem _ (INVM_mem r 2 hr (by omega)),
    gfMC_xor_of_mem _ (INVM_mem r 2 hr (by omega)),
    gfMC_xor_of_mem _ (INVM_mem r 2 hr (by omega)),
    gfMC_xor_of_mem _ (INVM_mem r 3 hr (by omega)),
    gfMC_xor_of_mem _ (INVM_mem r 3 hr (by omega)),
    gfMC_xor_of_mem _ (INVM_mem r 3 hr (by omega))]
  have hregroup : ∀ v0 v1 v2 v3 : Nat,
      ((((((gfMultiplyConstant (gfMultiplyConstant v0 ((MIX_COLUMNS_MATRIX.getD 0 []).getD 0 0)) ((INV_MIX_COLUMNS_MATRIX.getD r []).getD 0 0)
        ^^^ gfMultiplyConstant (gfMultiplyConstant v1 ((MIX_COLUMNS_MATRIX.getD 0 []).getD 1 0)) ((INV_MIX_COLUMNS_MATRIX.getD r []).getD 0 0))
        ^^^ gfMultiplyConstant (gfMultiplyConstant v2 ((MIX_COLUMNS_MATRIX.getD 0 []).getD 2 0)) ((INV_MIX_COLUMNS_MATRIX.getD r []).getD 0 0))
        ^^^ gfMultiplyConstant (gfMultiplyConstant v3 ((MIX_COLUMNS_MATRIX.getD 0 []).getD 3 0)) ((INV_MIX_COLUMNS_MATRIX.getD r []).getD 0 0))
        ^^^ (((gfMultiplyConstant (gfMultiplyConstant v0 ((MIX_COLUMNS_MATRIX.getD 1 []).getD 0 0)) ((INV_MIX_COLUMNS_MATRIX.getD r []).getD 1 0)
        ^^^ gfMultiplyConstant (gfMultiplyConstant v1 ((MIX_COLUMNS_MATRIX.getD 1 []).getD 1 0)) ((INV_MIX_COLUMNS_MATRIX.getD r []).getD 1 0))
        ^^^ gfMultiplyConstant (gfMultiplyConstant v2 ((MIX_COLUMNS_MATRIX.getD 1 []).getD 2 0)) ((INV_MIX_COLUMNS_MATRIX.getD r []).getD 1 0))
        ^^^ gfMultiplyConstant (gfMultiplyConstant v3 ((MIX_COLUMNS_MATRIX.getD 1 []).getD 3 0)) ((INV_MIX_COLUMNS_MATRIX.getD r []).getD 1 0)))
        ^^^ (((gfMultiplyConstant (gfMultiplyConstant v0 ((MIX_COLUMNS_MATRIX.getD 2 []).getD 0 0)) ((INV_MIX_COLUMNS_MATRIX.getD r []).getD 2 0)
        ^^^ gfMultiplyConstant (gfMultiplyConstant v1 ((MIX_COLUMNS_MATRIX.getD 2 []).getD 1 0)) ((INV_MIX_COLUMNS_MATRIX.getD r []).getD 2 0))
        ^^^ gfMultiplyConstant (gfMultiplyConstant v2 ((MIX_COLUMNS_MATRIX.getD 2 []).getD 2 0)) ((INV_MIX_COLUMNS_MATRIX.getD r []).getD 2 0))
        ^^^ gfMultiplyConstant (gfMultiplyConstant v3 ((MIX_COLUMNS_MATRIX.getD 2 []).getD 3 0)) ((INV_MIX_COLUMNS_MATRIX.getD r []).getD 2 0)))
        ^^^ (((gfMultiplyConstant (gfMultiplyConstant v0 ((MIX_COLUMNS_MATRIX.getD 3 []).getD 0 0)) ((INV_MIX_COLUMNS_MATRIX.getD r []).getD 3 0)
        ^^^ gfMultiplyConstant (gfMultiplyConstant v1 ((MIX_COLUMNS_MATRIX.getD 3 []).getD 1 0)) ((INV_MIX_COLUMNS_MATRIX.getD r []).getD 3 0))
        ^^^ gfMultiplyConstant (gfMultiplyConstant v2 ((MIX_COLUMNS_MATRIX.getD 3 []).getD 2 0)) ((INV_MIX_COLUMNS_MATRIX.getD r []).getD 3 0))
        ^^^ gfMultiplyConstant (gfMultiplyConstant v3 ((MIX_COLUMNS_MATRIX.getD 3 []).getD 3 0)) ((INV_MIX_COLUMNS_MATRIX.getD r []).getD 3 0)))
      = ((mcComp r 0 v0 ^^^ mcComp r 1 v1) ^^^ mcComp r 2 v2) ^^^ mcComp r 3 v3 := by
    intro v0 v1 v2 v3
    unfold mcComp
    generalize gfMultiplyConstant (gfMultiplyConstant v0 ((MIX_COLUMNS_MATRIX.getD 0 []).getD 0 0)) ((INV_MIX_COLUMNS_MATRIX.getD r []).getD 0 0) = x00
    generalize gfMultiplyConstant (gfMultiplyConstant v1 ((MIX_COLUMNS_MATRIX.getD 0 []).getD 1 0)) ((INV_MIX_COLUMNS_MATRIX.getD r []).getD 0 0) = x01
    generalize gfMultiplyConstant (gfMultiplyConstant v2 ((MIX_COLUMNS_MATRIX.getD 0 []).getD 2 0)) ((INV_MIX_COLUMNS_MATRIX.getD r []).getD 0 0) = x02
    generalize gfMultiplyConstant (gfMultiplyConstant v3 ((MIX_COLUMNS_MATRIX.getD 0 []).getD 3 0)) ((INV_MIX_COLUMNS_MATRIX.getD r []).getD 0 0) = x03
    generalize gfMultiplyConstant (gfMultiplyConstant v0 ((MIX_COLUMNS_MATRIX.getD 1 []).getD 0 0)) ((INV_MIX_COLUMNS_MATRIX.getD r []).getD 1 0) = x10
    generalize gfMultiplyConstant (gfMultiplyConstant v1 ((MIX_COLUMNS_MATRIX.getD 1 []).getD 1 0)) ((INV_MIX_COLUMNS_MATRIX.getD r []).getD 1 0) = x11
    generalize gfMultiplyConstant (gfMultiplyConstant v2 ((MIX_COLUMNS_MATRIX.getD 1 []).getD 2 0)) ((INV_MIX_COLUMNS_MATRIX.getD r []).getD 1 0) = x12
    generalize gfMultiplyConstant (gfMultiplyConstant v3 ((MIX_COLUMNS_MATRIX.getD 1 []).getD 3 0)) ((INV_MIX_COLUMNS_MATRIX.getD r []).getD 1 0) = x13
    generalize gfMultiplyConstant (gfMultiplyConstant v0 ((MIX_COLUMNS_MATRIX.getD 2 []).getD 0 0)) ((INV_MIX_COLUMNS_MATRIX.getD r []).getD 2 0) = x20
    generalize gfMultiplyConstant (gfMultiplyConstant v1 ((MIX_COLUMNS_MATRIX.getD 2 []).getD 1 0)) ((INV_MIX_COLUMNS_MATRIX.getD r []).getD 2 0) = x21
    generalize gfMultiplyConstant (gfMultiplyConstant v2 ((MIX_COLUMNS_MATRIX.getD 2 []).getD 2 0)) ((INV_MIX_COLUMNS_MATRIX.getD r []).getD 2 0) = x22
    generalize gfMultiplyConstant (gfMultiplyConstant v3 ((MIX_COLUMNS_MATRIX.getD 2 []).getD 3 0)) ((INV_MIX_COLUMNS_MATRIX.getD r []).getD 2 0) = x23
    generalize gfMultiplyConstant (gfMultiplyConstant v0 ((MIX_COLUMNS_MATRIX.getD 3 []).getD 0 0)) ((INV_MIX_COLUMNS_MATRIX.getD r []).getD 3 0) = x30
    generalize gfMultiplyConstant (gfMultiplyConstant v1 ((MIX_COLUMNS_MATRIX.getD 3 []).getD 1 0)) ((INV_MIX_COLUMNS_MATRIX.getD r []).getD 3 0) = x31
    generalize gfMultiplyConstant (gfMultiplyConstant v2 ((MIX_COLUMNS_MATRIX.getD 3 []).getD 2 0)) ((INV_MIX_COLUMNS_MATRIX.getD r []).getD 3 0) = x32
    generalize gfMultiplyConstant (gfMultiplyConstant v3 ((MIX_COLUMNS_MATRIX.getD 3 []).getD 3 0)) ((INV_MIX_COLUMNS_MATRIX.getD r []).getD 3 0) = x33
    simp [Nat.xor_assoc, Nat.xor_comm, xor_left_comm]
  rw [hregroup (stE st 0 c) (stE st 1 c) (stE st 2 c) (stE st 3 c)]
  rw [mcComp_eq r 0 _ hr (by omega) (stE_lt st hb 0 c),
    mcComp_eq r 1 _ hr (by omega) (stE_lt st hb 1 c),
    mcComp_eq r 2 _ hr (by omega) (stE_lt st hb 2 c),
    mcComp_eq r 3 _ hr (by omega) (stE_lt st hb 3 c)]
  interval_cases r <;> simp

theorem xtime_lt (x : Nat) : xtime x < 256 := by
  simp only [xtime]
  have h1 : (x <<< 1) &&& 0xFF < 256 :=
    Nat.lt_succ_of_le Nat.and_le_right
  rcases Decidable.em (x &&& 0x80 ≠ 0) with h | h
  · rw [if_pos h]
    exact Nat.xor_lt_two_pow (n := 8) h1 (by omega)
  · rw [if_neg h]
    exact h1

theorem gfMC_lt (x e : Nat) (hx : x < 256)
    (he : e ∈ ([1, 2, 3, 9, 11, 13, 14] : List Nat)) :
    gfMultiplyConstant x e < 256 := by
  fin_cases he <;> simp only [gfMultiplyConstant] <;> norm_num
  · exact hx
  · exact xtime_lt x
  · exact Nat.xor_lt_two_pow (n := 8) (xtime_lt x) hx
  · exact Nat.xor_lt_two_pow (n := 8) (xtime_lt _) hx
  · exact Nat.xor_lt_two_pow (n := 8)
      (Nat.xor_lt_two_pow (n := 8) (xtime_lt _) (xtime_lt _)) hx
  · exact Nat.xor_lt_two_pow (n := 8)
      (Nat.xor_lt_two_pow (n := 8) (xtime_lt _) (xtime_lt _)) hx
  · exact Nat.xor_lt_two_pow (n := 8)
      (Nat.xor_lt_two_pow (n := 8) (xtime_lt _) (xtime_lt _)) (xtime_lt _)

theorem getD_list_lt (l : List Nat) (h : ∀ v ∈ l, v < 256) (i : Nat) :
    l.getD i 0 < 256 := by
  rcases lt_or_ge i l.length with hi | hi
  · rw [List.getD_eq_getElem _ _ hi]
    exact h _ (l.getElem_mem hi)
  · rw [List.getD_eq_default _ _ hi]
    omega

theorem KB_nil : KB ([] : AState) := by
  intro r c
  unfold stE
  simp [List.getD]

theorem KB_of_StB (k : AState) (hb : StB k) : KB k := fun r c => stE_lt k hb r c

theorem StB_addRoundKey (st k : AState) (hb : StB st) (hk : KB k) :
    StB (addRoundKey st k) := by
  unfold addRoundKey
  apply StB_mk
  intro i j hi hj
  exact Nat.xor_lt_two_pow (n := 8) (stE_lt st hb i j) (hk i j)

theorem StB_shiftRows (st : AState) (hb : StB st) : StB (shiftRows st) := by
  unfold shiftRows
  apply StB_mk
  intro i j _ _
  exact stE_lt st hb _ _

theorem StB_invShiftRows (st : AState) (hb : StB st) : StB (invShiftRows st) := by
  unfold invShiftRows
  apply StB_mk
  intro i j _ _
  exact stE_lt st hb _ _

theorem StB_mixColumns (st : AState) (hb : StB st) : StB (mixColumns st) := by
  unfold mixColumns
  apply StB_mk
  intro i j hi hj
  rw [foldl_xor4 (fun k => gfMultiplyConstant (stE st k j)
    ((MIX_COLUMNS_MATRIX.getD i []).getD k 0))]
  have hg : ∀ k, k < 4 → gfMultiplyConstant (stE st k j)
      ((MIX_COLUMNS_MATRIX.getD i []).getD k 0) < 256 :=
    fun k hk => gfMC_lt _ _ (stE_lt st hb k j) (MCM_mem i k hi hk)
  exact Nat.xor_lt_two_pow (n := 8)
    (Nat.xor_lt_two_pow (n := 8)
      (Nat.xor_lt_two_pow (n := 8) (hg 0 (by omega)) (hg 1 (by omega)))
      (hg 2 (by omega)))
    (hg 3 (by omega))

theorem StB_subBytes (st : AState) (sbox : List Nat) (hd : St4 st)
    (hsb : ∀ v, sbox.getD v 0 < 256) : StB (subBytes st sbox) := by
  refine ⟨St4_subBytes st sbox hd, ?_⟩
  intro r hr v hv
  unfold subBytes at hr
  simp only [List.mem_map] at hr
  obtain ⟨row, _, hrow⟩ := hr
  rw [← hrow] at hv
  simp only [List.mem_map] at hv
  obtain ⟨w, _, hw⟩ := hv
  rw [← hw]
  exact hsb w

theorem StB_bytesToState (bytes : List Nat) (hb : ∀ v ∈ bytes, v < 256) :
    StB (bytesToState bytes) := by
  unfold bytesToState
  apply StB_mk
  intro i j _ _
  exact getD_list_lt bytes hb _

theorem sbox_getD_lt (M : List Nat) (C : Nat) (hC : C < 256) :
    ∀ v, (generateSBox M C).getD v 0 < 256 := by
  intro v
  rcases lt_or_ge v 256 with hv | hv
  · exact generateSBox_lt M C v hv hC
  · rw [List.getD_eq_default _ _ (by unfold generateSBox; simpa using hv)]
    omega

theorem rcon_lt (j : Nat) : RCON.getD j 0 < 256 := by
  rcases lt_or_ge j 10 with hj | hj
  · interval_cases j <;> decide
  · rw [List.getD_eq_default _ _ (by unfold RCON; simpa using hj)]
    omega

theorem zipWith_xor_lt (l1 l2 : List Nat) (h1 : ∀ v ∈ l1, v < 256)
    (h2 : ∀ v ∈ l2, v < 256) :
    ∀ v ∈ l1.zipWith (fun a b => a ^^^ b) l2, v < 256 := by
  induction l1 generalizing l2 with
  | nil =>
    intro v hv
    exact absurd hv (by simp)
  | cons a t ih =>
    rcases l2 with _ | ⟨b, t2⟩
    · intro v hv
      exact absurd hv (by simp)
    · intro v hv
      rw [List.zipWith_cons_cons] at hv
      rcases List.mem_cons.mp hv with rfl | hv2
      · exact Nat.xor_lt_two_pow (n := 8) (h1 a (by simp)) (h2 b (by simp))
      · exact ih t2 (fun v hv => h1 v (by simp [hv])) (fun v hv => h2 v (by simp [hv])) v hv2

theorem WInv_getD (W : List (List Nat)) (h : WInv W) (j : Nat) :
    ∀ b ∈ W.getD j [], b < 256 := by
  rcases lt_or_ge j W.length with hj | hj
  · rw [List.getD_eq_getElem _ _ hj]
    exact h _ (W.getElem_mem hj)
  · rw [List.getD_eq_default _ _ hj]
    intro b hb
    exact absurd hb (by simp)

theorem keyExpandWord_WInv (sbox : List Nat) (hsb : ∀ v, sbox.getD v 0 < 256)
    (W : List (List Nat)) (i : Nat) (h : WInv W) : WInv (keyExpandWord sbox W i) := by
  unfold keyExpandWord
  intro w hw
  rw [List.mem_append] at hw
  rcases hw with hw | hw
  · exact h w hw
  · rw [List.mem_singleton] at hw
    subst hw
    apply zipWith_xor_lt _ _ (WInv_getD W h _)
    rcases Decidable.em (i % 4 = 0) with h4 | h4
    · rw [if_pos h4]
      intro v hv
      rcases List.mem_cons.mp hv with rfl | hv
      · exact Nat.xor_lt_two_pow (n := 8) (hsb _) (rcon_lt _)
      · rcases List.mem_cons.mp hv with rfl | hv
        · exact hsb _
        · rcases List.mem_cons.mp hv with rfl | hv
          · exact hsb _
          · rcases List.mem_cons.mp hv with rfl | hv
            · exact hsb _
            · exact absurd hv (by simp)
    · rw [if_neg h4]
      exact WInv_getD W h _

theorem KB_mk (f : Nat → Nat → Nat) (hf : ∀ i j, i < 4 → j < 4 → f i j < 256) :
    KB ((List.range 4).map fun i => (List.range 4).map fun j => f i j) := by
  intro r c
  rcases lt_or_ge r 4 with hr | hr
  · have hrow : ((List.range 4).map fun i => (List.range 4).map fun j => f i j).getD r []
        = (List.range 4).map fun j => f r j := by
      rw [List.getD_eq_getElem _ _ (by simpa using hr), List.getElem_map, List.getElem_range]
    rcases lt_or_ge c 4 with hc | hc
    · rw [stE_mk f r c hr hc]
      exact hf r c hr hc
    · unfold stE
      rw [hrow, List.getD_eq_default _ _ (by simpa using hc)]
      omega
  · have hrow : ((List.range 4).map fun i => (List.range 4).map fun j => f i j).getD r []
        = [] := List.getD_eq_default _ _ (by simpa using hr)
    unfold stE
    rw [hrow]
    simp

theorem keyExpansion_StB (key sbox : List Nat) (hkey : ∀ v ∈ key, v < 256)
    (hsb : ∀ v, sbox.getD v 0 < 256) :
    ∀ j, KB ((keyExpansion key sbox).getD j []) := by
  have hW0 : WInv ((List.range 4).map fun i =>
      [key.getD (4 * i) 0, key.getD (4 * i + 1) 0, key.getD (4 * i + 2) 0,
       key.getD (4 * i + 3) 0]) := by
    intro w hw
    simp only [List.mem_map, List.mem_range] at hw
    obtain ⟨i, _, hi⟩ := hw
    rw [← hi]
    intro b hb
    rcases List.mem_cons.mp hb with rfl | hb
    · exact getD_list_lt key hkey _
    · rcases List.mem_cons.mp hb with rfl | hb
      · exact getD_list_lt key hkey _
      · rcases List.mem_cons.mp hb with rfl | hb
        · exact getD_list_lt key hkey _
        · rcases List.mem_cons.mp hb with rfl | hb
          · exact getD_list_lt key hkey _
          · exact absurd hb (by simp)
  have hfold : ∀ (l : List Nat) (W : List (List Nat)), WInv W →
      WInv (l.foldl (keyExpandWord sbox) W) := by
    intro l
    induction l with
    | nil => intro W h; exact h
    | cons a t ih =>
      intro W h
      rw [List.foldl_cons]
      exact ih _ (keyExpandWord_WInv sbox hsb W a h)
  have hWall : WInv ((List.range' 4 40).foldl (keyExpandWord sbox)
      ((List.range 4).map fun i =>
        [key.getD (4 * i) 0, key.getD (4 * i + 1) 0, key.getD (4 * i + 2) 0,
         key.getD (4 * i + 3) 0])) := hfold _ _ hW0
  intro j
  unfold keyExpansion
  rcases lt_or_ge j 11 with hj | hj
  · rw [List.getD_eq_getElem _ _ (by simpa using hj), List.getElem_map, List.getElem_range]
    apply KB_mk
    intro r c _ _
    exact getD_list_lt _ (WInv_getD _ hWall _) _
  · rw [List.getD_eq_default _ _ (by simpa using hj)]
    exact KB_nil

theorem StB_encRound (rks : List AState) (sbox : List Nat) (st : AState) (round : Nat)
    (hb : StB st) (hsb : ∀ v, sbox.getD v 0 < 256) (hrk : ∀ j, KB (rks.getD j [])) :
    StB (encRound rks sbox st round) := by
  unfold encRound
  exact StB_addRoundKey _ _
    (StB_mixColumns _ (StB_shiftRows _ (StB_subBytes _ _ hb.1 hsb))) (hrk round)

theorem encFold_StB (rks : List AState) (sbox : List Nat)
    (hsb : ∀ v, sbox.getD v 0 < 256) (hrk : ∀ j, KB (rks.getD j [])) :
    ∀ (l : List Nat) (st : AState), StB st → StB (l.foldl (encRound rks sbox) st) := by
  intro l
  induction l with
  | nil => intro st h; exact h
  | cons a t ih =>
    intro st h
    rw [List.foldl_cons]
    exact ih _ (StB_encRound rks sbox st a h hsb hrk)

theorem decRound_encRound (rks : List AState) (sbox : List Nat)
    (invSbox : List (Option Nat)) (st : AState) (round : Nat) (hb : StB st)
    (hsb : ∀ v, sbox.getD v 0 < 256) (hrk : ∀ j, KB (rks.getD j []))
    (hinv : ∀ v, v < 256 → invSbox.getD (sbox.getD v 0) none = some v) :
    decRound rks invSbox (encRound rks sbox st round) round = some st := by
  unfold decRound encRound
  rw [addRoundKey_addRoundKey _ _ (St4_mixColumns _),
    invMixColumns_mixColumns _ (StB_shiftRows _ (StB_subBytes _ _ hb.1 hsb)),
    invShiftRows_shiftRows _ (St4_subBytes _ _ hb.1)]
  exact invSubBytes_subBytes st sbox invSbox hb.1 hb.2 hinv

theorem decFold_encFold (rks : List AState) (sbox : List Nat)
    (invSbox : List (Option Nat)) (hsb : ∀ v, sbox.getD v 0 < 256)
    (hrk : ∀ j, KB (rks.getD j []))
    (hinv : ∀ v, v < 256 → invSbox.getD (sbox.getD v 0) none = some v)
    (l : List Nat) :
    ∀ (st : AState), StB st →
    (l.reverse).foldlM (decRound rks invSbox) (l.foldl (encRound rks sbox) st)
      = some st := by
  induction l using List.reverseRecOn with
  | nil =>
    intro st _
    rfl
  | append_singleton t a ih =>
    intro st hb
    rw [List.foldl_append, List.foldl_cons, List.foldl_nil, List.reverse_append]
    rw [show ([a] : List Nat).reverse = [a] from rfl]
    rw [show ([a] : List Nat) ++ t.reverse = a :: t.reverse from rfl, List.foldlM_cons]
    rw [decRound_encRound rks sbox invSbox _ a (encFold_StB rks sbox hsb hrk t st hb)
      hsb hrk hinv]
    exact ih st hb

set_option maxHeartbeats 1600000 in
theorem decryptBlock_encryptBlock (M : List Nat) (C : Nat) (block key : List Nat)
    (hM : isMatrixValid M = true) (hC : C < 256)
    (hlen : block.length = 16) (hblock : ∀ v ∈ block, v < 256)
    (hkey : ∀ v ∈ key, v < 256) :
    decryptBlock (encryptBlock block key (generateSBox M C)) key (generateSBox M C)
      = some block := by
  have hsb : ∀ v, (generateSBox M C).getD v 0 < 256 := sbox_getD_lt M C hC
  have hrk : ∀ j, KB ((keyExpansion key (generateSBox M C)).getD j []) :=
    keyExpansion_StB key _ hkey hsb
  have hinv : ∀ v, v < 256 →
      (generateInverseSBox (generateSBox M C)).getD ((generateSBox M C).getD v 0) none
        = some v := fun v hv => inverseSBox_lookup M C v hM hC hv
  set sbox := generateSBox M C with hsbox
  set rks := keyExpansion key sbox with hrksdef
  set st0 := addRoundKey (bytesToState block) (rks.getD 0 []) with hst0
  set stF := (List.range' 1 9).foldl (encRound rks sbox) st0 with hstF
  have hb0 : StB st0 :=
    StB_addRoundKey _ _ (StB_bytesToState block hblock) (hrk 0)
  have hbF : StB stF := encFold_StB rks sbox hsb hrk _ st0 hb0
  have henc : encryptBlock block key sbox
      = stateToBytes (addRoundKey (shiftRows (subBytes stF sbox)) (rks.getD 10 [])) := rfl
  have h1 : bytesToState (encryptBlock block key sbox)
      = addRoundKey (shiftRows (subBytes stF sbox)) (rks.getD 10 []) := by
    rw [henc]
    exact bytesToState_stateToBytes _ (St4_addRoundKey _ _)
  have h2 : addRoundKey (bytesToState (encryptBlock block key sbox)) (rks.getD 10 [])
      = shiftRows (subBytes stF sbox) := by
    rw [h1]
    exact addRoundKey_addRoundKey _ _ (St4_shiftRows _)
  have h3 : invShiftRows (addRoundKey (bytesToState (encryptBlock block key sbox))
      (rks.getD 10 [])) = subBytes stF sbox := by
    rw [h2]
    exact invShiftRows_shiftRows _ (St4_subBytes _ _ hbF.1)
  have h4 : invSubBytes (invShiftRows (addRoundKey
      (bytesToState (encryptBlock block key sbox)) (rks.getD 10 [])))
      (generateInverseSBox sbox) = some stF := by
    rw [h3]
    exact invSubBytes_subBytes stF sbox _ hbF.1 hbF.2 hinv
  have h5 : ((List.range' 1 9).reverse).foldlM (decRound rks (generateInverseSBox sbox))
      stF = some st0 := by
    rw [hstF]
    exact decFold_encFold rks sbox _ hsb hrk hinv (List.range' 1 9) st0 hb0
  have h6 : addRoundKey st0 (rks.getD 0 []) = bytesToState block := by
    rw [hst0]
    exact addRoundKey_addRoundKey _ _ (St4_bytesToState _)
  show decryptBlock (encryptBlock block key sbox) key sbox = some block
  unfold decryptBlock
  simp only [← hrksdef]
  rw [h4]
  simp only [Option.bind_eq_bind, Option.some_bind]
  rw [h5]
  simp only [Option.some_bind]
  rw [h6, stateToBytes_bytesToState block hlen]
  rfl

theorem encryptBlock_length (block key sbox : List Nat) :
    (encryptBlock block key sbox).length = 16 := stateToBytes_length _

theorem chunks16_flatten : ∀ (fuel : Nat) (data : List Nat), data.length ≤ fuel →
    (chunks16 fuel data).flatten = data := by
  intro fuel
  induction fuel with
  | zero =>
    intro data h
    have : data = [] := List.eq_nil_of_length_eq_zero (by omega)
    subst this
    rfl
  | succ f ih =>
    intro data h
    show (if data.length = 0 then [] else data.take 16 :: chunks16 f (data.drop 16)).flatten
      = data
    rcases Decidable.em (data.length = 0) with h0 | h0
    · rw [if_pos h0]
      have : data = [] := List.eq_nil_of_length_eq_zero h0
      subst this
      rfl
    · rw [if_neg h0]
      rw [List.flatten_cons, ih (data.drop 16) (by rw [List.length_drop]; omega)]
      exact List.take_append_drop 16 data

theorem chunks16_length_mem : ∀ (fuel : Nat) (data : List Nat), 16 ∣ data.length →
    ∀ b ∈ chunks16 fuel data, b.length = 16 := by
  intro fuel
  induction fuel with
  | zero =>
    intro data _ b hb
    exact absurd hb (by simp [chunks16])
  | succ f ih =>
    intro data hdvd b hb
    rw [show chunks16 (f + 1) data
      = (if data.length = 0 then [] else data.take 16 :: chunks16 f (data.drop 16))
      from rfl] at hb
    rcases Decidable.em (data.length = 0) with h0 | h0
    · rw [if_pos h0] at hb
      exact absurd hb (by simp)
    · rw [if_neg h0] at hb
      have h16 : 16 ≤ data.length := by
        obtain ⟨k, hk⟩ := hdvd
        omega
      rcases List.mem_cons.mp hb with rfl | hb2
      · rw [List.length_take]
        omega
      · apply ih (data.drop 16) _ b hb2
        rw [List.length_drop]
        obtain ⟨k, hk⟩ := hdvd
        exact ⟨k - 1, by omega⟩

theorem chunks16_subset : ∀ (fuel : Nat) (data : List Nat),
    ∀ b ∈ chunks16 fuel data, ∀ v ∈ b, v ∈ data := by
  intro fuel
  induction fuel with
  | zero =>
    intro data b hb
    exact absurd hb (by simp [chunks16])
  | succ f ih =>
    intro data b hb v hv
    rw [show chunks16 (f + 1) data
      = (if data.length = 0 then [] else data.take 16 :: chunks16 f (data.drop 16))
      from rfl] at hb
    rcases Decidable.em (data.length = 0) with h0 | h0
    · rw [if_pos h0] at hb
      exact absurd hb (by simp)
    · rw [if_neg h0] at hb
      rcases List.mem_cons.mp hb with rfl | hb2
      · exact List.take_subset 16 data hv
      · exact List.drop_subset 16 data (ih (data.drop 16) b hb2 v hv)

theorem chunks16_join : ∀ (blocks : List (List Nat)) (fuel : Nat),
    (∀ b ∈ blocks, b.length = 16) → blocks.flatten.length ≤ fuel →
    chunks16 fuel blocks.flatten = blocks := by
  intro blocks
  induction blocks with
  | nil =>
    intro fuel _ _
    cases fuel <;> rfl
  | cons b bs ih =>
    intro fuel hlen hfuel
    have hb16 : b.length = 16 := hlen b (by simp)
    have hflat : (b :: bs).flatten = b ++ bs.flatten := List.flatten_cons
    rw [hflat] at hfuel ⊢
    have hlenapp : (b ++ bs.flatten).length = 16 + bs.flatten.length := by
      rw [List.length_append, hb16]
    obtain ⟨f, rfl⟩ : ∃ f, fuel = f + 1 := ⟨fuel - 1, by omega⟩
    show (if (b ++ bs.flatten).length = 0 then []
      else (b ++ bs.flatten).take 16 :: chunks16 f ((b ++ bs.flatten).drop 16)) = b :: bs
    rw [if_neg (by omega)]
    have htake : (b ++ bs.flatten).take 16 = b := by
      rw [List.take_append_of_le_length (by omega), ← hb16, List.take_length]
    have hdrop : (b ++ bs.flatten).drop 16 = bs.flatten := by
      rw [List.drop_append_of_le_length (by omega), ← hb16, List.drop_length,
        List.nil_append]
    rw [htake, hdrop, ih f (fun x hx => hlen x (by simp [hx])) (by omega)]

theorem getD_append_left (l l' : List Nat) (n : Nat) (h : n < l.length) :
    (l ++ l').getD n 0 = l.getD n 0 := List.getD_append l l' 0 n h

theorem pkcs7Unpad_pkcs7Pad (data : List Nat) :
    pkcs7Unpad (pkcs7Pad data) = .ok data := by
  set padLen := 16 - data.length % 16 with hpaddef
  have hpl1 : 1 ≤ padLen := by omega
  have hpl16 : padLen ≤ 16 := by omega
  have hplen : (pkcs7Pad data).length = data.length + padLen := by
    unfold pkcs7Pad
    rw [List.length_append, List.length_replicate]
  have hlast : ∀ i, data.length ≤ i → i < data.length + padLen →
      (pkcs7Pad data).getD i 0 = padLen := by
    intro i h1 h2
    unfold pkcs7Pad
    rw [List.getD_append_right _ _ _ _ h1, List.getD_eq_getElem _ _
      (by rw [List.length_replicate]; omega), List.getElem_replicate]
  unfold pkcs7Unpad
  rw [if_neg (by omega)]
  have hgetlast : (pkcs7Pad data).getD ((pkcs7Pad data).length - 1) 0 = padLen := by
    rw [hplen]
    exact hlast _ (by omega) (by omega)
  rw [hgetlast]
  rw [if_neg (by omega), if_neg (by omega)]
  have hfind : (List.range' ((pkcs7Pad data).length - padLen) padLen).find?
      (fun i => decide ((pkcs7Pad data).getD i 0 ≠ padLen)) = none := by
    rw [List.find?_eq_none]
    intro i hi
    rw [List.mem_range'_1, hplen] at hi
    rw [decide_eq_true_eq]
    intro hne
    exact hne (hlast i (by omega) (by omega))
  rw [hfind]
  have htake : (pkcs7Pad data).take ((pkcs7Pad data).length - padLen) = data := by
    rw [hplen]
    unfold pkcs7Pad
    rw [show data.length + padLen - padLen = data.length by omega,
      List.take_append_of_le_length le_rfl, List.take_length]
  rw [htake]

theorem utf8EncodeChar_lt (c : Nat) (hc : isScalar c) :
    ∀ v ∈ utf8EncodeChar c, v < 256 := by
  obtain ⟨hc1, _⟩ := hc
  unfold utf8EncodeChar
  rcases Decidable.em (c < 0x80) with h1 | h1
  · rw [if_pos h1]
    intro v hv
    rw [List.mem_singleton] at hv
    omega
  · rw [if_neg h1]
    rcases Decidable.em (c < 0x800) with h2 | h2
    · rw [if_pos h2]
      intro v hv
      rcases List.mem_cons.mp hv with rfl | hv
      · omega
      · rw [List.mem_singleton] at hv
        omega
    · rw [if_neg h2]
      rcases Decidable.em (c < 0x10000) with h3 | h3
      · rw [if_pos h3]
        intro v hv
        rcases List.mem_cons.mp hv with rfl | hv
        · omega
        · rcases List.mem_cons.mp hv with rfl | hv
          · omega
          · rw [List.mem_singleton] at hv
            omega
      · rw [if_neg h3]
        intro v hv
        rcases List.mem_cons.mp hv with rfl | hv
        · omega
        · rcases List.mem_cons.mp hv with rfl | hv
          · omega
          · rcases List.mem_cons.mp hv with rfl | hv
            · omega
            · rw [List.mem_singleton] at hv
              omega

theorem utf8Encode_lt (s : List Nat) (hs : ∀ c ∈ s, isScalar c) :
    ∀ v ∈ utf8Encode s, v < 256 := by
  intro v hv
  unfold utf8Encode at hv
  rw [List.mem_flatMap] at hv
  obtain ⟨c, hc, hvc⟩ := hv
  exact utf8EncodeChar_lt c (hs c hc) v hvc

theorem utf8Decode_step1 (fuel b : Nat) (rest : List Nat) (h : b < 0x80) :
    utf8Decode (fuel + 1) (b :: rest) = (utf8Decode fuel rest).map (b :: ·) := by
  simp only [utf8Decode]
  rw [if_pos h]

theorem utf8Decode_step2 (fuel b b2 : Nat) (rest : List Nat)
    (h1 : ¬b < 0x80) (h2 : b < 0xE0) (h3 : 0xC2 ≤ b ∧ 0x80 ≤ b2 ∧ b2 < 0xC0) :
    utf8Decode (fuel + 1) (b :: b2 :: rest)
      = (utf8Decode fuel rest).map (((b - 0xC0) * 64 + (b2 - 0x80)) :: ·) := by
  simp only [utf8Decode]
  rw [if_neg h1, if_pos h2, if_pos h3]

theorem utf8Decode_step3 (fuel b b2 b3 : Nat) (rest : List Nat)
    (h1 : ¬b < 0x80) (h2 : ¬b < 0xE0) (h3 : b < 0xF0)
    (h4 : 0x80 ≤ b2 ∧ b2 < 0xC0 ∧ 0x80 ≤ b3 ∧ b3 < 0xC0)
    (h5 : 0x800 ≤ (b - 0xE0) * 4096 + (b2 - 0x80) * 64 + (b3 - 0x80)
      ∧ ¬(0xD800 ≤ (b - 0xE0) * 4096 + (b2 - 0x80) * 64 + (b3 - 0x80)
          ∧ (b - 0xE0) * 4096 + (b2 - 0x80) * 64 + (b3 - 0x80) < 0xE000)) :
    utf8Decode (fuel + 1) (b :: b2 :: b3 :: rest)
      = (utf8Decode fuel rest).map
          (((b - 0xE0) * 4096 + (b2 - 0x80) * 64 + (b3 - 0x80)) :: ·) := by
  simp only [utf8Decode]
  rw [if_neg h1, if_neg h2, if_pos h3]
  show (if 0x80 ≤ b2 ∧ b2 < 0xC0 ∧ 0x80 ≤ b3 ∧ b3 < 0xC0 then _ else none) = _
  rw [if_pos h4, if_pos h5]

theorem utf8Decode_step4 (fuel b b2 b3 b4 : Nat) (rest : List Nat)
    (h1 : ¬b < 0x80) (h2 : ¬b < 0xE0) (h3 : ¬b < 0xF0)
    (h4 : b < 0xF5 ∧ 0x80 ≤ b2 ∧ b2 < 0xC0 ∧ 0x80 ≤ b3 ∧ b3 < 0xC0 ∧ 0x80 ≤ b4
      ∧ b4 < 0xC0)
    (h5 : 0x10000 ≤ (b - 0xF0) * 262144 + (b2 - 0x80) * 4096 + (b3 - 0x80) * 64
        + (b4 - 0x80)
      ∧ (b - 0xF0) * 262144 + (b2 - 0x80) * 4096 + (b3 - 0x80) * 64 + (b4 - 0x80)
        < 0x110000) :
    utf8Decode (fuel + 1) (b :: b2 :: b3 :: b4 :: rest)
      = (utf8Decode fuel rest).map
          (((b - 0xF0) * 262144 + (b2 - 0x80) * 4096 + (b3 - 0x80) * 64 + (b4 - 0x80))
            :: ·) := by
  simp only [utf8Decode]
  rw [if_neg h1, if_neg h2, if_neg h3]
  show (if b < 0xF5 ∧ 0x80 ≤ b2 ∧ b2 < 0xC0 ∧ 0x80 ≤ b3 ∧ b3 < 0xC0 ∧ 0x80 ≤ b4
      ∧ b4 < 0xC0 then _ else none) = _
  rw [if_pos h4, if_pos h5]

theorem utf8Decode_encode (s : List Nat) :
    ∀ (fuel : Nat), (∀ c ∈ s, isScalar c) → s.length ≤ fuel →
    utf8Decode fuel (utf8Encode s) = some s := by
  induction s with
  | nil =>
    intro fuel _ _
    show utf8Decode fuel [] = some []
    cases fuel <;> rfl
  | cons c t ih =>
    intro fuel hs hfuel
    rw [List.length_cons] at hfuel
    obtain ⟨f, rfl⟩ : ∃ f, fuel = f + 1 := ⟨fuel - 1, by omega⟩
    have hc : isScalar c := hs c (by simp)
    obtain ⟨hc1, hc2⟩ := hc
    have hrec : utf8Decode f (utf8Encode t) = some t :=
      ih f (fun x hx => hs x (by simp [hx])) (by omega)
    have hflat : utf8Encode (c :: t) = utf8EncodeChar c ++ utf8Encode t := by
      unfold utf8Encode
      rw [List.flatMap_cons]
    rw [hflat]
    unfold utf8EncodeChar
    rcases Decidable.em (c < 0x80) with h1 | h1
    · rw [if_pos h1]
      rw [show ([c] : List Nat) ++ utf8Encode t = c :: utf8Encode t from rfl]
      rw [utf8Decode_step1 f c _ h1, hrec]
      rfl
    · rw [if_neg h1]
      rcases Decidable.em (c < 0x800) with h2 | h2
      · rw [if_pos h2]
        rw [show ([0xC0 + c / 64, 0x80 + c % 64] : List Nat) ++ utf8Encode t
          = (0xC0 + c / 64) :: (0x80 + c % 64) :: utf8Encode t from rfl]
        rw [utf8Decode_step2 f _ _ _ (by omega) (by omega) (by omega), hrec,
          Option.map_some']
        exact congrArg (fun z => some (z :: t))
          (by omega : (0xC0 + c / 64 - 0xC0) * 64 + (0x80 + c % 64 - 0x80) = c)
      · rw [if_neg h2]
        rcases Decidable.em (c < 0x10000) with h3 | h3
        · rw [if_pos h3]
          rw [show ([0xE0 + c / 4096, 0x80 + c / 64 % 64, 0x80 + c % 64] : List Nat)
            ++ utf8Encode t
            = (0xE0 + c / 4096) :: (0x80 + c / 64 % 64) :: (0x80 + c % 64)
              :: utf8Encode t from rfl]
          rw [utf8Decode_step3 f _ _ _ _ (by omega) (by omega) (by omega) (by omega)
            (by omega), hrec, Option.map_some']
          exact congrArg (fun z => some (z :: t))
            (by omega : (0xE0 + c / 4096 - 0xE0) * 4096 + (0x80 + c / 64 % 64 - 0x80) * 64
              + (0x80 + c % 64 - 0x80) = c)
        · rw [if_neg h3]
          rw [show ([0xF0 + c / 262144, 0x80 + c / 4096 % 64, 0x80 + c / 64 % 64,
              0x80 + c % 64] : List Nat) ++ utf8Encode t
            = (0xF0 + c / 262144) :: (0x80 + c / 4096 % 64) :: (0x80 + c / 64 % 64)
              :: (0x80 + c % 64) :: utf8Encode t from rfl]
          rw [utf8Decode_step4 f _ _ _ _ _ (by omega) (by omega) (by omega) (by omega)
            (by omega), hrec, Option.map_some']
          exact congrArg (fun z => some (z :: t))
            (by omega : (0xF0 + c / 262144 - 0xF0) * 262144
              + (0x80 + c / 4096 % 64 - 0x80) * 4096 + (0x80 + c / 64 % 64 - 0x80) * 64
              + (0x80 + c % 64 - 0x80) = c)

theorem utf8EncodeChar_length_pos (c : Nat) : 1 ≤ (utf8EncodeChar c).length := by
  unfold utf8EncodeChar
  rcases Decidable.em (c < 0x80) with h1 | h1
  · rw [if_pos h1]
    simp
  · rw [if_neg h1]
    rcases Decidable.em (c < 0x800) with h2 | h2
    · rw [if_pos h2]
      simp
    · rw [if_neg h2]
      rcases Decidable.em (c < 0x10000) with h3 | h3
      · rw [if_pos h3]
        simp
      · rw [if_neg h3]
        simp

theorem utf8Encode_length_ge (s : List Nat) : s.length ≤ (utf8Encode s).length := by
  induction s with
  | nil => simp [utf8Encode]
  | cons c t ih =>
    unfold utf8Encode
    rw [List.flatMap_cons, List.length_append, List.length_cons]
    have := utf8EncodeChar_length_pos c
    unfold utf8Encode at ih
    omega

theorem isScalar_zero : isScalar 0 := by
  unfold isScalar
  omega

theorem canonKey_scalar (keyStr : List Nat) (hk : ∀ c ∈ keyStr, isScalar c) :
    ∀ c ∈ canonKey keyStr, isScalar c := by
  intro c hc
  unfold canonKey at hc
  have hc2 := List.take_subset _ _ hc
  rw [List.mem_append] at hc2
  rcases hc2 with h | h
  · exact hk c h
  · rw [List.eq_of_mem_replicate h]
    exact isScalar_zero

/-- C1: for every well-formed plaintext of at most 1000 scalar values,
every key string of 1–16 scalar values, and every S-box generated from
a matrix the program itself deems invertible with a byte constant,
decryption inverts encryption exactly. -/
theorem decrypt_encrypt (pt keyStr M : List Nat) (C : Nat)
    (hpt : ∀ c ∈ pt, isScalar c) (hptlen : pt.length ≤ 1000)
    (hklen1 : 1 ≤ keyStr.length) (hklen16 : keyStr.length ≤ 16)
    (hkscalar : ∀ c ∈ keyStr, isScalar c)
    (hM : isMatrixValid M = true) (hC : C < 256) :
    decrypt (encrypt pt keyStr (generateSBox M C)) keyStr (generateSBox M C)
      = .ok pt := by
  set sbox := generateSBox M C with hsboxdef
  set key := utf8Encode (canonKey keyStr) with hkeydef
  have hkeybytes : ∀ v ∈ key, v < 256 :=
    utf8Encode_lt _ (canonKey_scalar keyStr hkscalar)
  set data := pkcs7Pad (utf8Encode pt) with hdatadef
  have hdata_bytes : ∀ v ∈ data, v < 256 := by
    intro v hv
    rw [hdatadef] at hv
    unfold pkcs7Pad at hv
    rw [List.mem_append] at hv
    rcases hv with h | h
    · exact utf8Encode_lt _ hpt v h
    · rw [List.eq_of_mem_replicate h]
      omega
  have hdvd : 16 ∣ data.length := by
    rw [hdatadef]
    unfold pkcs7Pad
    rw [List.length_append, List.length_replicate]
    refine ⟨(utf8Encode pt).length / 16 + 1, ?_⟩
    omega
  set blocks := (chunks16 data.length data).map (fun b => encryptBlock b key sbox)
    with hblocksdef
  have henc : encrypt pt keyStr sbox = blocks.flatten := by
    unfold encrypt
    rw [List.flatMap_def]
  have hblocks16 : ∀ b ∈ blocks, b.length = 16 := by
    intro b hb
    rw [hblocksdef] at hb
    rw [List.mem_map] at hb
    obtain ⟨x, _, hx⟩ := hb
    rw [← hx]
    exact encryptBlock_length x key sbox
  have hchunks_ct : chunks16 blocks.flatten.length blocks.flatten = blocks :=
    chunks16_join blocks _ hblocks16 le_rfl
  have hmapM : blocks.mapM (fun b => decryptBlock b key sbox)
      = some (chunks16 data.length data) := by
    rw [hblocksdef]
    apply mapM_map_roundtrip
    intro b hb
    exact decryptBlock_encryptBlock M C b key hM hC
      (chunks16_length_mem data.length data hdvd b hb)
      (fun v hv => hdata_bytes v (chunks16_subset data.length data b hb v hv))
      hkeybytes
  have hflatD : (chunks16 data.length data).flatten = data :=
    chunks16_flatten data.length data le_rfl
  have hunpad : pkcs7Unpad data = .ok (utf8Encode pt) := by
    rw [hdatadef]
    exact pkcs7Unpad_pkcs7Pad _
  have hdecode : utf8Decode (utf8Encode pt).length (utf8Encode pt) = some pt :=
    utf8Decode_encode pt _ hpt (utf8Encode_length_ge pt)
  show decrypt (encrypt pt keyStr sbox) keyStr sbox = .ok pt
  unfold decrypt
  simp only [← hkeydef, henc, hchunks_ct, hmapM, hflatD, hunpad, hdecode]

theorem decrypt_encrypt_witness :
    decrypt (encrypt [] [107] (generateSBox K44_MATRIX 0x63)) [107]
      (generateSBox K44_MATRIX 0x63) = .ok [] :=
  decrypt_encrypt [] [107] K44_MATRIX 0x63 (by simp [isScalar]) (by decide)
    (by decide) (by decide) (by simp [isScalar]) (by decide) (by decide)

/-! ## Claim C8 -/

/-- C8: the two multiplicative-inverse code paths agree bit-for-bit:
for every byte `x`, the table lookup `gfInverse x` equals the
exponentiation-based `gfInverseComputed x`; `gfInverse 0 = 0`; for every
nonzero byte `x`, `gfMultiply x (gfInverse x) = 1`; and
`verifyInverseTable` returns `true`. -/
theorem gfInverse_agrees :
    (∀ x, x < 256 → gfInverse x = gfInverseComputed x) ∧ gfInverse 0 = 0 ∧
    (∀ x, x ≠ 0 → x < 256 → gfMultiply x (gfInverse x) = 1) ∧ verifyInverseTable = true := by
  have hA : ((List.range 256).all fun x => gfInverse x == gfInverseComputed x) = true := by rfl
  have hB : ((List.range' 1 255).all fun x => gfMultiply x (gfInverse x) == 1) = true := by rfl
  rw [List.all_eq_true] at hA hB
  refine ⟨fun x hx => ?_, rfl, fun x hx0 hx => ?_, by rfl⟩
  · exact eq_of_beq (hA x (List.mem_range.mpr hx))
  · exact eq_of_beq (hB x (List.mem_range'_1.mpr ⟨by omega, by omega⟩))

/-- Witness for C8 at the concrete byte 3. -/
theorem gfInverse_agrees_witness :
    gfInverse 3 = gfInverseComputed 3 ∧ gfMultiply 3 (gfInverse 3) = 1 :=
  ⟨gfInverse_agrees.1 3 (by norm_num), gfInverse_agrees.2.2.1 3 (by norm_num) (by norm_num)⟩

end Kripto
